import Mathlib

/-! # Record store of the spindle tracker (`src/app.js`)

A shallow embedding of the persistence layer of `src/app.js`: `parseCsv`,
`stringifyCsv`, `nextId` and the `DataManager` class (`all`, `save`, `add`,
`update`, `delete`), followed by theorems about them.

Modelling conventions.

* Text is a list of characters.  The JavaScript operations used by the store
  (`trim`, `split`, `replace`, `join`) only inspect characters of the basic
  plane, so they act on code points exactly as they act on UTF-16 code units.
* A JavaScript object with string values is an association list read with
  first-match lookup; an assignment `row[k] = v` puts the binding in front, a
  spread `{...a, ...b}` puts the bindings of `b` in front of those of `a`.
  The store only ever reads rows by key, so key enumeration order is not
  represented.  Header names are assumed to be ordinary own keys (not members
  of `Object.prototype`).
* The backing file is its text.  Every `DataManager` method reads the whole
  file, computes, and writes the whole file, so a method is a function from the
  old text to the new text and the returned value.
* Field values are strings, as the request handlers supply them.
* JavaScript numbers are modelled on the fragment where they are exact: the
  naturals up to `2 ^ 53`.  `toNumber` and `nextId` return `none` outside that
  fragment, and so does `add`, which needs the next id.
* The call `Math.max(...xs)` of `nextId` passes one argument per record and
  throws `RangeError` when the engine does not accept that many arguments.  The
  largest accepted number is the parameter `argLimit` of `nextId` and of every
  definition that calls it; the exception is the result `none`.
* The list pages (`handleSpindles`, `handleYedeks`) are represented by the rows
  they hand to the page.  The method `toLowerCase` is a parameter of these
  definitions, so what is proved holds for whatever it does to a text; an
  exception thrown by the filter is the result `none`.
* For calls of `add` that overlap in time, a call is cut at the only two places
  where it touches the file, its read and its write, and a schedule is an order
  of these operations.
-/

set_option maxRecDepth 100000

namespace WebSpindle

/-- Text: a list of characters. -/
abbrev Str := List Char

/-- A row object: bindings from field name to value, first match wins. -/
abbrev Row := List (Str × Str)

/-- The property read `row[k]`; `none` stands for `undefined`. -/
def lookupKey (row : Row) (k : Str) : Option Str := List.lookup k row

/-- The expression `row[k] ?? ''`. -/
def valueOf (row : Row) (k : Str) : Str := (lookupKey row k).getD []

/-- The assignment `row[k] = v`. -/
def setField (row : Row) (k v : Str) : Row := (k, v) :: row

/-- The spread `{ ...a, ...b }`: bindings of `b` override those of `a`. -/
def merge (a b : Row) : Row := b ++ a

/-- The key `id`. -/
def idKey : Str := String.toList "id"

/-- The constant `spindleHeaders`. -/
def spindleHeaders : List Str :=
  [String.toList "id", String.toList "Referans ID", String.toList "Çalışma Saati",
   String.toList "Takılı Olduğu Makine", String.toList "Makinaya Takıldığı Tarih",
   String.toList "Son Güncelleme"]

/-- The constant `yedekHeaders`. -/
def yedekHeaders : List Str :=
  [String.toList "id", String.toList "Referans ID", String.toList "Açıklama",
   String.toList "Tamirde mi", String.toList "Bakıma Gönderilme", String.toList "Geri Dönme",
   String.toList "Söküldüğü Makine", String.toList "Sökülme Tarihi",
   String.toList "Son Güncelleme"]

/-- White space and line terminators of ECMAScript, the characters removed by
`String.prototype.trim`. -/
def isJsWhitespace (c : Char) : Bool :=
  let n := c.toNat
  n = 0x09 || n = 0x0A || n = 0x0B || n = 0x0C || n = 0x0D || n = 0x20 || n = 0xA0 ||
  n = 0x1680 || (0x2000 ≤ n && n ≤ 0x200A) || n = 0x2028 || n = 0x2029 || n = 0x202F ||
  n = 0x205F || n = 0x3000 || n = 0xFEFF

/-- The method `s.trim()`. -/
def trim (s : Str) : Str := (s.dropWhile isJsWhitespace).rdropWhile isJsWhitespace

/-- Removes one trailing carriage return, the `\r?` of the separator `/\r?\n/`. -/
def stripCR (s : Str) : Str := if s.getLast? = some '\r' then s.dropLast else s

/-- Applies `f` to every element except the last one. -/
def mapInit {α : Type} (f : α → α) : List α → List α
  | [] => []
  | [x] => [x]
  | x :: y :: rest => f x :: mapInit f (y :: rest)

/-- The call `s.split(/\r?\n/)`: the text is cut at every line feed, and a
carriage return standing right before a line feed belongs to the separator.
Only the pieces that are followed by a separator can lose a carriage return. -/
def splitLines (s : Str) : List Str := mapInit stripCR (s.splitOn '\n')

/-- The loop `headers.forEach((h, i) => { row[h] = cols[i] ?? ''; })`, started at
index `i` with the row built so far. -/
def fillRow (cols : List Str) : Nat → List Str → Row → Row
  | _, [], row => row
  | i, h :: hs, row => fillRow cols (i + 1) hs (setField row h (cols.getD i []))

/-- The function `parseCsv`, applied to the text read from the file. -/
def parseCsv (raw : Str) : List Row :=
  let lines := if trim raw = [] then [] else splitLines (trim raw)
  match lines with
  | [] => []
  | first :: rest =>
    let headers := first.splitOn ','
    rest.map (fun line => fillRow (line.splitOn ',') 0 headers [])

/-- The call `v.replace(/,/g, ' ')`. -/
def replaceCommas (v : Str) : Str := v.map (fun c => if c = ',' then ' ' else c)

/-- The call `xs.join(',')`. -/
def joinComma (xs : List Str) : Str := [','].intercalate xs

/-- One data line of `stringifyCsv`:
`headers.map((h) => (row[h] ?? '').replace(/,/g, ' ')).join(',')`. -/
def rowLine (headers : List Str) (row : Row) : Str :=
  joinComma (headers.map (fun h => replaceCommas (valueOf row h)))

/-- The function `stringifyCsv`. -/
def stringifyCsv (headers : List Str) (rows : List Row) : Str :=
  let body := ['\n'].intercalate (rows.map (rowLine headers))
  joinComma headers ++ ['\n'] ++ body ++ ['\n']

/-- The largest integer up to which every natural is an exact JavaScript number. -/
def maxExact : Nat := 9007199254740992

/-- The characters `0` to `9`. -/
def isDecDigit (c : Char) : Bool := 48 ≤ c.toNat && c.toNat ≤ 57

/-- The value of a decimal digit. -/
def digitValue (c : Char) : Nat := c.toNat - 48

/-- The conversion `Number(s)` on the exact fragment: surrounding white space is
ignored, the empty text is `0`, a run of decimal digits not above `2 ^ 53` is its
value.  Everything else (signs, fractions, exponents, other radices, `NaN`,
larger values) is outside the fragment and gives `none`. -/
def toNumber (s : Str) : Option Nat :=
  let t := trim s
  if t.all isDecDigit then
    let n := t.foldl (fun acc c => 10 * acc + digitValue c) 0
    if n ≤ maxExact then some n else none
  else none

/-- The conversion `String(n)` of a natural number below `10 ^ 21`. -/
def numToStr (n : Nat) : Str := Nat.toDigits 10 n

/-- The list `rows.map((r) => Number(r.id))`, when every entry is in the exact
fragment.  A row without `id` gives `Number(undefined)`, which is `NaN`. -/
def idNumbers : List Row → Option (List Nat)
  | [] => some []
  | r :: rest =>
    match (lookupKey r idKey).bind toNumber, idNumbers rest with
    | some n, some ns => some (n :: ns)
    | _, _ => none

/-- The function `nextId`, when the result is in the exact fragment.  The call
`Math.max(...xs)` passes one argument per row, and an engine throws `RangeError`
when a call gets more arguments than its stack holds.  That number depends on the
engine and on the size of its stack, so it is the parameter `argLimit`; the
result `none` also stands for this exception. -/
def nextId (argLimit : Nat) (rows : List Row) : Option Nat :=
  if rows.length = 0 then some 1
  else if argLimit < rows.length then none
  else
    match idNumbers rows with
    | none => none
    | some ns =>
      let m := ns.foldl max 0
      if m < maxExact then some (m + 1) else none

/-- The function `ensureCsv`: the text of the file after the call, given the
text before it (`none` when the file does not exist). -/
def ensureCsv (existing : Option Str) (headers : List Str) : Str :=
  match existing with
  | some text => text
  | none => joinComma headers ++ ['\n']

/-- The file of a store that was just created where no file existed. -/
def initFile (headers : List Str) : Str := ensureCsv none headers

namespace DataManager

/-- The method `all`. -/
def all (file : Str) : List Row := parseCsv file

/-- The method `save`: the text written to the file. -/
def save (headers : List Str) (rows : List Row) : Str := stringifyCsv headers rows

/-- The method `add`: the new file text and the returned id.  When `nextId`
throws, `add` throws before the file is written: the result is `none`. -/
def add (argLimit : Nat) (headers : List Str) (file : Str) (data : Row) :
    Option (Str × Str) :=
  let rows := all file
  match nextId argLimit rows with
  | none => none
  | some n =>
    let data1 := setField data idKey (numToStr n)
    some (save headers (rows ++ [data1]), numToStr n)

/-- The method `update`: the file text afterwards and the returned boolean. -/
def update (headers : List Str) (file : Str) (id : Str) (payload : Row) : Str × Bool :=
  let rows := all file
  match rows.findIdx? (fun r => lookupKey r idKey = some id) with
  | none => (file, false)
  | some idx => (save headers (rows.modify (fun r => merge r payload) idx), true)

/-- The method `delete`: the file text afterwards and the returned boolean. -/
def delete (headers : List Str) (file : Str) (id : Str) : Str × Bool :=
  let rows := all file
  let filtered := rows.filter (fun r => lookupKey r idKey ≠ some id)
  if filtered.length = rows.length then (file, false) else (save headers filtered, true)

end DataManager

/-- Own keys must not collide with the members every object inherits. -/
def objectPrototypeKeys : List Str :=
  [String.toList "__proto__", String.toList "constructor", String.toList "hasOwnProperty",
   String.toList "isPrototypeOf", String.toList "propertyIsEnumerable",
   String.toList "toLocaleString", String.toList "toString", String.toList "valueOf",
   String.toList "__defineGetter__", String.toList "__defineSetter__",
   String.toList "__lookupGetter__", String.toList "__lookupSetter__"]

/-- The header lists a store is used with: `id` is the first of at least two
distinct column names, no name contains a comma or a line feed, the last name
does not end in a carriage return, no name is inherited from `Object.prototype`. -/
def HeadersOK (hs : List Str) : Prop :=
  hs.head? = some idKey ∧ 2 ≤ hs.length ∧ hs.Nodup ∧
  (∀ h ∈ hs, ',' ∉ h ∧ '\n' ∉ h) ∧
  hs.getLast?.bind List.getLast? ≠ some '\r' ∧
  (∀ h ∈ hs, h ∉ objectPrototypeKeys)

instance (hs : List Str) : Decidable (HeadersOK hs) := by
  unfold HeadersOK; infer_instance

/-- The name of the last column. -/
def lastKey (hs : List Str) : Str := hs.getLast?.getD []

/-- The value does not end in white space nor in a comma. -/
def endsClean (v : Str) : Bool :=
  match v.getLast? with
  | none => true
  | some c => !isJsWhitespace c && c != ','

/-- A row that survives a write followed by a read up to comma replacement: no
value under a header contains a line feed, and the value of the last column does
not end in white space or a comma. -/
def CleanFor (hs : List Str) (row : Row) : Prop :=
  (∀ h ∈ hs, '\n' ∉ valueOf row h) ∧ endsClean (valueOf row (lastKey hs)) = true

instance (hs : List Str) (row : Row) : Decidable (CleanFor hs row) := by
  unfold CleanFor; infer_instance

/-- The row object that `parseCsv` builds from the columns `vals` under the
headers `hs`. -/
def mkRow (hs : List Str) (vals : List Str) : Row := fillRow vals 0 hs []

/-- The row as it is read back after being written: the values under the
headers, commas replaced. -/
def canon (hs : List Str) (row : Row) : Row :=
  mkRow hs (hs.map (fun h => replaceCommas (valueOf row h)))

/-- A row as `parseCsv` returns it for a file kept by a store with headers `hs`:
exactly the header keys, no comma or line feed in a value, a clean end of the
last value. -/
def GoodRow (hs : List Str) (row : Row) : Prop :=
  row = mkRow hs (hs.map (valueOf row)) ∧ (∀ h ∈ hs, ',' ∉ valueOf row h) ∧ CleanFor hs row

instance (hs : List Str) (row : Row) : Decidable (GoodRow hs row) := by
  unfold GoodRow; infer_instance

/-- A file whose rows, as read by `all`, are all good rows for `hs`. -/
def GoodStore (hs : List Str) (file : Str) : Prop :=
  ∀ r ∈ DataManager.all file, GoodRow hs r

instance (hs : List Str) (file : Str) : Decidable (GoodStore hs file) := by
  unfold GoodStore; infer_instance

/-- Fields handed to `add` that the file format carries up to comma
replacement: under every header other than `id` the value has no line feed, and
the value of the last column does not end in white space or a comma. -/
def FieldsClean (hs : List Str) (data : Row) : Prop :=
  (∀ h ∈ hs, h ≠ idKey → '\n' ∉ valueOf data h) ∧
  endsClean (valueOf data (lastKey hs)) = true

instance (hs : List Str) (data : Row) : Decidable (FieldsClean hs data) := by
  unfold FieldsClean; infer_instance

/-- Fields handed to `add` that the file format carries unchanged: clean, and
without a comma under every header other than `id`. -/
def FieldsOK (hs : List Str) (data : Row) : Prop :=
  FieldsClean hs data ∧ ∀ h ∈ hs, h ≠ idKey → ',' ∉ valueOf data h

instance (hs : List Str) (data : Row) : Decidable (FieldsOK hs data) := by
  unfold FieldsOK; infer_instance

/-- A payload handed to `update` that the file format carries up to comma
replacement: no value it gives to a header contains a line feed, and a value for
the last column does not end in white space or a comma. -/
def PayloadClean (hs : List Str) (payload : Row) : Prop :=
  ∀ p ∈ payload, p.1 ∈ hs → '\n' ∉ p.2 ∧ (p.1 = lastKey hs → endsClean p.2 = true)

instance (hs : List Str) (payload : Row) : Decidable (PayloadClean hs payload) := by
  unfold PayloadClean; infer_instance

/-- A payload handed to `update` that the file format carries unchanged and that
leaves the id alone: clean, no `id` key, no comma in a value given to a header. -/
def PayloadOK (hs : List Str) (payload : Row) : Prop :=
  PayloadClean hs payload ∧ ∀ p ∈ payload, p.1 ≠ idKey ∧ (p.1 ∈ hs → ',' ∉ p.2)

instance (hs : List Str) (payload : Row) : Decidable (PayloadOK hs payload) := by
  unfold PayloadOK; infer_instance

/-- The ids of the rows, in order. -/
def idsOf (rows : List Row) : List (Option Str) := rows.map (fun r => lookupKey r idKey)

/-- A call of one of the three mutating methods. -/
inductive Op where
  | add (data : Row)
  | update (id : Str) (payload : Row)
  | delete (id : Str)
  deriving DecidableEq

/-- The value a call returns: the id given by `add`, the boolean of `update`
and `delete`. -/
inductive Out where
  | id (s : Str)
  | ok (b : Bool)
  deriving DecidableEq

/-- One call on the store with headers `hs`: the file afterwards and the
returned value. -/
def step (argLimit : Nat) (hs : List Str) (file : Str) : Op → Option (Str × Out)
  | Op.add data =>
    match DataManager.add argLimit hs file data with
    | none => none
    | some (f, i) => some (f, Out.id i)
  | Op.update id payload =>
    some ((DataManager.update hs file id payload).1, Out.ok (DataManager.update hs file id payload).2)
  | Op.delete id =>
    some ((DataManager.delete hs file id).1, Out.ok (DataManager.delete hs file id).2)

/-- A sequence of calls, one after the other: the final file and the returned
values in order. -/
def run (argLimit : Nat) (hs : List Str) : Str → List Op → Option (Str × List Out)
  | file, [] => some (file, [])
  | file, op :: ops =>
    match step argLimit hs file op with
    | none => none
    | some (f1, o) =>
      match run argLimit hs f1 ops with
      | none => none
      | some (f2, os) => some (f2, o :: os)

/-- The condition on a call for the file format to carry its values unchanged,
and for the ids to stay as `add` gave them. -/
def OpOK (hs : List Str) : Op → Prop
  | Op.add data => FieldsOK hs data
  | Op.update _ payload => PayloadOK hs payload
  | Op.delete _ => True

instance (hs : List Str) (op : Op) : Decidable (OpOK hs op) := by
  cases op <;> (unfold OpOK; infer_instance)

namespace Model

/-- Specification model of `add`, after the words of the specification: the new
id is `1 + max(existing ids)`, or `1` if the list is empty, and the record is
appended with its id. -/
def add (rows : List Row) (fields : Row) : Option (List Row × Str) :=
  match rows with
  | [] => some ([setField fields idKey (numToStr 1)], numToStr 1)
  | r :: rest =>
    match idNumbers (r :: rest) with
    | none => none
    | some ns =>
      let i := numToStr (1 + ns.foldl max 0)
      some ((r :: rest) ++ [setField fields idKey i], i)

/-- Specification model of `update`: locate the record by id; if absent, return
false and leave the list alone; otherwise merge the partial fields over it. -/
def update : List Row → Str → Row → List Row × Bool
  | [], _, _ => ([], false)
  | r :: rest, id, fields =>
    if lookupKey r idKey = some id then (merge r fields :: rest, true)
    else ((r :: (update rest id fields).1), (update rest id fields).2)

/-- Specification model of `delete`: remove the matching record; return false if
no row matched. -/
def delete : List Row → Str → List Row × Bool
  | [], _ => ([], false)
  | r :: rest, id =>
    if lookupKey r idKey = some id then (rest, true)
    else ((r :: (delete rest id).1), (delete rest id).2)

/-- One call on the in-memory list. -/
def step (rows : List Row) : Op → Option (List Row × Out)
  | Op.add data =>
    match add rows data with
    | none => none
    | some (l, i) => some (l, Out.id i)
  | Op.update id payload => some ((update rows id payload).1, Out.ok (update rows id payload).2)
  | Op.delete id => some ((delete rows id).1, Out.ok (delete rows id).2)

/-- A sequence of calls on the in-memory list. -/
def run : List Row → List Op → Option (List Row × List Out)
  | rows, [] => some (rows, [])
  | rows, op :: ops =>
    match step rows op with
    | none => none
    | some (l1, o) =>
      match run l1 ops with
      | none => none
      | some (l2, os) => some (l2, o :: os)

end Model

/-- The values of a row under the headers, in header order. -/
def fieldsOf (hs : List Str) (row : Row) : List Str := hs.map (valueOf row)

/-- The argument limit used in the worked examples, under the one of Node.js
with its default stack (about 125 000 arguments). -/
def demoLimit : Nat := 100000

/-- The headers of the worked scenario of the specification. -/
def demoHeaders : List Str := [idKey, String.toList "ref", String.toList "hours"]

/-- A store file with two records under `demoHeaders`. -/
def demoFile : Str := String.toList "id,ref,hours\n1,A1,10\n2,B2,5\n"

/-- The two-record file after `update("1", {hours: "10\r\r"})`: the last value
of its first record is read with a carriage return at its end. -/
def demoFileCR : Str :=
  (DataManager.update demoHeaders demoFile (String.toList "1")
    [(String.toList "hours", String.toList "10\r\r")]).1

/-- The statement that `update` keeps the id of the record it changes: the record
found at the position of the first match still has the id `id` afterwards. -/
def IdKeptByUpdate (hs : List Str) (file : Str) (id : Str) (payload : Row) : Prop :=
  ∀ idx, (DataManager.all file).findIdx? (fun r => lookupKey r idKey = some id) = some idx →
    ((DataManager.all (DataManager.update hs file id payload).1)[idx]?).bind
      (fun r => lookupKey r idKey) = some id

/-- The statement that `update(id, {f: v})` returns true and changes only field
`f` of the first record with that id: the rows before and after it are the same,
and the record keeps its id and every field other than `f`. -/
def UpdateTouchesOnly (hs : List Str) (file : Str) (id f v : Str) : Prop :=
  (DataManager.update hs file id [(f, v)]).2 = true ∧
  ∃ l1 r l2 r1, DataManager.all file = l1 ++ r :: l2 ∧
    (∀ x ∈ l1, lookupKey x idKey ≠ some id) ∧ lookupKey r idKey = some id ∧
    DataManager.all (DataManager.update hs file id [(f, v)]).1 = l1 ++ r1 :: l2 ∧
    lookupKey r1 idKey = some id ∧ ∀ h, h ≠ f → lookupKey r1 h = lookupKey r h

/-- Deciding a statement about the result of a computation that may be outside
the modelled fragment. -/
instance decExistsSome {α : Type} (o : Option α) (P : α → Prop) [∀ a, Decidable (P a)] :
    Decidable (∃ a, o = some a ∧ P a) :=
  match o with
  | none => isFalse (fun h => h.elim (fun _ hh => Option.noConfusion hh.1))
  | some a =>
    if h : P a then isTrue ⟨a, rfl, h⟩
    else isFalse (fun hh => hh.elim (fun _ hb => h (Option.some.inj hb.1 ▸ hb.2)))

/-- The statement that `delete(id)` returns true and removes exactly the one
record with that id, the others staying as they are and in order, and that a
second `delete(id)` returns false and leaves the file as it is. -/
def DeleteRemovesOne (hs : List Str) (file : Str) (id : Str) : Prop :=
  (DataManager.delete hs file id).2 = true ∧
  DataManager.all (DataManager.delete hs file id).1 =
    (DataManager.all file).eraseP (fun r => lookupKey r idKey = some id) ∧
  DataManager.delete hs (DataManager.delete hs file id).1 id =
    ((DataManager.delete hs file id).1, false)

instance (hs : List Str) (file : Str) (id : Str) : Decidable (DeleteRemovesOne hs file id) := by
  unfold DeleteRemovesOne; infer_instance

/-- The statement that after `add(fields)` the rows read by `all` hold exactly
one record with the returned id, and that its fields other than `id`, in header
order, are the input values. -/
def AddThenListed (argLimit : Nat) (hs : List Str) (file : Str) (data : Row) : Prop :=
  ∃ p, DataManager.add argLimit hs file data = some p ∧
    ((DataManager.all p.1).filter (fun r => lookupKey r idKey = some p.2)).map
        (fun r => (hs.filter (fun h => h ≠ idKey)).map (lookupKey r)) =
      [(hs.filter (fun h => h ≠ idKey)).map (fun h => some (valueOf data h))]

instance (argLimit : Nat) (hs : List Str) (file : Str) (data : Row) :
    Decidable (AddThenListed argLimit hs file data) := by
  unfold AddThenListed; infer_instance

/-- Applies `f` to the last element only. -/
def mapLast {α : Type} (f : α → α) : List α → List α
  | [] => []
  | [x] => [f x]
  | x :: y :: rest => x :: mapLast f (y :: rest)

/-- The white space that `trim` removes at the end of a text. -/
def trimEnd (s : Str) : Str := s.rdropWhile isJsWhitespace

/-- What reading does to the end of a line: it returns a beginning of the text,
and on a text with a comma it only touches what follows the comma. -/
def Shortens (f : Str → Str) : Prop :=
  (∀ s, f s <+: s) ∧ ∀ (a z : Str), f (a ++ [','] ++ z) = a ++ [','] ++ f z

/-- The cells read from the line written for `row`, when reading does `f` to the
end of the line: the values under the headers with commas replaced, the last one
passed through `f`. -/
def cellsRead (f : Str → Str) (hs : List Str) (row : Row) : List Str :=
  hs.map (fun h =>
    if h = lastKey hs then f (replaceCommas (valueOf row h)) else replaceCommas (valueOf row h))

/-- The row object read from the line written for `row`. -/
def readRow (f : Str → Str) (hs : List Str) (row : Row) : Row := mkRow hs (cellsRead f hs row)

/-- The lines as `parseCsv` sees them: the last one has lost its trailing white
space to `trim`, the others a carriage return before the line feed. -/
def readLines : List Str → List Str
  | [] => []
  | [l] => [trimEnd l]
  | l :: l2 :: rest => stripCR l :: readLines (l2 :: rest)

/-- The rows read back from the text written for `rows`, for rows without line
feed: the last one is read through `trimEnd`, the others through `stripCR`. -/
def readRows (hs : List Str) : List Row → List Row
  | [] => []
  | [r] => [readRow trimEnd hs r]
  | r :: r2 :: rest => readRow stripCR hs r :: readRows hs (r2 :: rest)

/-- No value of the row under a header contains a line feed. -/
def NoLineFeed (hs : List Str) (row : Row) : Prop := ∀ h ∈ hs, '\n' ∉ valueOf row h

instance (hs : List Str) (row : Row) : Decidable (NoLineFeed hs row) := by
  unfold NoLineFeed; infer_instance

/-- A row with exactly the header keys and no comma or line feed in a value. -/
def ShapedRow (hs : List Str) (row : Row) : Prop :=
  row = mkRow hs (hs.map (valueOf row)) ∧ ∀ h ∈ hs, ',' ∉ valueOf row h ∧ '\n' ∉ valueOf row h

instance (hs : List Str) (row : Row) : Decidable (ShapedRow hs row) := by
  unfold ShapedRow; infer_instance

/-- A file whose rows, as read by `all`, are all shaped rows for `hs`. -/
def ShapedStore (hs : List Str) (file : Str) : Prop :=
  ∀ r ∈ DataManager.all file, ShapedRow hs r

instance (hs : List Str) (file : Str) : Decidable (ShapedStore hs file) := by
  unfold ShapedStore; infer_instance

/-- A row whose id survives a write followed by a read: no line feed under a
header, an `id` key, no comma in the id. -/
def IdRow (hs : List Str) (row : Row) : Prop :=
  NoLineFeed hs row ∧ ',' ∉ valueOf row idKey ∧ lookupKey row idKey = some (valueOf row idKey)

/-- Fields handed to `add` without line feed under the headers other than `id`. -/
def FieldsNoLF (hs : List Str) (data : Row) : Prop :=
  ∀ h ∈ hs, h ≠ idKey → '\n' ∉ valueOf data h

instance (hs : List Str) (data : Row) : Decidable (FieldsNoLF hs data) := by
  unfold FieldsNoLF; infer_instance

/-- A payload handed to `update` that gives no value with a line feed to a header. -/
def PayloadNoLF (hs : List Str) (payload : Row) : Prop :=
  ∀ p ∈ payload, p.1 ∈ hs → '\n' ∉ p.2

instance (hs : List Str) (payload : Row) : Decidable (PayloadNoLF hs payload) := by
  unfold PayloadNoLF; infer_instance

/-- The condition on a call for the file to keep one line per record and the ids
as `add` gave them: no line feed in a value given to a header, no `id` key in the
payload of `update`. -/
def OpClean (hs : List Str) : Op → Prop
  | Op.add data => FieldsNoLF hs data
  | Op.update _ payload => PayloadNoLF hs payload ∧ lookupKey payload idKey = none
  | Op.delete _ => True

instance (hs : List Str) (op : Op) : Decidable (OpClean hs op) := by
  cases op <;> (unfold OpClean; infer_instance)

/-- The id of a record whose number is `n`, as `all` reads it. -/
def idText (n : Nat) : Option Str := some (numToStr n)

/-- The invariant of a store that was only changed through calls without line
feed in a value and without `id` key in a payload, after at most `k` of them:
the rows are shaped, and their ids are the decimal texts of strictly increasing
numbers not above `k`. -/
def StoreInv (hs : List Str) (file : Str) (k : Nat) : Prop :=
  ShapedStore hs file ∧
  ∃ ns : List Nat, idsOf (DataManager.all file) = ns.map idText ∧
    ns.Pairwise (fun a b => a < b) ∧ ∀ n ∈ ns, n ≤ k

/-- The statement that a run of `add` calls on a new store returns the decimal
texts of `1`, `2`, ... in order. -/
def AddIdsCount (argLimit : Nat) (hs : List Str) (datas : List Row) : Prop :=
  (run argLimit hs (initFile hs) (datas.map Op.add)).map Prod.snd =
    some ((List.range' 1 datas.length).map (fun n => Out.id (numToStr n)))

instance (argLimit : Nat) (hs : List Str) (datas : List Row) :
    Decidable (AddIdsCount argLimit hs datas) := by
  unfold AddIdsCount; infer_instance

/-- The ids that the calls of `add` returned, in order. -/
def addedIds : List Out → List Str
  | [] => []
  | Out.id s :: rest => s :: addedIds rest
  | Out.ok _ :: rest => addedIds rest

/-- The statement that no id is given twice by the calls of `add` in a run on a
new store. -/
def IdsNeverReused (argLimit : Nat) (hs : List Str) (ops : List Op) : Prop :=
  ∃ p, run argLimit hs (initFile hs) ops = some p ∧ (addedIds p.2).Nodup

instance (argLimit : Nat) (hs : List Str) (ops : List Op) :
    Decidable (IdsNeverReused argLimit hs ops) := by
  unfold IdsNeverReused; infer_instance

/-- The statement that after a run of calls on a new store no two records read
by `all` have the same id. -/
def IdsUnique (argLimit : Nat) (hs : List Str) (ops : List Op) : Prop :=
  ∃ p, run argLimit hs (initFile hs) ops = some p ∧ (idsOf (DataManager.all p.1)).Nodup

instance (argLimit : Nat) (hs : List Str) (ops : List Op) :
    Decidable (IdsUnique argLimit hs ops) := by
  unfold IdsUnique; infer_instance

/-- The statement that after a run of calls on a new store the records read by
`all` are, field by field under the headers and in order, the records of the
in-memory list model after the same calls. -/
def RoundTrip (argLimit : Nat) (hs : List Str) (ops : List Op) : Prop :=
  ∃ p, run argLimit hs (initFile hs) ops = some p ∧ ∃ q, Model.run [] ops = some q ∧
    (DataManager.all p.1).map (fieldsOf hs) = q.1.map (fieldsOf hs)

instance (argLimit : Nat) (hs : List Str) (ops : List Op) :
    Decidable (RoundTrip argLimit hs ops) := by
  unfold RoundTrip; infer_instance

/-- The relation between the file of a store and the in-memory list of the
model: the rows read from the file are the records of the list as they read
back, and every record of the list has values that the file format carries
unchanged and has an `id`. -/
def Sim (hs : List Str) (file : Str) (mrows : List Row) : Prop :=
  DataManager.all file = mrows.map (canon hs) ∧
  ∀ m ∈ mrows, CleanFor hs m ∧ (∀ h ∈ hs, ',' ∉ valueOf m h) ∧
    lookupKey m idKey = some (valueOf m idKey)

/-- The number of line feeds in a text. -/
def lineFeeds (s : Str) : Nat := s.count '\n'

/-- The text made of the given lines in order, each followed by a line feed. -/
def terminated : List Str → Str
  | [] => []
  | l :: rest => l ++ ['\n'] ++ terminated rest

/-- The file format as the specification words it, for the records `rows` of a
store with headers `hs`: the text written by `save` is the header line followed
by one line per record that holds the values of the record in header order
joined by commas, every line ended by a line feed, which makes one line feed per
record and one for the header; without records it is the text that `ensureCsv`
writes. -/
def FormatAsStated (hs : List Str) (rows : List Row) : Prop :=
  DataManager.save hs rows =
      terminated (joinComma hs :: rows.map (fun r => joinComma (fieldsOf hs r))) ∧
    lineFeeds (DataManager.save hs rows) = rows.length + 1 ∧
    (rows = [] → DataManager.save hs rows = ensureCsv none hs)

instance (hs : List Str) (rows : List Row) : Decidable (FormatAsStated hs rows) := by
  unfold FormatAsStated; infer_instance

/-- The name of the column in which the list pages search. -/
def refKey : Str := String.toList "Referans ID"

/-- The value of `url.query.q` when the parameter is present: a text when `q`
occurs once in the address, an array of texts when it occurs several times. -/
inductive QueryValue where
  | text (s : Str)
  | texts (l : List Str)
  deriving DecidableEq

/-- The call `toString()` on a query value: an array is joined with commas. -/
def queryToString : QueryValue → Str
  | QueryValue.text s => s
  | QueryValue.texts l => joinComma l

/-- The expression `url.query.q?.toString().trim()`; `none` is `undefined`. -/
def queryText (query : Option QueryValue) : Option Str :=
  query.map (fun v => trim (queryToString v))

/-- The method `s.includes(pat)`: `pat` is found at some position of `s`. -/
def includes (s pat : Str) : Bool := s.tails.any (fun t => pat.isPrefixOf t)

/-- The test of the list pages on one row,
`!q || row['Referans ID'].toLowerCase().includes(q.toLowerCase())`.
The method `toLowerCase` is a parameter.  The result `none` is the `TypeError`
of calling `toLowerCase` on `undefined`, for a row without the column. -/
def refMatches (toLowerCase : Str → Str) (q : Option Str) (row : Row) : Option Bool :=
  match q with
  | none => some true
  | some qs =>
    if qs = [] then some true
    else
      match lookupKey row refKey with
      | none => none
      | some v => some (includes (toLowerCase v) (toLowerCase qs))

/-- The call `rows.filter(test)` for a test that can throw. -/
def filterRows (test : Row → Option Bool) : List Row → Option (List Row)
  | [] => some []
  | r :: rest =>
    match test r with
    | none => none
    | some b =>
      match filterRows test rest with
      | none => none
      | some out => some (if b then r :: out else out)

/-- The rows that `handleSpindles` and `handleYedeks` show, from the rows of the
store and the query value: `rows.filter((row) => !q || ...)`. -/
def refFilter (toLowerCase : Str → Str) (query : Option QueryValue) (rows : List Row) :
    Option (List Row) :=
  filterRows (refMatches toLowerCase (queryText query)) rows

/-- The rows shown by `handleSpindles`, from the file of the spindle store. -/
def handleSpindles (toLowerCase : Str → Str) (file : Str) (query : Option QueryValue) :
    Option (List Row) :=
  refFilter toLowerCase query (DataManager.all file)

/-- The rows shown by `handleYedeks`, from the file of the spare part store. -/
def handleYedeks (toLowerCase : Str → Str) (file : Str) (query : Option QueryValue) :
    Option (List Row) :=
  refFilter toLowerCase query (DataManager.all file)

/-- Lower case of the letters `A` to `Z`, which is what `toLowerCase` does to a
text of the basic Latin block. -/
def lowerAscii (s : Str) : Str := s.map Char.toLower

/-- A spindle store file with three records. -/
def demoSpindleFile : Str := String.toList
  ("id,Referans ID,Çalışma Saati,Takılı Olduğu Makine,Makinaya Takıldığı Tarih,Son Güncelleme\n" ++
   "1,SP-100a,10,M1,01.01.2024,02.01.2024\n" ++
   "2,xx-7,5,M2,01.01.2024,02.01.2024\n" ++
   "3,Asp-1,7,M3,01.01.2024,02.01.2024\n")

/-- Lines 91 to 93 of `add`: what a call holds once it has read the file, the
rows it is going to save and the id it is going to return. -/
def addRead (argLimit : Nat) (file : Str) (data : Row) : Option (List Row × Str) :=
  let rows := DataManager.all file
  match nextId argLimit rows with
  | none => none
  | some n => some (rows ++ [setField data idKey (numToStr n)], numToStr n)

/-- Lines 94 and 95 of `add`: the text written to the file and the returned id. -/
def addWrite (headers : List Str) (held : List Row × Str) : Str × Str :=
  (DataManager.save headers held.1, held.2)

/-- A file operation of a call of `add`: the call numbered `i` reads the file
(`this.all()`), or writes it (`this.save(rows)`). -/
inductive FileOp where
  | read (i : Nat)
  | write (i : Nat)
  deriving DecidableEq

/-- The state of a group of calls of `add`: the text of the file, what every
call that has read the file holds, and the ids returned so far with the number
of the call. -/
structure Calls where
  /-- The text of the file. -/
  file : Str
  /-- What each call that has read the file holds. -/
  held : List (Nat × (List Row × Str))
  /-- The ids returned so far, with the number of the call, in order. -/
  returned : List (Nat × Str)

/-- One file operation of one of the calls `add(datas[0])`, `add(datas[1])`, ...
on the store with headers `hs`. -/
def stepCall (argLimit : Nat) (hs : List Str) (datas : List Row)
    (st : Calls) : FileOp → Option Calls
  | FileOp.read i =>
    match datas[i]? with
    | none => none
    | some data =>
      match addRead argLimit st.file data with
      | none => none
      | some h => some { st with held := (i, h) :: st.held }
  | FileOp.write i =>
    match st.held.lookup i with
    | none => none
    | some h =>
      some { st with
        file := (addWrite hs h).1
        returned := st.returned ++ [(i, (addWrite hs h).2)] }

/-- A sequence of file operations of the calls. -/
def runCalls (argLimit : Nat) (hs : List Str)
    (datas : List Row) : Calls → List FileOp → Option Calls
  | st, [] => some st
  | st, op :: ops =>
    match stepCall argLimit hs datas st op with
    | none => none
    | some st1 => runCalls argLimit hs datas st1 ops

/-- The calls before any of them has started, on a new store. -/
def newCalls (hs : List Str) : Calls := { file := initFile hs, held := [], returned := [] }

/-- The merges of `x :: xs` with a second sequence, given the function `merges`
that returns the merges of `xs` with a sequence. -/
def interleaveWith {α : Type} (x : α) (xs : List α) (merges : List α → List (List α)) :
    List α → List (List α)
  | [] => [x :: xs]
  | y :: ys =>
    (merges (y :: ys)).map (fun s => x :: s) ++
      (interleaveWith x xs merges ys).map (fun s => y :: s)

/-- All the ways to merge two sequences, each keeping its own order. -/
def interleave {α : Type} : List α → List α → List (List α)
  | [], ys => [ys]
  | x :: xs, ys => interleaveWith x xs (interleave xs) ys

/-- The orders in which the file operations of two calls of `add` can follow each
other when nothing but the order of a call's own operations is fixed. -/
def schedules2 : List (List FileOp) :=
  interleave [FileOp.read 0, FileOp.write 0] [FileOp.read 1, FileOp.write 1]

/-- The schedules in which both calls read the file before either of them
writes it, so that both see the same state of the file. -/
def bothReadFirst : List FileOp → Bool
  | FileOp.read _ :: FileOp.read _ :: _ => true
  | _ => false

/-- The fields of the first record of the worked scenario, without id. -/
def demoA : Row :=
  [(String.toList "ref", String.toList "A1"), (String.toList "hours", String.toList "10")]

/-- The fields of the second record of the worked scenario, without id. -/
def demoB : Row :=
  [(String.toList "ref", String.toList "B2"), (String.toList "hours", String.toList "5")]

/-! # Theorems -/

/-! ## The two stores of the program -/

theorem headersOK_spindle : HeadersOK spindleHeaders := by decide

theorem headersOK_yedek : HeadersOK yedekHeaders := by decide

theorem initFile_spindle :
    initFile spindleHeaders = String.toList
      "id,Referans ID,Çalışma Saati,Takılı Olduğu Makine,Makinaya Takıldığı Tarih,Son Güncelleme\n" := by
  decide

/-! ## Rows -/

theorem lookupKey_setField (row : Row) (k v k2 : Str) :
    lookupKey (setField row k v) k2 = if k2 = k then some v else lookupKey row k2 := by
  unfold lookupKey setField
  by_cases h : k2 = k
  · subst h; simp [List.lookup]
  · have h2 : (k2 == k) = false := by simpa using h
    simp [List.lookup, h2, h]

theorem lookupKey_merge (a b : Row) (k : Str) :
    lookupKey (merge a b) k = (lookupKey b k).orElse (fun _ => lookupKey a k) := by
  unfold lookupKey merge
  induction b with
  | nil => simp [List.lookup]
  | cons p b ih =>
    obtain ⟨k1, v1⟩ := p
    by_cases h : k = k1
    · subst h; simp [List.lookup]
    · have h2 : (k == k1) = false := by simpa using h
      simp [List.lookup, h2, ih]

theorem fillRow_append (hs : List Str) : ∀ (pre vals : List Str) (row : Row),
    vals.length = hs.length →
    fillRow (pre ++ vals) pre.length hs row = (hs.zip vals).reverse ++ row := by
  induction hs with
  | nil => intro pre vals row _; simp [fillRow]
  | cons h hs ih =>
    intro pre vals row hlen
    cases vals with
    | nil => simp at hlen
    | cons v vs =>
      have hlen2 : vs.length = hs.length := by simpa using hlen
      have h1 := ih (pre ++ [v]) vs (setField row h v) hlen2
      simp only [List.append_assoc, List.singleton_append, List.length_append,
        List.length_singleton] at h1
      simp only [fillRow]
      have hget : (pre ++ v :: vs).getD pre.length [] = v := by
        rw [List.getD_eq_getElem?_getD, List.getElem?_append_right (le_refl _)]
        simp
      rw [hget, h1]
      simp [setField]

theorem mkRow_eq (hs vals : List Str) (hlen : vals.length = hs.length) :
    mkRow hs vals = (hs.zip vals).reverse := by
  have h := fillRow_append hs [] vals [] hlen
  simpa [mkRow] using h

theorem lookup_of_mem_nodup : ∀ (l : Row) (k v : Str),
    (l.map Prod.fst).Nodup → (k, v) ∈ l → List.lookup k l = some v := by
  intro l
  induction l with
  | nil => intro k v _ h; simp at h
  | cons p l ih =>
    intro k v hnd hmem
    obtain ⟨k1, v1⟩ := p
    simp only [List.map_cons, List.nodup_cons] at hnd
    rcases List.mem_cons.1 hmem with h | h
    · cases h; simp [List.lookup]
    · have hne : k ≠ k1 := by
        intro he; subst he
        exact hnd.1 (List.mem_map.2 ⟨(k, v), h, rfl⟩)
      have h2 : (k == k1) = false := by simpa using hne
      simp [List.lookup, h2, ih k v hnd.2 h]

/-! ## Joining and splitting -/

theorem intercalate_cons_cons {α : Type} (sep x y : List α) (rest : List (List α)) :
    sep.intercalate (x :: y :: rest) = x ++ sep ++ sep.intercalate (y :: rest) := by
  simp [List.intercalate, List.intersperse]

theorem intercalate_concat {α : Type} (sep : List α) : ∀ (xs : List (List α)) (z : List α),
    xs ≠ [] → sep.intercalate (xs ++ [z]) = sep.intercalate xs ++ sep ++ z := by
  intro xs
  induction xs with
  | nil => intro z h; exact absurd rfl h
  | cons x xs ih =>
    intro z _
    cases xs with
    | nil => simp [List.intercalate, List.intersperse]
    | cons y ys =>
      have h2 := ih z (by simp)
      rw [List.cons_append, List.cons_append, intercalate_cons_cons, ← List.cons_append, h2,
        intercalate_cons_cons]
      simp [List.append_assoc]

theorem mem_intercalate_single {α : Type} (a : α) : ∀ (xs : List (List α)) (c : α),
    c ∈ [a].intercalate xs → c = a ∨ ∃ x ∈ xs, c ∈ x := by
  intro xs
  induction xs with
  | nil => intro c h; simp [List.intercalate] at h
  | cons x xs ih =>
    intro c h
    cases xs with
    | nil =>
      have h1 : c ∈ x := by simpa [List.intercalate, List.intersperse] using h
      exact Or.inr ⟨x, by simp, h1⟩
    | cons y ys =>
      rw [intercalate_cons_cons] at h
      rcases List.mem_append.1 h with h1 | h1
      · rcases List.mem_append.1 h1 with h2 | h2
        · exact Or.inr ⟨x, by simp, h2⟩
        · exact Or.inl (by simpa using h2)
      · rcases ih c h1 with h3 | ⟨w, hw, hc⟩
        · exact Or.inl h3
        · exact Or.inr ⟨w, List.mem_cons_of_mem _ hw, hc⟩

theorem mapInit_id {α : Type} (f : α → α) : ∀ (l : List α), (∀ x ∈ l, f x = x) → mapInit f l = l := by
  intro l
  induction l with
  | nil => intro _; rfl
  | cons x xs ih =>
    intro h
    cases xs with
    | nil => rfl
    | cons y ys =>
      simp only [mapInit]
      rw [h x (by simp), ih (fun z hz => h z (List.mem_cons_of_mem _ hz))]

theorem stripCR_id (s : Str) (h : s.getLast? ≠ some '\r') : stripCR s = s := by
  simp [stripCR, h]

theorem replaceCommas_no_comma (v : Str) : ',' ∉ replaceCommas v := by
  unfold replaceCommas
  intro h
  rcases List.mem_map.1 h with ⟨c, _, hc⟩
  by_cases h1 : c = ','
  · simp [h1] at hc
  · simp [h1] at hc

theorem replaceCommas_id (v : Str) (h : ',' ∉ v) : replaceCommas v = v := by
  unfold replaceCommas
  induction v with
  | nil => rfl
  | cons c v ih =>
    have h1 : c ≠ ',' := by intro he; exact h (by simp [he])
    have h2 : ',' ∉ v := by intro he; exact h (List.mem_cons_of_mem _ he)
    simp only [List.map_cons, h1, if_false, ih h2]

theorem replaceCommas_no_lf (v : Str) (h : '\n' ∉ v) : '\n' ∉ replaceCommas v := by
  unfold replaceCommas
  intro h2
  rcases List.mem_map.1 h2 with ⟨c, hc, he⟩
  by_cases h1 : c = ','
  · simp [h1] at he
  · simp [h1] at he; exact h (he ▸ hc)

theorem replaceCommas_length (v : Str) : (replaceCommas v).length = v.length := by
  simp [replaceCommas]

theorem replaceCommas_getLast (v : Str) (h : endsClean v = true) :
    ∀ c, (replaceCommas v).getLast? = some c → isJsWhitespace c = false := by
  intro c hc
  unfold replaceCommas at hc
  rw [List.getLast?_map] at hc
  unfold endsClean at h
  cases hv : v.getLast? with
  | none => rw [hv] at hc; simp at hc
  | some d =>
    rw [hv] at hc h
    simp only [Bool.and_eq_true, Bool.not_eq_true', bne_iff_ne, ne_eq] at h
    simp only [Option.map_some', h.2, if_false, Option.some.injEq] at hc
    rw [← hc]; exact h.1

/-- The last character of a joined line of at least two columns is a comma or the
last character of the last column. -/
theorem joinComma_getLast (xs : List Str) (hlen : 2 ≤ xs.length) (c : Char)
    (hc : (joinComma xs).getLast? = some c) :
    c = ',' ∨ (xs.getLast?.bind List.getLast?) = some c := by
  cases hx : xs.getLast? with
  | none => simp at hx; subst hx; simp at hlen
  | some z =>
    have hsplit : xs.dropLast ++ [z] = xs := List.dropLast_append_getLast? z (by simp [hx])
    have hne : xs.dropLast ≠ [] := by
      intro he
      have : xs.dropLast.length = 0 := by rw [he]; rfl
      simp at this; omega
    rw [← hsplit] at hc
    unfold joinComma at hc
    rw [intercalate_concat _ _ _ hne] at hc
    cases hz : z.getLast? with
    | none =>
      simp at hz; subst hz
      left
      simpa using hc.symm
    | some d =>
      right
      have h2 : d = c := by
        rw [List.getLast?_append, hz] at hc
        simpa using hc
      simp [hz, h2]

theorem joinComma_ne_nil (xs : List Str) (hlen : 2 ≤ xs.length) : joinComma xs ≠ [] := by
  match xs, hlen with
  | x :: y :: rest, _ =>
    unfold joinComma
    rw [intercalate_cons_cons]
    simp


/-! ## The header line and the data lines -/

theorem headersOK_shape {hs : List Str} (hH : HeadersOK hs) :
    ∃ y rest, hs = idKey :: y :: rest := by
  obtain ⟨hhead, hlen, _⟩ := hH
  match hs, hhead, hlen with
  | x :: y :: rest, hhead, _ =>
    simp only [List.head?_cons, Option.some.injEq] at hhead
    exact ⟨y, rest, by rw [hhead]⟩

theorem headersOK_ne_nil {hs : List Str} (hH : HeadersOK hs) : hs ≠ [] := by
  obtain ⟨y, rest, h⟩ := headersOK_shape hH
  rw [h]; simp

theorem headerLine_head {hs : List Str} (hH : HeadersOK hs) :
    ∃ t, joinComma hs = 'i' :: t := by
  obtain ⟨y, rest, h⟩ := headersOK_shape hH
  rw [h]
  unfold joinComma
  rw [intercalate_cons_cons]
  exact ⟨_, rfl⟩

theorem headerLine_no_lf {hs : List Str} (hH : HeadersOK hs) : '\n' ∉ joinComma hs := by
  intro h
  rcases mem_intercalate_single ',' hs '\n' h with h1 | ⟨x, hx, hc⟩
  · exact absurd h1 (by decide)
  · exact (hH.2.2.2.1 x hx).2 hc

theorem headerLine_no_cr {hs : List Str} (hH : HeadersOK hs) :
    (joinComma hs).getLast? ≠ some '\r' := by
  intro h
  rcases joinComma_getLast hs hH.2.1 '\r' h with h1 | h1
  · exact absurd h1 (by decide)
  · exact hH.2.2.2.2.1 h1

theorem headerLine_split {hs : List Str} (hH : HeadersOK hs) :
    (joinComma hs).splitOn ',' = hs :=
  List.splitOn_intercalate _ ',' (fun l hl => (hH.2.2.2.1 l hl).1) (headersOK_ne_nil hH)

theorem rowLine_split {hs : List Str} (hH : HeadersOK hs) (row : Row) :
    (rowLine hs row).splitOn ',' = hs.map (fun h => replaceCommas (valueOf row h)) := by
  unfold rowLine joinComma
  apply List.splitOn_intercalate
  · intro l hl
    rcases List.mem_map.1 hl with ⟨h, _, rfl⟩
    exact replaceCommas_no_comma _
  · intro he
    exact headersOK_ne_nil hH (List.map_eq_nil_iff.1 he)

theorem rowLine_no_lf {hs : List Str} {row : Row} (hc : CleanFor hs row) :
    '\n' ∉ rowLine hs row := by
  intro h
  rcases mem_intercalate_single ',' _ '\n' h with h1 | ⟨x, hx, hx2⟩
  · exact absurd h1 (by decide)
  · rcases List.mem_map.1 hx with ⟨k, hk, rfl⟩
    exact replaceCommas_no_lf _ (hc.1 k hk) hx2

theorem rowLine_ne_nil {hs : List Str} (hH : HeadersOK hs) (row : Row) : rowLine hs row ≠ [] :=
  joinComma_ne_nil _ (by simpa using hH.2.1)

theorem rowLine_getLast {hs : List Str} (hH : HeadersOK hs) {row : Row} (hc : CleanFor hs row)
    (c : Char) (h : (rowLine hs row).getLast? = some c) : isJsWhitespace c = false := by
  rcases joinComma_getLast _ (by simpa using hH.2.1) c h with h1 | h1
  · rw [h1]; decide
  · rw [List.getLast?_map] at h1
    cases hl : hs.getLast? with
    | none => rw [hl] at h1; simp at h1
    | some z =>
      rw [hl] at h1
      simp only [Option.map_some', Option.bind_some] at h1
      have hz : lastKey hs = z := by simp [lastKey, hl]
      have h2 := hc.2
      rw [hz] at h2
      exact replaceCommas_getLast _ h2 c h1

theorem rowLine_no_cr {hs : List Str} (hH : HeadersOK hs) {row : Row} (hc : CleanFor hs row) :
    (rowLine hs row).getLast? ≠ some '\r' := by
  intro h
  have := rowLine_getLast hH hc _ h
  exact absurd this (by decide)

/-! ## Reading back what was written -/

theorem trim_of_clean (t : Str) (x : Char) (u : Str) (ht : t = x :: u)
    (hx : isJsWhitespace x = false)
    (hlast : ∀ c, t.getLast? = some c → isJsWhitespace c = false) : trim t = t := by
  unfold trim
  have h1 : t.dropWhile isJsWhitespace = t := by
    rw [ht]; simp [List.dropWhile_cons, hx]
  rw [h1, List.rdropWhile_eq_self_iff]
  intro hne
  have h2 := hlast (t.getLast hne) (List.getLast?_eq_getLast t hne)
  simp [h2]

theorem trim_append_lf (t : Str) (x : Char) (u : Str) (ht : t = x :: u)
    (hx : isJsWhitespace x = false) :
    trim (t ++ ['\n']) = t.rdropWhile isJsWhitespace := by
  unfold trim
  have h1 : (t ++ ['\n']).dropWhile isJsWhitespace = t ++ ['\n'] := by
    rw [ht]; simp [List.dropWhile_cons, hx]
  have h2 : (t.dropWhile isJsWhitespace) = t := by
    rw [ht]; simp [List.dropWhile_cons, hx]
  rw [h1, List.rdropWhile_concat_pos _ _ _ (by decide)]

theorem isJsWhitespace_i : isJsWhitespace 'i' = false := by decide

/-- A text without line feed parses to no row at all. -/
theorem parseCsv_single_line (t : Str) (h : '\n' ∉ trim t) : parseCsv t = [] := by
  unfold parseCsv
  by_cases he : trim t = []
  · simp [he]
  · have hs : (trim t).splitOn '\n' = [trim t] := by
      apply List.splitOnP_eq_single
      intro c hc hcc
      have : c = '\n' := by simpa using hcc
      exact h (this ▸ hc)
    simp [he, splitLines, hs, mapInit]

theorem rdropWhile_no_lf (t : Str) (h : '\n' ∉ t) : '\n' ∉ t.rdropWhile isJsWhitespace :=
  fun hc => h (List.IsPrefix.mem hc (List.rdropWhile_prefix _ _))

theorem parseCsv_initFile {hs : List Str} (hH : HeadersOK hs) : parseCsv (initFile hs) = [] := by
  obtain ⟨u, hu⟩ := headerLine_head hH
  apply parseCsv_single_line
  unfold initFile ensureCsv
  rw [trim_append_lf _ _ _ hu isJsWhitespace_i]
  exact rdropWhile_no_lf _ (headerLine_no_lf hH)

theorem parseCsv_stringify_nil {hs : List Str} (hH : HeadersOK hs) :
    parseCsv (stringifyCsv hs []) = [] := by
  obtain ⟨u, hu⟩ := headerLine_head hH
  apply parseCsv_single_line
  have h1 : stringifyCsv hs [] = (joinComma hs ++ ['\n']) ++ ['\n'] := by
    simp [stringifyCsv, List.intercalate]
  have h2 : joinComma hs ++ ['\n'] = 'i' :: (u ++ ['\n']) := by rw [hu]; rfl
  rw [h1, trim_append_lf _ _ _ h2 isJsWhitespace_i, List.rdropWhile_concat_pos _ _ _ (by decide)]
  exact rdropWhile_no_lf _ (headerLine_no_lf hH)


theorem intercalate_getLast {α : Type} (sep : List α) (xs : List (List α)) (z : List α)
    (hx : xs.getLast? = some z) (hlen : 2 ≤ xs.length) (hz : z ≠ []) :
    (sep.intercalate xs).getLast? = z.getLast? := by
  have hsplit : xs.dropLast ++ [z] = xs := List.dropLast_append_getLast? z (by simp [hx])
  have hne : xs.dropLast ≠ [] := by
    intro he
    have : xs.dropLast.length = 0 := by rw [he]; rfl
    simp at this; omega
  rw [← hsplit, intercalate_concat _ _ _ hne, List.getLast?_append]
  cases hzl : z.getLast? with
  | none => exact absurd (List.getLast?_eq_none_iff.1 hzl) hz
  | some d => simp

/-- The text that `parseCsv` sees after trimming a file written from at least one
clean row: the header line and the data lines, joined by line feeds. -/
theorem trim_stringify {hs : List Str} (hH : HeadersOK hs) (r : Row) (rs : List Row)
    (hc : ∀ x ∈ r :: rs, CleanFor hs x) :
    trim (stringifyCsv hs (r :: rs)) =
      ['\n'].intercalate (joinComma hs :: (r :: rs).map (rowLine hs)) := by
  obtain ⟨u, hu⟩ := headerLine_head hH
  have hform : stringifyCsv hs (r :: rs) =
      ['\n'].intercalate (joinComma hs :: (r :: rs).map (rowLine hs)) ++ ['\n'] := by
    simp only [stringifyCsv, List.map_cons, intercalate_cons_cons]
  have hstart : ['\n'].intercalate (joinComma hs :: (r :: rs).map (rowLine hs)) =
      'i' :: (u ++ ['\n'] ++ ['\n'].intercalate ((r :: rs).map (rowLine hs))) := by
    simp only [List.map_cons, intercalate_cons_cons, hu]
    simp
  rw [hform, trim_append_lf _ _ _ hstart isJsWhitespace_i, List.rdropWhile_eq_self_iff]
  intro hne
  have hlast : ∃ z, (joinComma hs :: (r :: rs).map (rowLine hs)).getLast? = some z ∧
      ∃ x ∈ r :: rs, z = rowLine hs x := by
    cases hl : ((r :: rs).map (rowLine hs)).getLast? with
    | none => simp at hl
    | some z =>
      refine ⟨z, ?_, ?_⟩
      · rw [List.map_cons] at hl ⊢
        rw [List.getLast?_cons_cons]; exact hl
      · have hm := List.mem_of_getLast?_eq_some hl
        rcases List.mem_map.1 hm with ⟨x, hx, rfl⟩
        exact ⟨x, hx, rfl⟩
  obtain ⟨z, hz, x, hx, rfl⟩ := hlast
  have hg := intercalate_getLast ['\n'] _ _ hz (by simp) (rowLine_ne_nil hH x)
  have h2 := rowLine_getLast hH (hc x hx) _ (by rw [← hg]; exact List.getLast?_eq_getLast _ hne)
  simpa using h2

/-- Reading back a file written from clean rows returns the rows in the same
order, each rebuilt under the headers with commas replaced by spaces. -/
theorem parseCsv_stringify {hs : List Str} (hH : HeadersOK hs) (rows : List Row)
    (hc : ∀ r ∈ rows, CleanFor hs r) :
    parseCsv (stringifyCsv hs rows) = rows.map (canon hs) := by
  cases rows with
  | nil => simpa using parseCsv_stringify_nil hH
  | cons r rs =>
    obtain ⟨u, hu⟩ := headerLine_head hH
    have htrim := trim_stringify hH r rs hc
    have hne : ['\n'].intercalate (joinComma hs :: (r :: rs).map (rowLine hs)) ≠ [] := by
      simp only [List.map_cons, intercalate_cons_cons, hu]
      simp
    have hsplit : splitLines (['\n'].intercalate (joinComma hs :: (r :: rs).map (rowLine hs))) =
        joinComma hs :: (r :: rs).map (rowLine hs) := by
      unfold splitLines
      rw [List.splitOn_intercalate _ '\n' _ (by simp)]
      · apply mapInit_id
        intro l hl
        apply stripCR_id
        rcases List.mem_cons.1 hl with h1 | h1
        · rw [h1]; exact headerLine_no_cr hH
        · rcases List.mem_map.1 h1 with ⟨x, hx, rfl⟩
          exact rowLine_no_cr hH (hc x hx)
      · intro l hl
        rcases List.mem_cons.1 hl with h1 | h1
        · rw [h1]; exact headerLine_no_lf hH
        · rcases List.mem_map.1 h1 with ⟨x, hx, rfl⟩
          exact rowLine_no_lf (hc x hx)
    unfold parseCsv
    rw [htrim]
    simp only [hne, if_false, hsplit, headerLine_split hH, List.map_map]
    apply List.map_congr_left
    intro x _
    simp only [Function.comp, rowLine_split hH, canon, mkRow]


/-! ## Canonical rows -/

theorem zip_map_self {α β : Type} (f : α → β) : ∀ (l : List α),
    l.zip (l.map f) = l.map (fun a => (a, f a)) := by
  intro l
  induction l with
  | nil => rfl
  | cons a l ih => simp [ih]

theorem lookupKey_mkRow_map {hs : List Str} (hnd : hs.Nodup) (f : Str → Str) (h : Str)
    (hh : h ∈ hs) : lookupKey (mkRow hs (hs.map f)) h = some (f h) := by
  rw [mkRow_eq hs _ (by simp), zip_map_self]
  unfold lookupKey
  apply lookup_of_mem_nodup
  · rw [List.map_reverse, List.nodup_reverse, List.map_map]
    have hid : (Prod.fst ∘ fun a => (a, f a)) = id := rfl
    rw [hid, List.map_id]
    exact hnd
  · rw [List.mem_reverse]
    exact List.mem_map.2 ⟨h, hh, rfl⟩

theorem lookupKey_canon {hs : List Str} (hH : HeadersOK hs) (row : Row) (h : Str) (hh : h ∈ hs) :
    lookupKey (canon hs row) h = some (replaceCommas (valueOf row h)) := by
  unfold canon
  exact lookupKey_mkRow_map hH.2.2.1 _ h hh

theorem valueOf_canon {hs : List Str} (hH : HeadersOK hs) (row : Row) (h : Str) (hh : h ∈ hs) :
    valueOf (canon hs row) h = replaceCommas (valueOf row h) := by
  unfold valueOf
  rw [lookupKey_canon hH row h hh]
  rfl

theorem lastKey_mem {hs : List Str} (hH : HeadersOK hs) : lastKey hs ∈ hs := by
  unfold lastKey
  cases hl : hs.getLast? with
  | none => exact absurd (List.getLast?_eq_none_iff.1 hl) (headersOK_ne_nil hH)
  | some z => exact List.mem_of_getLast?_eq_some hl

theorem idKey_mem {hs : List Str} (hH : HeadersOK hs) : idKey ∈ hs := by
  obtain ⟨y, rest, h⟩ := headersOK_shape hH
  rw [h]; simp

theorem lastKey_ne_idKey {hs : List Str} (hH : HeadersOK hs) : lastKey hs ≠ idKey := by
  obtain ⟨y, rest, h⟩ := headersOK_shape hH
  have hnd := hH.2.2.1
  rw [h] at hnd
  intro he
  have hmem : lastKey hs ∈ y :: rest := by
    unfold lastKey
    rw [h, List.getLast?_cons_cons]
    cases hl : (y :: rest).getLast? with
    | none => simp at hl
    | some z => exact List.mem_of_getLast?_eq_some hl
  rw [he] at hmem
  exact (List.nodup_cons.1 hnd).1 hmem

theorem replaceCommas_endsClean (v : Str) (h : endsClean v = true) :
    endsClean (replaceCommas v) = true := by
  have hv := h
  unfold endsClean at h ⊢
  unfold replaceCommas
  rw [List.getLast?_map]
  cases hl : v.getLast? with
  | none => simp
  | some d =>
    rw [hl] at h
    simp only [Bool.and_eq_true, Bool.not_eq_true', bne_iff_ne, ne_eq] at h
    simp [h.1, h.2]

theorem canon_good {hs : List Str} (hH : HeadersOK hs) (row : Row) (hc : CleanFor hs row) :
    GoodRow hs (canon hs row) := by
  refine ⟨?_, ?_, ?_, ?_⟩
  · have h1 : hs.map (valueOf (canon hs row)) = hs.map (fun h => replaceCommas (valueOf row h)) :=
      List.map_congr_left (fun h hh => valueOf_canon hH row h hh)
    rw [h1]; rfl
  · intro h hh
    rw [valueOf_canon hH row h hh]
    exact replaceCommas_no_comma _
  · intro h hh
    rw [valueOf_canon hH row h hh]
    exact replaceCommas_no_lf _ (hc.1 h hh)
  · rw [valueOf_canon hH row _ (lastKey_mem hH)]
    exact replaceCommas_endsClean _ hc.2

theorem canon_of_good {hs : List Str} (row : Row) (hg : GoodRow hs row) : canon hs row = row := by
  have h1 : hs.map (fun h => replaceCommas (valueOf row h)) = hs.map (valueOf row) :=
    List.map_congr_left (fun h hh => replaceCommas_id _ (hg.2.1 h hh))
  unfold canon
  rw [h1]
  exact hg.1.symm

theorem lookupKey_good {hs : List Str} (hH : HeadersOK hs) (row : Row) (hg : GoodRow hs row)
    (h : Str) (hh : h ∈ hs) : lookupKey row h = some (valueOf row h) := by
  have h1 := lookupKey_mkRow_map hH.2.2.1 (valueOf row) h hh
  rw [← hg.1] at h1
  exact h1

theorem map_canon_good {hs : List Str} (rows : List Row) (hg : ∀ r ∈ rows, GoodRow hs r) :
    rows.map (canon hs) = rows := by
  induction rows with
  | nil => rfl
  | cons r rs ih =>
    rw [List.map_cons, canon_of_good r (hg r (by simp)),
      ih (fun x hx => hg x (List.mem_cons_of_mem _ hx))]

/-- Reading the file after `save` returns the rows as they read back. -/
theorem all_save {hs : List Str} (hH : HeadersOK hs) (rows : List Row)
    (hc : ∀ r ∈ rows, CleanFor hs r) :
    DataManager.all (DataManager.save hs rows) = rows.map (canon hs) :=
  parseCsv_stringify hH rows hc

/-- Writing good rows and reading them back returns them unchanged. -/
theorem all_save_good {hs : List Str} (hH : HeadersOK hs) (rows : List Row)
    (hg : ∀ r ∈ rows, GoodRow hs r) :
    DataManager.all (DataManager.save hs rows) = rows := by
  unfold DataManager.all DataManager.save
  rw [parseCsv_stringify hH rows (fun r hr => (hg r hr).2.2), map_canon_good rows hg]


/-! ## Decimal ids -/

theorem digitChar_spec : ∀ m, m < 10 →
    isDecDigit (Nat.digitChar m) = true ∧ digitValue (Nat.digitChar m) = m := by
  decide

theorem toDigitsCore_spec (fuel : Nat) : ∀ (n : Nat) (ds : List Char), n < fuel →
    ∃ pre, Nat.toDigitsCore 10 fuel n ds = pre ++ ds ∧ pre ≠ [] ∧
      (∀ c ∈ pre, isDecDigit c = true) ∧
      pre.foldl (fun acc c => 10 * acc + digitValue c) 0 = n := by
  induction fuel with
  | zero => intro n ds h; omega
  | succ fuel ih =>
    intro n ds hn
    have hd := digitChar_spec (n % 10) (Nat.mod_lt _ (by decide))
    unfold Nat.toDigitsCore
    by_cases h0 : n / 10 = 0
    · refine ⟨[Nat.digitChar (n % 10)], by simp [h0], by simp, ?_, ?_⟩
      · intro c hc
        rw [List.mem_singleton.1 hc]; exact hd.1
      · simp only [List.foldl_cons, List.foldl_nil, hd.2]
        omega
    · have hlt : n / 10 < fuel := by omega
      obtain ⟨pre, h1, _, h3, h4⟩ := ih (n / 10) (Nat.digitChar (n % 10) :: ds) hlt
      refine ⟨pre ++ [Nat.digitChar (n % 10)], by simp [h0, h1], by simp, ?_, ?_⟩
      · intro c hc
        rcases List.mem_append.1 hc with h | h
        · exact h3 c h
        · rw [List.mem_singleton.1 h]; exact hd.1
      · rw [List.foldl_append, h4]
        simp only [List.foldl_cons, List.foldl_nil, hd.2]
        omega

theorem numToStr_spec (n : Nat) :
    numToStr n ≠ [] ∧ (∀ c ∈ numToStr n, isDecDigit c = true) ∧
      (numToStr n).foldl (fun acc c => 10 * acc + digitValue c) 0 = n := by
  obtain ⟨pre, h1, h2, h3, h4⟩ := toDigitsCore_spec (n + 1) n [] (by omega)
  have h : numToStr n = pre := by simpa [numToStr, Nat.toDigits] using h1
  rw [h]
  exact ⟨h2, h3, h4⟩

theorem numToStr_injective (a b : Nat) (h : numToStr a = numToStr b) : a = b := by
  have ha := (numToStr_spec a).2.2
  rw [h, (numToStr_spec b).2.2] at ha
  exact ha.symm

theorem isDecDigit_not_space (c : Char) (h : isDecDigit c = true) : isJsWhitespace c = false := by
  unfold isDecDigit at h
  unfold isJsWhitespace
  simp only [Bool.and_eq_true, decide_eq_true_eq] at h
  simp only [Bool.or_eq_false_iff, decide_eq_false_iff_not, Bool.and_eq_false_imp,
    decide_eq_true_eq]
  omega

theorem isDecDigit_ne_lf (c : Char) (h : isDecDigit c = true) : c ≠ '\n' := by
  intro he; subst he; exact absurd h (by decide)

theorem isDecDigit_ne_comma (c : Char) (h : isDecDigit c = true) : c ≠ ',' := by
  intro he; subst he; exact absurd h (by decide)

theorem numToStr_no_lf (n : Nat) : '\n' ∉ numToStr n :=
  fun h => isDecDigit_ne_lf _ ((numToStr_spec n).2.1 _ h) rfl

theorem numToStr_no_comma (n : Nat) : ',' ∉ numToStr n :=
  fun h => isDecDigit_ne_comma _ ((numToStr_spec n).2.1 _ h) rfl

theorem trim_numToStr (n : Nat) : trim (numToStr n) = numToStr n := by
  obtain ⟨hne, hd, _⟩ := numToStr_spec n
  cases hs : numToStr n with
  | nil => exact absurd hs hne
  | cons x u =>
    rw [hs] at hd
    apply trim_of_clean _ x u rfl (isDecDigit_not_space _ (hd x (by simp)))
    intro c hc
    exact isDecDigit_not_space _ (hd c (List.mem_of_getLast?_eq_some hc))

theorem toNumber_numToStr (n : Nat) (h : n ≤ maxExact) : toNumber (numToStr n) = some n := by
  obtain ⟨_, hd, hv⟩ := numToStr_spec n
  unfold toNumber
  simp only [trim_numToStr]
  have hall : (numToStr n).all isDecDigit = true := List.all_eq_true.2 hd
  simp [hall, hv, h]

theorem le_foldl_max (ns : List Nat) : ∀ a, a ≤ ns.foldl max a ∧ ∀ n ∈ ns, n ≤ ns.foldl max a := by
  induction ns with
  | nil => intro a; simp
  | cons m ns ih =>
    intro a
    obtain ⟨h1, h2⟩ := ih (max a m)
    refine ⟨le_trans (le_max_left a m) h1, ?_⟩
    intro n hn
    rcases List.mem_cons.1 hn with h | h
    · rw [h]; exact le_trans (le_max_right a m) h1
    · exact h2 n h

theorem foldl_max_le (ns : List Nat) : ∀ a b, a ≤ b → (∀ n ∈ ns, n ≤ b) → ns.foldl max a ≤ b := by
  induction ns with
  | nil => intro a b h _; simpa using h
  | cons m ns ih =>
    intro a b h hb
    exact ih (max a m) b (max_le h (hb m (by simp))) (fun n hn => hb n (List.mem_cons_of_mem _ hn))

theorem idNumbers_of_ids : ∀ (rows : List Row) (ns : List Nat),
    idsOf rows = ns.map (fun n => some (numToStr n)) → (∀ n ∈ ns, n ≤ maxExact) →
    idNumbers rows = some ns := by
  intro rows
  induction rows with
  | nil =>
    intro ns h _
    cases ns with
    | nil => rfl
    | cons n ns => simp [idsOf] at h
  | cons r rows ih =>
    intro ns h hb
    cases ns with
    | nil => simp [idsOf] at h
    | cons n ns =>
      simp only [idsOf, List.map_cons, List.cons.injEq] at h
      have h1 := ih ns h.2 (fun k hk => hb k (List.mem_cons_of_mem _ hk))
      simp only [idNumbers, h.1, Option.some_bind, toNumber_numToStr n (hb n (by simp)), h1]

theorem nextId_of_ids {argLimit : Nat} (rows : List Row) (ns : List Nat)
    (h : idsOf rows = ns.map (fun n => some (numToStr n))) (hb : ∀ n ∈ ns, n < maxExact)
    (hlen : ns.length ≤ argLimit) :
    nextId argLimit rows = some (ns.foldl max 0 + 1) := by
  have hrl : ¬ argLimit < rows.length := by
    have h1 := congrArg List.length h
    simp only [idsOf, List.length_map] at h1
    omega
  unfold nextId
  by_cases h0 : rows.length = 0
  · have h1 : rows = [] := List.length_eq_zero.1 h0
    subst h1
    cases ns with
    | nil => simp
    | cons n ns => simp [idsOf] at h
  · rw [idNumbers_of_ids rows ns h (fun n hn => le_of_lt (hb n hn))]
    have hm : ns.foldl max 0 < maxExact := by
      cases ns with
      | nil => simp [maxExact]
      | cons n ns =>
        have hne : 0 < maxExact := by decide
        have h1 := foldl_max_le (n :: ns) 0 (maxExact - 1) (by omega)
          (fun k hk => by have := hb k hk; omega)
        omega
    simp [h0, hm, hrl]

theorem idNumbers_mem : ∀ (rows : List Row) (ns : List Nat), idNumbers rows = some ns →
    ∀ r ∈ rows, ∃ k, (lookupKey r idKey).bind toNumber = some k ∧ k ∈ ns := by
  intro rows
  induction rows with
  | nil => intro ns _ r hr; simp at hr
  | cons x rows ih =>
    intro ns h r hr
    unfold idNumbers at h
    cases h1 : (lookupKey x idKey).bind toNumber with
    | none => simp [h1] at h
    | some n =>
      cases h2 : idNumbers rows with
      | none => simp [h1, h2] at h
      | some ms =>
        simp only [h1, h2, Option.some.injEq] at h
        subst h
        rcases List.mem_cons.1 hr with he | he
        · subst he; exact ⟨n, h1, by simp⟩
        · obtain ⟨k, hk1, hk2⟩ := ih ms h2 r he
          exact ⟨k, hk1, List.mem_cons_of_mem _ hk2⟩

/-- With more records than the engine accepts arguments, `nextId` throws. -/
theorem nextId_too_many (argLimit : Nat) (rows : List Row) (h : argLimit < rows.length) :
    nextId argLimit rows = none := by
  have h0 : rows.length ≠ 0 := by omega
  simp [nextId, h0, h]

/-- With more records than the engine accepts arguments, `add` throws and the
file is not written. -/
theorem add_too_many (argLimit : Nat) (hs : List Str) (file : Str) (data : Row)
    (h : argLimit < (DataManager.all file).length) :
    DataManager.add argLimit hs file data = none := by
  simp [DataManager.add, nextId_too_many argLimit _ h]

/-- The number that `nextId` returns is above the number of every id in the
rows, and not above `2 ^ 53`. -/
theorem nextId_gt {argLimit : Nat} (rows : List Row) (n : Nat) (h : nextId argLimit rows = some n) :
    n ≤ maxExact ∧ 1 ≤ n ∧ ∀ r ∈ rows, ∃ k, (lookupKey r idKey).bind toNumber = some k ∧ k < n := by
  unfold nextId at h
  by_cases h0 : rows.length = 0
  · have h1 : rows = [] := List.length_eq_zero.1 h0
    subst h1
    simp at h
    subst h
    exact ⟨by decide, le_refl _, by simp⟩
  · simp only [h0, if_false] at h
    by_cases hl : argLimit < rows.length
    · simp [hl] at h
    simp only [hl, if_false] at h
    cases h2 : idNumbers rows with
    | none => simp [h2] at h
    | some ns =>
      simp only [h2] at h
      by_cases hm : ns.foldl max 0 < maxExact
      · simp only [hm, if_true, Option.some.injEq] at h
        subst h
        refine ⟨hm, by omega, ?_⟩
        intro r hr
        obtain ⟨k, hk1, hk2⟩ := idNumbers_mem rows ns h2 r hr
        exact ⟨k, hk1, Nat.lt_succ_of_le ((le_foldl_max ns 0).2 k hk2)⟩
      · simp [hm] at h


/-! ## One call on a good store -/

theorem lookup_mem : ∀ (l : Row) (k v : Str), List.lookup k l = some v → (k, v) ∈ l := by
  intro l
  induction l with
  | nil => intro k v h; simp at h
  | cons p l ih =>
    intro k v h
    obtain ⟨k1, v1⟩ := p
    by_cases he : k = k1
    · subst he
      simp [List.lookup] at h
      subst h; simp
    · have h2 : (k == k1) = false := by simpa using he
      simp only [List.lookup, h2] at h
      exact List.mem_cons_of_mem _ (ih k v h)

theorem valueOf_setField (row : Row) (k v h : Str) :
    valueOf (setField row k v) h = if h = k then v else valueOf row h := by
  unfold valueOf
  rw [lookupKey_setField]
  by_cases he : h = k <;> simp [he]

theorem cleanFor_setField {hs : List Str} (hH : HeadersOK hs) (data : Row)
    (hf : FieldsClean hs data) (n : Nat) : CleanFor hs (setField data idKey (numToStr n)) := by
  refine ⟨?_, ?_⟩
  · intro h hh
    rw [valueOf_setField]
    by_cases he : h = idKey
    · simp only [he, if_true]; exact numToStr_no_lf n
    · simp only [he, if_false]; exact hf.1 h hh he
  · rw [valueOf_setField]
    simp only [lastKey_ne_idKey hH, if_false]
    exact hf.2

theorem cleanFor_merge {hs : List Str} (hH : HeadersOK hs) (row : Row) (hc : CleanFor hs row) (payload : Row)
    (hp : PayloadClean hs payload) : CleanFor hs (merge row payload) := by
  have key : ∀ h, valueOf (merge row payload) h = valueOf row h ∨
      ∃ v, (h, v) ∈ payload ∧ valueOf (merge row payload) h = v := by
    intro h
    unfold valueOf
    rw [lookupKey_merge]
    cases hl : lookupKey payload h with
    | none => left; simp
    | some v => right; exact ⟨v, lookup_mem _ _ _ hl, by simp⟩
  refine ⟨?_, ?_⟩
  · intro h hh
    rcases key h with h1 | ⟨v, hv, h1⟩
    · rw [h1]; exact hc.1 h hh
    · rw [h1]; exact (hp (h, v) hv hh).1
  · rcases key (lastKey hs) with h1 | ⟨v, hv, h1⟩
    · rw [h1]; exact hc.2
    · rw [h1]
      exact (hp (lastKey hs, v) hv (lastKey_mem hH)).2 rfl

theorem mem_modify {α : Type} (g : α → α) : ∀ (l : List α) (i : Nat) (x : α),
    x ∈ l.modify g i → x ∈ l ∨ ∃ y ∈ l, x = g y := by
  intro l
  induction l with
  | nil => intro i x h; simp at h
  | cons a l ih =>
    intro i x h
    cases i with
    | zero =>
      rw [List.modify_zero_cons] at h
      rcases List.mem_cons.1 h with h1 | h1
      · exact Or.inr ⟨a, by simp, h1⟩
      · exact Or.inl (List.mem_cons_of_mem _ h1)
    | succ i =>
      rw [List.modify_succ_cons] at h
      rcases List.mem_cons.1 h with h1 | h1
      · exact Or.inl (by simp [h1])
      · rcases ih i x h1 with h2 | ⟨y, hy, h2⟩
        · exact Or.inl (List.mem_cons_of_mem _ h2)
        · exact Or.inr ⟨y, List.mem_cons_of_mem _ hy, h2⟩

theorem map_modify_of_fixed {α : Type} (c g : α → α) : ∀ (l : List α) (i : Nat),
    (∀ x ∈ l, c x = x) → (l.modify g i).map c = l.modify (fun x => c (g x)) i := by
  intro l
  induction l with
  | nil => intro i _; simp
  | cons a l ih =>
    intro i h
    have hl : l.map c = l := by
      have : ∀ x ∈ l, c x = id x := fun x hx => h x (List.mem_cons_of_mem _ hx)
      rw [List.map_congr_left this, List.map_id]
    cases i with
    | zero => simp [hl]
    | succ i =>
      rw [List.modify_succ_cons, List.modify_succ_cons, List.map_cons, h a (by simp),
        ih i (fun x hx => h x (List.mem_cons_of_mem _ hx))]

/-- On a good store whose next id is in range, `add` returns the decimal text of
that id, and the rows read afterwards are the old rows followed by the new one. -/
theorem add_good {argLimit : Nat} {hs : List Str} (hH : HeadersOK hs)
    {file : Str} (hg : GoodStore hs file)
    (data : Row) (hf : FieldsClean hs data) (n : Nat)
    (hn : nextId argLimit (DataManager.all file) = some n) :
    ∃ file1, DataManager.add argLimit hs file data = some (file1, numToStr n) ∧
      DataManager.all file1 =
        DataManager.all file ++ [canon hs (setField data idKey (numToStr n))] ∧
      GoodStore hs file1 := by
  have hclean : ∀ r ∈ DataManager.all file ++ [setField data idKey (numToStr n)],
      CleanFor hs r := by
    intro r hr
    rcases List.mem_append.1 hr with h | h
    · exact (hg r h).2.2
    · rw [List.mem_singleton.1 h]; exact cleanFor_setField hH data hf n
  have hall : DataManager.all (DataManager.save hs
      (DataManager.all file ++ [setField data idKey (numToStr n)])) =
      DataManager.all file ++ [canon hs (setField data idKey (numToStr n))] := by
    rw [all_save hH _ hclean, List.map_append, map_canon_good _ hg]
    rfl
  refine ⟨_, by simp only [DataManager.add, hn], hall, ?_⟩
  intro r hr
  rw [hall] at hr
  rcases List.mem_append.1 hr with h | h
  · exact hg r h
  · rw [List.mem_singleton.1 h]
    exact canon_good hH _ (cleanFor_setField hH data hf n)

/-- On a good store, `update` of an id found at index `idx` returns true, and the
rows read afterwards are the old rows with the row at `idx` replaced by the
merge of the payload over it, as it reads back. -/
theorem update_found {hs : List Str} (hH : HeadersOK hs) {file : Str} (hg : GoodStore hs file)
    (id : Str) (payload : Row) (hp : PayloadClean hs payload) (idx : Nat)
    (hi : (DataManager.all file).findIdx? (fun r => lookupKey r idKey = some id) = some idx) :
    (DataManager.update hs file id payload).2 = true ∧
    DataManager.all (DataManager.update hs file id payload).1 =
      (DataManager.all file).modify (fun r => canon hs (merge r payload)) idx ∧
    GoodStore hs (DataManager.update hs file id payload).1 := by
  have hclean : ∀ r ∈ (DataManager.all file).modify (fun r => merge r payload) idx,
      CleanFor hs r := by
    intro r hr
    rcases mem_modify _ _ _ _ hr with h | ⟨y, hy, h⟩
    · exact (hg r h).2.2
    · rw [h]; exact cleanFor_merge hH y (hg y hy).2.2 payload hp
  have hall : DataManager.all (DataManager.save hs
      ((DataManager.all file).modify (fun r => merge r payload) idx)) =
      (DataManager.all file).modify (fun r => canon hs (merge r payload)) idx := by
    rw [all_save hH _ hclean]
    exact map_modify_of_fixed (canon hs) _ _ idx (fun x hx => canon_of_good x (hg x hx))
  have hupd : DataManager.update hs file id payload =
      (DataManager.save hs ((DataManager.all file).modify (fun r => merge r payload) idx), true) := by
    simp only [DataManager.update, hi]
  rw [hupd]
  refine ⟨rfl, hall, ?_⟩
  intro r hr
  rw [hall] at hr
  rcases mem_modify _ _ _ _ hr with h | ⟨y, hy, h⟩
  · exact hg r h
  · rw [h]; exact canon_good hH _ (cleanFor_merge hH y (hg y hy).2.2 payload hp)

/-- The method `update` on an id that no row has: false is returned and the file
is the same text. -/
theorem update_absent (hs : List Str) (file : Str) (id : Str) (payload : Row)
    (hno : ∀ r ∈ DataManager.all file, lookupKey r idKey ≠ some id) :
    DataManager.update hs file id payload = (file, false) := by
  have hi : (DataManager.all file).findIdx? (fun r => lookupKey r idKey = some id) = none := by
    rw [List.findIdx?_eq_none_iff]
    intro x hx
    simpa using hno x hx
  simp only [DataManager.update, hi]

/-- On a good store, `delete` of an id that some row has returns true, and the
rows read afterwards are the old rows without those of that id. -/
theorem delete_found {hs : List Str} (hH : HeadersOK hs) {file : Str} (hg : GoodStore hs file)
    (id : Str) (hex : ∃ r ∈ DataManager.all file, lookupKey r idKey = some id) :
    (DataManager.delete hs file id).2 = true ∧
    DataManager.all (DataManager.delete hs file id).1 =
      (DataManager.all file).filter (fun r => lookupKey r idKey ≠ some id) ∧
    GoodStore hs (DataManager.delete hs file id).1 := by
  have hlen : ((DataManager.all file).filter (fun r => lookupKey r idKey ≠ some id)).length ≠
      (DataManager.all file).length := by
    intro he
    have hsub := List.filter_sublist (p := fun r => decide (lookupKey r idKey ≠ some id))
      (DataManager.all file)
    have heq := hsub.eq_of_length he
    obtain ⟨r, hr, hid⟩ := hex
    rw [← heq] at hr
    have := (List.mem_filter.1 hr).2
    simp [hid] at this
  have hgood : ∀ r ∈ (DataManager.all file).filter (fun r => lookupKey r idKey ≠ some id),
      GoodRow hs r := fun r hr => hg r (List.mem_filter.1 hr).1
  have hdel : DataManager.delete hs file id =
      (DataManager.save hs ((DataManager.all file).filter
        (fun r => lookupKey r idKey ≠ some id)), true) := by
    simp only [DataManager.delete, hlen, if_false]
  rw [hdel]
  refine ⟨rfl, all_save_good hH _ hgood, ?_⟩
  intro r hr
  rw [all_save_good hH _ hgood] at hr
  exact hgood r hr

/-- The method `delete` on an id that no row has: false is returned and the file
is the same text. -/
theorem delete_absent (hs : List Str) (file : Str) (id : Str)
    (hno : ∀ r ∈ DataManager.all file, lookupKey r idKey ≠ some id) :
    DataManager.delete hs file id = (file, false) := by
  have hf : (DataManager.all file).filter (fun r => lookupKey r idKey ≠ some id) =
      DataManager.all file := by
    rw [List.filter_eq_self]
    intro x hx
    simpa using hno x hx
  simp only [DataManager.delete, hf, if_true]

theorem findIdx?_split {α : Type} (p : α → Bool) : ∀ (l : List α) (i : Nat),
    l.findIdx? p = some i →
    ∃ l1 r l2, l = l1 ++ r :: l2 ∧ l1.length = i ∧ p r = true ∧ ∀ x ∈ l1, p x = false := by
  intro l
  induction l with
  | nil => intro i h; simp at h
  | cons a l ih =>
    intro i h
    rw [List.findIdx?_cons] at h
    by_cases hp : p a = true
    · simp only [hp, if_true, Option.some.injEq] at h
      exact ⟨[], a, l, rfl, by simpa using h, hp, by simp⟩
    · simp only [hp, if_false] at h
      rw [List.findIdx?_succ] at h
      cases hl : l.findIdx? p with
      | none => simp [hl] at h
      | some j =>
        simp only [hl, Option.map_some', Option.some.injEq] at h
        obtain ⟨l1, r, l2, h1, h2, h3, h4⟩ := ih j hl
        have hji : j + 1 = i := by simpa using h
        refine ⟨a :: l1, r, l2, by rw [h1]; rfl, by simp [h2, hji], h3, ?_⟩
        intro x hx
        rcases List.mem_cons.1 hx with he | he
        · rw [he]; simpa using hp
        · exact h4 x he

theorem modify_append_length {α : Type} (g : α → α) (r : α) (l2 : List α) : ∀ (l1 : List α),
    (l1 ++ r :: l2).modify g l1.length = l1 ++ g r :: l2 := by
  intro l1
  induction l1 with
  | nil => simp
  | cons a l1 ih => simp [ih]

theorem lookup_none_of_not_mem : ∀ (l : Row) (k : Str), k ∉ l.map Prod.fst →
    List.lookup k l = none := by
  intro l
  induction l with
  | nil => intro k _; rfl
  | cons p l ih =>
    intro k h
    obtain ⟨k1, v1⟩ := p
    simp only [List.map_cons, List.mem_cons, not_or] at h
    have h2 : (k == k1) = false := by simpa using h.1
    simp [List.lookup, h2, ih k h.2]

theorem lookupKey_canon_none (hs : List Str) (row : Row) (h : Str) (hh : h ∉ hs) :
    lookupKey (canon hs row) h = none := by
  unfold canon lookupKey
  rw [mkRow_eq hs _ (by simp)]
  apply lookup_none_of_not_mem
  rw [List.map_reverse, List.mem_reverse, List.map_fst_zip]
  · exact hh
  · simp

theorem lookupKey_good_none {hs : List Str} (row : Row) (hg : GoodRow hs row) (h : Str)
    (hh : h ∉ hs) : lookupKey row h = none := by
  rw [← canon_of_good row hg]
  exact lookupKey_canon_none hs row h hh

theorem valueOf_merge_none (row payload : Row) (h : Str) (hn : lookupKey payload h = none) :
    valueOf (merge row payload) h = valueOf row h := by
  unfold valueOf
  rw [lookupKey_merge, hn]
  rfl

theorem valueOf_merge_some (row payload : Row) (h v : Str) (hn : lookupKey payload h = some v) :
    valueOf (merge row payload) h = v := by
  unfold valueOf
  rw [lookupKey_merge, hn]
  rfl

/-! ## Reading back rows without line feed -/

theorem rdropWhile_append_sep {α : Type} (p : α → Bool) (a : List α) (c : α)
    (hc : p c = false) : ∀ (z : List α),
    (a ++ [c] ++ z).rdropWhile p = a ++ [c] ++ z.rdropWhile p := by
  intro z
  induction z using List.reverseRecOn with
  | nil =>
    rw [List.append_nil, List.rdropWhile_nil, List.append_nil]
    exact List.rdropWhile_concat_neg _ _ _ (by simp [hc])
  | append_singleton z x ih =>
    rw [← List.append_assoc]
    by_cases hx : p x = true
    · rw [List.rdropWhile_concat_pos _ _ _ hx, List.rdropWhile_concat_pos _ _ _ hx, ih]
    · rw [List.rdropWhile_concat_neg _ _ _ hx, List.rdropWhile_concat_neg _ _ _ hx,
        List.append_assoc]

theorem shortens_trimEnd : Shortens trimEnd :=
  ⟨fun s => List.rdropWhile_prefix _ s,
    fun a z => rdropWhile_append_sep isJsWhitespace a ',' (by decide) z⟩

theorem shortens_stripCR : Shortens stripCR := by
  refine ⟨?_, ?_⟩
  · intro s
    unfold stripCR
    by_cases h : s.getLast? = some '\r'
    · simp only [h, if_true]; exact List.dropLast_prefix s
    · simp only [h, if_false]; exact List.prefix_refl s
  · intro a z
    unfold stripCR
    cases hz : z.getLast? with
    | none =>
      have : z = [] := List.getLast?_eq_none_iff.1 hz
      subst this
      simp
    | some d =>
      have hne : z ≠ [] := by intro he; rw [he] at hz; simp at hz
      have hl : (a ++ [','] ++ z).getLast? = some d := by
        rw [List.getLast?_append, hz]; rfl
      rw [hl]
      by_cases hd : d = '\r'
      · simp only [hd, if_true]
        rw [List.dropLast_append_of_ne_nil _ hne]
      · have : ¬ (some d = some '\r') := by simpa using hd
        simp only [this, if_false]

theorem headers_split_last {hs : List Str} (hH : HeadersOK hs) :
    hs = hs.dropLast ++ [lastKey hs] ∧ hs.dropLast ≠ [] ∧ lastKey hs ∉ hs.dropLast := by
  have hne := headersOK_ne_nil hH
  cases hl : hs.getLast? with
  | none => exact absurd (List.getLast?_eq_none_iff.1 hl) hne
  | some z =>
    have hz : lastKey hs = z := by simp [lastKey, hl]
    have hsplit : hs.dropLast ++ [z] = hs := List.dropLast_append_getLast? z (by simp [hl])
    rw [hz]
    refine ⟨hsplit.symm, ?_, ?_⟩
    · intro he
      have : hs.dropLast.length = 0 := by rw [he]; rfl
      have h2 := hH.2.1
      simp at this; omega
    · intro hm
      have hnd := hH.2.2.1
      rw [← hsplit] at hnd
      have := List.nodup_append.1 hnd
      exact this.2.2 hm (by simp)

theorem map_split_last {hs : List Str} (hH : HeadersOK hs) (g : Str → Str) :
    hs.map g = hs.dropLast.map g ++ [g (lastKey hs)] := by
  have h := congrArg (List.map g) (headers_split_last hH).1
  rw [List.map_append, List.map_singleton] at h
  exact h

theorem joinComma_split_last {hs : List Str} (hH : HeadersOK hs) (g : Str → Str) :
    joinComma (hs.map g) = joinComma (hs.dropLast.map g) ++ [','] ++ g (lastKey hs) := by
  have hne : hs.dropLast.map g ≠ [] := by
    intro he
    exact (headers_split_last hH).2.1 (List.map_eq_nil_iff.1 he)
  rw [map_split_last hH g]
  unfold joinComma
  rw [intercalate_concat _ _ _ hne]

/-- The line written for a row: what comes before the last cell, a comma, the
last cell. -/
theorem rowLine_decomp {hs : List Str} (hH : HeadersOK hs) (row : Row) :
    rowLine hs row =
      joinComma (hs.dropLast.map (fun h => replaceCommas (valueOf row h))) ++ [','] ++
        replaceCommas (valueOf row (lastKey hs)) := by
  unfold rowLine
  exact joinComma_split_last hH _

theorem joinComma_cellsRead {hs : List Str} (hH : HeadersOK hs) (f : Str → Str) (row : Row) :
    joinComma (cellsRead f hs row) =
      joinComma (hs.dropLast.map (fun h => replaceCommas (valueOf row h))) ++ [','] ++
        f (replaceCommas (valueOf row (lastKey hs))) := by
  unfold cellsRead
  rw [joinComma_split_last hH]
  have hinit : hs.dropLast.map (fun h =>
      if h = lastKey hs then f (replaceCommas (valueOf row h))
      else replaceCommas (valueOf row h)) =
      hs.dropLast.map (fun h => replaceCommas (valueOf row h)) := by
    apply List.map_congr_left
    intro h hh
    have : h ≠ lastKey hs := fun he => (headers_split_last hH).2.2 (he ▸ hh)
    simp only [this, if_false]
  rw [hinit]
  simp

/-- Reading the line of a row through `f` gives the line of the cells read. -/
theorem shorten_rowLine {hs : List Str} (hH : HeadersOK hs) {f : Str → Str} (hf : Shortens f)
    (row : Row) : f (rowLine hs row) = joinComma (cellsRead f hs row) := by
  rw [rowLine_decomp hH, joinComma_cellsRead hH, hf.2]

theorem prefix_not_mem {c : Char} {s t : Str} (hp : s <+: t) (h : c ∉ t) : c ∉ s :=
  fun hc => h (List.IsPrefix.mem hc hp)

theorem cellsRead_no_comma {hs : List Str} {f : Str → Str} (hf : Shortens f) (row : Row) :
    ∀ v ∈ cellsRead f hs row, ',' ∉ v := by
  intro v hv
  rcases List.mem_map.1 hv with ⟨h, _, rfl⟩
  by_cases hl : h = lastKey hs
  · simp only [hl, if_true]
    exact prefix_not_mem (hf.1 _) (replaceCommas_no_comma _)
  · simp only [hl, if_false]
    exact replaceCommas_no_comma _

theorem cellsRead_no_lf {hs : List Str} {f : Str → Str} (hf : Shortens f) {row : Row}
    (hr : NoLineFeed hs row) : ∀ v ∈ cellsRead f hs row, '\n' ∉ v := by
  intro v hv
  rcases List.mem_map.1 hv with ⟨h, hh, rfl⟩
  by_cases hl : h = lastKey hs
  · simp only [hl, if_true]
    exact prefix_not_mem (hf.1 _) (replaceCommas_no_lf _ (hr _ (hl ▸ hh)))
  · simp only [hl, if_false]
    exact replaceCommas_no_lf _ (hr h hh)

theorem cellsRead_split {hs : List Str} (hH : HeadersOK hs) {f : Str → Str} (hf : Shortens f)
    (row : Row) : (joinComma (cellsRead f hs row)).splitOn ',' = cellsRead f hs row := by
  unfold joinComma
  apply List.splitOn_intercalate
  · exact cellsRead_no_comma hf row
  · intro he
    exact headersOK_ne_nil hH (List.map_eq_nil_iff.1 he)

theorem rowLine_no_lf_of {hs : List Str} {row : Row} (hr : NoLineFeed hs row) :
    '\n' ∉ rowLine hs row := by
  intro h
  rcases mem_intercalate_single ',' _ '\n' h with h1 | ⟨x, hx, hx2⟩
  · exact absurd h1 (by decide)
  · rcases List.mem_map.1 hx with ⟨k, hk, rfl⟩
    exact replaceCommas_no_lf _ (hr k hk) hx2


theorem mapLast_concat {α : Type} (f : α → α) : ∀ (l : List α) (z : α),
    mapLast f (l ++ [z]) = l ++ [f z] := by
  intro l
  induction l with
  | nil => intro z; rfl
  | cons a l ih =>
    intro z
    cases l with
    | nil => rfl
    | cons b l =>
      have h := ih z
      simp only [List.cons_append] at h ⊢
      simp only [mapLast, h]

theorem mem_mapLast {α : Type} (f : α → α) : ∀ (l : List α) (x : α),
    x ∈ mapLast f l → x ∈ l ∨ ∃ y ∈ l, x = f y := by
  intro l
  induction l with
  | nil => intro x h; simp [mapLast] at h
  | cons a l ih =>
    intro x h
    cases l with
    | nil =>
      simp only [mapLast, List.mem_singleton] at h
      exact Or.inr ⟨a, by simp, h⟩
    | cons b l =>
      simp only [mapLast] at h
      rcases List.mem_cons.1 h with h1 | h1
      · exact Or.inl (by simp [h1])
      · rcases ih x h1 with h2 | ⟨y, hy, h2⟩
        · exact Or.inl (List.mem_cons_of_mem _ h2)
        · exact Or.inr ⟨y, List.mem_cons_of_mem _ hy, h2⟩

theorem exists_concat_of_ne_nil {α : Type} (l : List α) (h : l ≠ []) :
    ∃ init z, l = init ++ [z] ∧ z ∈ l := by
  cases hl : l.getLast? with
  | none => exact absurd (List.getLast?_eq_none_iff.1 hl) h
  | some z =>
    exact ⟨l.dropLast, z, (List.dropLast_append_getLast? z (by simp [hl])).symm,
      List.mem_of_getLast?_eq_some hl⟩

/-- The text that `parseCsv` sees after trimming a file written from at least one
row: the header line and the data lines joined by line feeds, the last line
without its trailing white space. -/
theorem trim_stringify_general {hs : List Str} (hH : HeadersOK hs) (r : Row) (rs : List Row) :
    trim (stringifyCsv hs (r :: rs)) =
      ['\n'].intercalate (joinComma hs :: mapLast trimEnd ((r :: rs).map (rowLine hs))) := by
  obtain ⟨u, hu⟩ := headerLine_head hH
  have hform : stringifyCsv hs (r :: rs) =
      ['\n'].intercalate (joinComma hs :: (r :: rs).map (rowLine hs)) ++ ['\n'] := by
    simp only [stringifyCsv, List.map_cons, intercalate_cons_cons]
  have hstart : ['\n'].intercalate (joinComma hs :: (r :: rs).map (rowLine hs)) =
      'i' :: (u ++ ['\n'] ++ ['\n'].intercalate ((r :: rs).map (rowLine hs))) := by
    simp only [List.map_cons, intercalate_cons_cons, hu]
    simp
  rw [hform, trim_append_lf _ _ _ hstart isJsWhitespace_i]
  obtain ⟨linit, z, hdec, hz⟩ := exists_concat_of_ne_nil ((r :: rs).map (rowLine hs)) (by simp)
  rcases List.mem_map.1 hz with ⟨x, _, hx⟩
  have e1 : ∀ w : Str, ['\n'].intercalate (joinComma hs :: (linit ++ [w])) =
      ['\n'].intercalate (joinComma hs :: linit) ++ ['\n'] ++ w := by
    intro w
    rw [← List.cons_append]
    exact intercalate_concat _ _ _ (by simp)
  rw [hdec, mapLast_concat, e1, e1, ← hx, rowLine_decomp hH x, shortens_trimEnd.2]
  have e3 : ∀ (a b v : Str), a ++ ['\n'] ++ (b ++ [','] ++ v) = (a ++ ['\n'] ++ b) ++ [','] ++ v := by
    intro a b v
    simp [List.append_assoc]
  rw [e3, e3, rdropWhile_append_sep _ _ _ (by decide)]
  rfl

theorem mapLast_ne_nil {α : Type} (f : α → α) (l : List α) (h : l ≠ []) : mapLast f l ≠ [] := by
  match l, h with
  | [x], _ => simp [mapLast]
  | x :: y :: rest, _ => simp [mapLast]

theorem mapInit_readLines : ∀ (lines : List Str), lines ≠ [] → ∀ x : Str,
    mapInit stripCR (x :: mapLast trimEnd lines) = stripCR x :: readLines lines := by
  intro lines
  induction lines with
  | nil => intro h; exact absurd rfl h
  | cons l rest ih =>
    intro _ x
    cases rest with
    | nil => rfl
    | cons l2 rest2 =>
      have h := ih (by simp) l
      cases hm : mapLast trimEnd (l2 :: rest2) with
      | nil => exact absurd hm (mapLast_ne_nil _ _ (by simp))
      | cons y ys =>
        rw [hm] at h
        simp only [mapLast, hm, mapInit, readLines] at h ⊢
        rw [(List.cons.inj h).2]

theorem readLines_rows {hs : List Str} (hH : HeadersOK hs) : ∀ (rows : List Row),
    (readLines (rows.map (rowLine hs))).map (fun l => fillRow (l.splitOn ',') 0 hs []) =
      readRows hs rows := by
  intro rows
  induction rows with
  | nil => rfl
  | cons r rest ih =>
    cases rest with
    | nil =>
      simp only [List.map_cons, List.map_nil, readLines, readRows, readRow, mkRow,
        shorten_rowLine hH shortens_trimEnd, cellsRead_split hH shortens_trimEnd]
    | cons r2 rest2 =>
      simp only [List.map_cons] at ih
      simp only [List.map_cons, readLines, readRows, readRow, mkRow,
        shorten_rowLine hH shortens_stripCR, cellsRead_split hH shortens_stripCR, ih]

/-- Reading back a file written from rows without line feed returns one row per
row written, in order: commas are replaced by spaces, the last value of the last
row loses its trailing white space, and the last value of every other row loses
a carriage return at its end. -/
theorem parseCsv_stringify_general {hs : List Str} (hH : HeadersOK hs) (rows : List Row)
    (hc : ∀ r ∈ rows, NoLineFeed hs r) :
    parseCsv (stringifyCsv hs rows) = readRows hs rows := by
  cases rows with
  | nil => simpa [readRows] using parseCsv_stringify_nil hH
  | cons r rs =>
    obtain ⟨u, hu⟩ := headerLine_head hH
    have htrim := trim_stringify_general hH r rs
    have hne : ['\n'].intercalate (joinComma hs :: mapLast trimEnd ((r :: rs).map (rowLine hs))) ≠
        [] := by
      cases hm : mapLast trimEnd ((r :: rs).map (rowLine hs)) with
      | nil => simp [List.intercalate, hu]
      | cons y ys => simp only [intercalate_cons_cons, hu]; simp
    have hsplit : splitLines
        (['\n'].intercalate (joinComma hs :: mapLast trimEnd ((r :: rs).map (rowLine hs)))) =
        joinComma hs :: readLines ((r :: rs).map (rowLine hs)) := by
      unfold splitLines
      rw [List.splitOn_intercalate _ '\n' _ (by simp), mapInit_readLines _ (by simp),
        stripCR_id _ (headerLine_no_cr hH)]
      intro l hl
      rcases List.mem_cons.1 hl with h1 | h1
      · rw [h1]; exact headerLine_no_lf hH
      · rcases mem_mapLast _ _ _ h1 with h2 | ⟨y, h2, h3⟩
        · rcases List.mem_map.1 h2 with ⟨x, hx, rfl⟩
          exact rowLine_no_lf_of (hc x hx)
        · rcases List.mem_map.1 h2 with ⟨x, hx, rfl⟩
          rw [h3]
          exact prefix_not_mem (shortens_trimEnd.1 _) (rowLine_no_lf_of (hc x hx))
    unfold parseCsv
    rw [htrim]
    simp only [hne, if_false, hsplit, headerLine_split hH]
    exact readLines_rows hH (r :: rs)



/-- Reading the file after `save` of rows without line feed. -/
theorem all_save_general {hs : List Str} (hH : HeadersOK hs) (rows : List Row)
    (hc : ∀ r ∈ rows, NoLineFeed hs r) :
    DataManager.all (DataManager.save hs rows) = readRows hs rows :=
  parseCsv_stringify_general hH rows hc

theorem lookupKey_readRow {hs : List Str} (hH : HeadersOK hs) (f : Str → Str) (row : Row)
    (h : Str) (hh : h ∈ hs) :
    lookupKey (readRow f hs row) h =
      some (if h = lastKey hs then f (replaceCommas (valueOf row h))
        else replaceCommas (valueOf row h)) := by
  unfold readRow cellsRead
  exact lookupKey_mkRow_map hH.2.2.1 _ h hh

theorem valueOf_readRow {hs : List Str} (hH : HeadersOK hs) (f : Str → Str) (row : Row)
    (h : Str) (hh : h ∈ hs) :
    valueOf (readRow f hs row) h =
      (if h = lastKey hs then f (replaceCommas (valueOf row h))
        else replaceCommas (valueOf row h)) := by
  unfold valueOf
  rw [lookupKey_readRow hH f row h hh]
  rfl

theorem lookupKey_readRow_none (hs : List Str) (f : Str → Str) (row : Row) (h : Str)
    (hh : h ∉ hs) : lookupKey (readRow f hs row) h = none := by
  unfold readRow lookupKey
  rw [mkRow_eq hs _ (by simp [cellsRead])]
  apply lookup_none_of_not_mem
  rw [List.map_reverse, List.mem_reverse, List.map_fst_zip]
  · exact hh
  · simp [cellsRead]

theorem lookupKey_readRow_id {hs : List Str} (hH : HeadersOK hs) (f : Str → Str) (row : Row) :
    lookupKey (readRow f hs row) idKey = some (replaceCommas (valueOf row idKey)) := by
  rw [lookupKey_readRow hH f row idKey (idKey_mem hH)]
  have : idKey ≠ lastKey hs := fun h => lastKey_ne_idKey hH h.symm
  simp only [this, if_false]

theorem shapedRow_readRow {hs : List Str} (hH : HeadersOK hs) {f : Str → Str} (hf : Shortens f)
    {row : Row} (hr : NoLineFeed hs row) : ShapedRow hs (readRow f hs row) := by
  have hvals : hs.map (valueOf (readRow f hs row)) = cellsRead f hs row := by
    unfold cellsRead
    exact List.map_congr_left (fun h hh => valueOf_readRow hH f row h hh)
  refine ⟨by rw [hvals]; rfl, ?_⟩
  intro h hh
  have hmem : valueOf (readRow f hs row) h ∈ cellsRead f hs row := by
    rw [← hvals]; exact List.mem_map.2 ⟨h, hh, rfl⟩
  exact ⟨cellsRead_no_comma hf row _ hmem, cellsRead_no_lf hf hr _ hmem⟩

theorem mem_readRows (hs : List Str) : ∀ (rows : List Row), ∀ x ∈ readRows hs rows,
    ∃ r ∈ rows, x = readRow stripCR hs r ∨ x = readRow trimEnd hs r := by
  intro rows
  induction rows with
  | nil => intro x h; simp [readRows] at h
  | cons r rest ih =>
    intro x h
    cases rest with
    | nil =>
      simp only [readRows, List.mem_singleton] at h
      exact ⟨r, by simp, Or.inr h⟩
    | cons r2 rest2 =>
      simp only [readRows] at h
      rcases List.mem_cons.1 h with h1 | h1
      · exact ⟨r, by simp, Or.inl h1⟩
      · obtain ⟨y, hy, hxy⟩ := ih x h1
        exact ⟨y, List.mem_cons_of_mem _ hy, hxy⟩

theorem idsOf_readRows {hs : List Str} (hH : HeadersOK hs) : ∀ (rows : List Row),
    idsOf (readRows hs rows) = rows.map (fun r => some (replaceCommas (valueOf r idKey))) := by
  intro rows
  induction rows with
  | nil => rfl
  | cons r rest ih =>
    cases rest with
    | nil => simp only [readRows, idsOf, List.map_cons, List.map_nil, lookupKey_readRow_id hH]
    | cons r2 rest2 =>
      simp only [idsOf] at ih
      simp only [readRows, idsOf, List.map_cons, lookupKey_readRow_id hH] at ih ⊢
      rw [ih]

/-- After `save` of rows that carry their id, the store is shaped and the ids
read are the ids written. -/
theorem ids_save {hs : List Str} (hH : HeadersOK hs) (rows : List Row)
    (hr : ∀ r ∈ rows, IdRow hs r) :
    ShapedStore hs (DataManager.save hs rows) ∧
    idsOf (DataManager.all (DataManager.save hs rows)) = idsOf rows := by
  have hall := all_save_general hH rows (fun r h => (hr r h).1)
  refine ⟨?_, ?_⟩
  · intro x hx
    rw [hall] at hx
    obtain ⟨r, hmem, h | h⟩ := mem_readRows hs rows x hx
    · rw [h]; exact shapedRow_readRow hH shortens_stripCR (hr r hmem).1
    · rw [h]; exact shapedRow_readRow hH shortens_trimEnd (hr r hmem).1
  · rw [hall, idsOf_readRows hH]
    unfold idsOf
    apply List.map_congr_left
    intro r hmem
    rw [replaceCommas_id _ (hr r hmem).2.1, (hr r hmem).2.2]

theorem lookupKey_shaped {hs : List Str} (hH : HeadersOK hs) (row : Row) (hg : ShapedRow hs row)
    (h : Str) (hh : h ∈ hs) : lookupKey row h = some (valueOf row h) := by
  have h1 := lookupKey_mkRow_map hH.2.2.1 (valueOf row) h hh
  rw [← hg.1] at h1
  exact h1

theorem idRow_of_shaped {hs : List Str} (hH : HeadersOK hs) (row : Row) (hg : ShapedRow hs row) :
    IdRow hs row :=
  ⟨fun h hh => (hg.2 h hh).2, (hg.2 idKey (idKey_mem hH)).1,
    lookupKey_shaped hH row hg idKey (idKey_mem hH)⟩

theorem idRow_setField {hs : List Str} (data : Row) (hf : FieldsNoLF hs data) (n : Nat) :
    IdRow hs (setField data idKey (numToStr n)) := by
  refine ⟨?_, ?_, ?_⟩
  · intro h hh
    rw [valueOf_setField]
    by_cases he : h = idKey
    · simp only [he, if_true]; exact numToStr_no_lf n
    · simp only [he, if_false]; exact hf h hh he
  · rw [valueOf_setField]; simp only [if_true]; exact numToStr_no_comma n
  · rw [lookupKey_setField, valueOf_setField]; simp

theorem idRow_merge {hs : List Str} (row : Row) (hr : IdRow hs row) (payload : Row)
    (hp : PayloadNoLF hs payload) (hnoid : lookupKey payload idKey = none) :
    IdRow hs (merge row payload) ∧ lookupKey (merge row payload) idKey = lookupKey row idKey := by
  have hid : lookupKey (merge row payload) idKey = lookupKey row idKey := by
    rw [lookupKey_merge, hnoid]; rfl
  refine ⟨⟨?_, ?_, ?_⟩, hid⟩
  · intro h hh
    cases hl : lookupKey payload h with
    | none => rw [valueOf_merge_none _ _ _ hl]; exact hr.1 h hh
    | some v =>
      rw [valueOf_merge_some _ _ _ _ hl]
      exact hp (h, v) (lookup_mem _ _ _ hl) hh
  · rw [valueOf_merge_none _ _ _ hnoid]; exact hr.2.1
  · rw [valueOf_merge_none _ _ _ hnoid, hid]; exact hr.2.2

theorem add_eq {argLimit : Nat} (hs : List Str) (file : Str) (data : Row) (n : Nat)
    (hn : nextId argLimit (DataManager.all file) = some n) :
    DataManager.add argLimit hs file data =
      some (DataManager.save hs (DataManager.all file ++ [setField data idKey (numToStr n)]),
        numToStr n) := by
  simp only [DataManager.add, hn]

theorem update_eq (hs : List Str) (file : Str) (id : Str) (payload : Row) (idx : Nat)
    (hi : (DataManager.all file).findIdx? (fun r => lookupKey r idKey = some id) = some idx) :
    DataManager.update hs file id payload =
      (DataManager.save hs ((DataManager.all file).modify (fun r => merge r payload) idx),
        true) := by
  simp only [DataManager.update, hi]

theorem delete_eq (hs : List Str) (file : Str) (id : Str)
    (hex : ∃ r ∈ DataManager.all file, lookupKey r idKey = some id) :
    DataManager.delete hs file id =
      (DataManager.save hs ((DataManager.all file).filter
        (fun r => lookupKey r idKey ≠ some id)), true) := by
  have hlen : ((DataManager.all file).filter (fun r => lookupKey r idKey ≠ some id)).length ≠
      (DataManager.all file).length := by
    intro he
    have hsub := List.filter_sublist (p := fun r => decide (lookupKey r idKey ≠ some id))
      (DataManager.all file)
    have heq := hsub.eq_of_length he
    obtain ⟨r, hr, hid⟩ := hex
    rw [← heq] at hr
    have := (List.mem_filter.1 hr).2
    simp [hid] at this
  simp only [DataManager.delete, hlen, if_false]

theorem endsClean_trimEnd (v : Str) (h : endsClean v = true) : trimEnd v = v := by
  unfold trimEnd
  rw [List.rdropWhile_eq_self_iff]
  intro hne
  unfold endsClean at h
  rw [List.getLast?_eq_getLast v hne] at h
  simp only [Bool.and_eq_true, Bool.not_eq_true', bne_iff_ne, ne_eq] at h
  simp [h.1]

theorem endsClean_stripCR (v : Str) (h : endsClean v = true) : stripCR v = v := by
  apply stripCR_id
  intro hc
  unfold endsClean at h
  rw [hc] at h
  exact absurd h (by decide)

/-- A good row is read back as it is, wherever its line stands in the file. -/
theorem readRow_good {hs : List Str} {f : Str → Str}
    (hf : ∀ v, endsClean v = true → f v = v) (row : Row) (hg : GoodRow hs row) :
    readRow f hs row = row := by
  have h1 : cellsRead f hs row = hs.map (valueOf row) := by
    unfold cellsRead
    apply List.map_congr_left
    intro h hh
    rw [replaceCommas_id _ (hg.2.1 h hh)]
    by_cases hl : h = lastKey hs
    · simp only [hl, if_true]
      exact hf _ hg.2.2.2
    · simp only [hl, if_false]
  unfold readRow
  rw [h1]
  exact hg.1.symm

theorem readRows_good {hs : List Str} : ∀ (rows : List Row), (∀ r ∈ rows, GoodRow hs r) →
    readRows hs rows = rows := by
  intro rows
  induction rows with
  | nil => intro _; rfl
  | cons r rest ih =>
    intro hg
    cases rest with
    | nil => simp only [readRows, readRow_good endsClean_trimEnd r (hg r (by simp))]
    | cons r2 rest2 =>
      simp only [readRows, readRow_good endsClean_stripCR r (hg r (by simp))]
      rw [ih (fun x hx => hg x (List.mem_cons_of_mem _ hx))]

/-- Among good rows, one row of any kind is read back through `stripCR` or
`trimEnd`, and the good rows around it are read back as they are. -/
theorem readRows_split_good {hs : List Str} (m : Row) (l2 : List Row)
    (h2 : ∀ r ∈ l2, GoodRow hs r) : ∀ (l1 : List Row), (∀ r ∈ l1, GoodRow hs r) →
    ∃ f : Str → Str, (∀ v, endsClean v = true → f v = v) ∧ Shortens f ∧
      readRows hs (l1 ++ m :: l2) = l1 ++ readRow f hs m :: l2 := by
  intro l1
  induction l1 with
  | nil =>
    intro _
    cases l2 with
    | nil => exact ⟨trimEnd, endsClean_trimEnd, shortens_trimEnd, rfl⟩
    | cons y ys =>
      refine ⟨stripCR, endsClean_stripCR, shortens_stripCR, ?_⟩
      simp only [List.nil_append, readRows]
      rw [readRows_good (y :: ys) h2]
  | cons a l1 ih =>
    intro h1
    obtain ⟨f, hf1, hf2, hf3⟩ := ih (fun x hx => h1 x (List.mem_cons_of_mem _ hx))
    refine ⟨f, hf1, hf2, ?_⟩
    cases hl : l1 ++ m :: l2 with
    | nil => simp at hl
    | cons b rest =>
      rw [List.cons_append, hl]
      simp only [readRows]
      rw [← hl, hf3, readRow_good endsClean_stripCR a (h1 a (by simp))]
      rfl

/-! ## Pieces of a split text -/

theorem splitOn_no_sep (a : Char) : ∀ (l : Str), ∀ piece ∈ l.splitOn a, a ∉ piece := by
  intro l
  unfold List.splitOn
  induction l with
  | nil => intro piece h; simp at h; subst h; simp
  | cons x xs ih =>
    intro piece h
    rw [List.splitOnP_cons] at h
    by_cases hx : (x == a) = true
    · simp only [hx, if_true] at h
      rcases List.mem_cons.1 h with h1 | h1
      · rw [h1]; simp
      · exact ih piece h1
    · simp only [hx, if_false] at h
      have hxa : a ≠ x := by
        intro he; apply hx; simp [he]
      cases hs : List.splitOnP (fun y => y == a) xs with
      | nil => rw [hs] at h; simp at h
      | cons p ps =>
        rw [hs] at h ih
        simp only [List.modifyHead_cons] at h
        rcases List.mem_cons.1 h with h1 | h1
        · rw [h1]
          intro hm
          rcases List.mem_cons.1 hm with h2 | h2
          · exact hxa h2
          · exact ih p (by simp) h2
        · exact ih piece (List.mem_cons_of_mem _ h1)

theorem fillRow_values (cols : List Str) : ∀ (hs : List Str) (i : Nat) (row : Row),
    ∀ kv ∈ fillRow cols i hs row, kv ∈ row ∨ kv.2 ∈ cols ∨ kv.2 = [] := by
  intro hs
  induction hs with
  | nil => intro i row kv h; exact Or.inl h
  | cons h hs ih =>
    intro i row kv hkv
    simp only [fillRow] at hkv
    rcases ih (i + 1) _ kv hkv with h1 | h1
    · rcases List.mem_cons.1 h1 with h2 | h2
      · right
        rw [h2]
        simp only [List.getD_eq_getElem?_getD]
        cases hc : cols[i]? with
        | none => right; rfl
        | some c => left; exact List.getElem?_mem hc
      · exact Or.inl h2
    · exact Or.inr h1

/-- No value of a row that `parseCsv` returns contains a comma, whatever the text. -/
theorem parseCsv_no_comma (text : Str) : ∀ r ∈ parseCsv text, ∀ kv ∈ r, ',' ∉ kv.2 := by
  intro r hr kv hkv
  simp only [parseCsv] at hr
  generalize (if trim text = [] then [] else splitLines (trim text)) = lines at hr
  cases lines with
  | nil => simp at hr
  | cons first rest =>
    rcases List.mem_map.1 hr with ⟨line, _, rfl⟩
    rcases fillRow_values _ _ _ _ kv hkv with h | h | h
    · simp at h
    · exact splitOn_no_sep ',' line _ h
    · rw [h]; simp

theorem replaceCommas_getElem? (v : Str) (i : Nat) :
    (replaceCommas v)[i]? = v[i]?.map (fun c => if c = ',' then ' ' else c) := by
  simp [replaceCommas]


/-! ## Values read from any text -/

theorem splitOn_subset (a : Char) : ∀ (l : Str), ∀ piece ∈ l.splitOn a, ∀ c ∈ piece, c ∈ l := by
  intro l
  unfold List.splitOn
  induction l with
  | nil => intro piece h c hc; simp at h; subst h; exact hc
  | cons x xs ih =>
    intro piece h c hc
    rw [List.splitOnP_cons] at h
    by_cases hx : (x == a) = true
    · simp only [hx, if_true] at h
      rcases List.mem_cons.1 h with h1 | h1
      · rw [h1] at hc; simp at hc
      · exact List.mem_cons_of_mem _ (ih piece h1 c hc)
    · simp only [hx, if_false] at h
      cases hs : List.splitOnP (fun y => y == a) xs with
      | nil => rw [hs] at h; simp at h
      | cons p ps =>
        rw [hs] at h ih
        simp only [List.modifyHead_cons] at h
        rcases List.mem_cons.1 h with h1 | h1
        · rw [h1] at hc
          rcases List.mem_cons.1 hc with h2 | h2
          · rw [h2]; simp
          · exact List.mem_cons_of_mem _ (ih p (by simp) c h2)
        · exact List.mem_cons_of_mem _ (ih piece (List.mem_cons_of_mem _ h1) c hc)

theorem mem_mapInit {α : Type} (f : α → α) : ∀ (l : List α) (x : α),
    x ∈ mapInit f l → x ∈ l ∨ ∃ y ∈ l, x = f y := by
  intro l
  induction l with
  | nil => intro x h; simp [mapInit] at h
  | cons a l ih =>
    intro x h
    cases l with
    | nil =>
      simp only [mapInit, List.mem_singleton] at h
      exact Or.inl (by simp [h])
    | cons b l =>
      simp only [mapInit] at h
      rcases List.mem_cons.1 h with h1 | h1
      · exact Or.inr ⟨a, by simp, h1⟩
      · rcases ih x h1 with h2 | ⟨y, hy, h2⟩
        · exact Or.inl (List.mem_cons_of_mem _ h2)
        · exact Or.inr ⟨y, List.mem_cons_of_mem _ hy, h2⟩

theorem splitLines_no_lf (t : Str) : ∀ l ∈ splitLines t, '\n' ∉ l := by
  intro l hl
  unfold splitLines at hl
  rcases mem_mapInit _ _ _ hl with h | ⟨y, hy, h⟩
  · exact splitOn_no_sep '\n' t l h
  · rw [h]
    exact prefix_not_mem (shortens_stripCR.1 y) (splitOn_no_sep '\n' t y hy)

/-- No value of a row that `parseCsv` returns contains a comma or a line feed,
whatever the text. -/
theorem parseCsv_values (text : Str) : ∀ r ∈ parseCsv text, ∀ kv ∈ r,
    ',' ∉ kv.2 ∧ '\n' ∉ kv.2 := by
  intro r hr kv hkv
  refine ⟨parseCsv_no_comma text r hr kv hkv, ?_⟩
  simp only [parseCsv] at hr
  have hlines : ∀ l ∈ (if trim text = [] then [] else splitLines (trim text)), '\n' ∉ l := by
    intro l hl
    by_cases he : trim text = []
    · simp [he] at hl
    · simp only [he, if_false] at hl
      exact splitLines_no_lf _ l hl
  generalize (if trim text = [] then [] else splitLines (trim text)) = lines at hr hlines
  cases lines with
  | nil => simp at hr
  | cons first rest =>
    rcases List.mem_map.1 hr with ⟨line, hline, rfl⟩
    rcases fillRow_values _ _ _ _ kv hkv with h | h | h
    · simp at h
    · intro hc
      exact hlines line (List.mem_cons_of_mem _ hline) (splitOn_subset ',' line _ h _ hc)
    · rw [h]; simp

theorem parseCsv_valueOf (text : Str) (r : Row) (hr : r ∈ parseCsv text) (h : Str) :
    ',' ∉ valueOf r h ∧ '\n' ∉ valueOf r h := by
  unfold valueOf
  cases hl : lookupKey r h with
  | none => simp
  | some v => exact parseCsv_values text r hr (h, v) (lookup_mem _ _ _ hl)

/-! ## The id column of a row whose other values are arbitrary -/

theorem intercalate_append {α : Type} (sep : List α) : ∀ (xs ys : List (List α)),
    xs ≠ [] → ys ≠ [] →
    sep.intercalate (xs ++ ys) = sep.intercalate xs ++ sep ++ sep.intercalate ys := by
  intro xs
  induction xs with
  | nil => intro ys h _; exact absurd rfl h
  | cons x xs ih =>
    intro ys _ hy
    cases xs with
    | nil =>
      cases ys with
      | nil => exact absurd rfl hy
      | cons y ys =>
        rw [List.singleton_append, intercalate_cons_cons]
        simp [List.intercalate, List.intersperse]
    | cons x2 xs =>
      have h := ih ys (by simp) hy
      rw [List.cons_append, List.cons_append, intercalate_cons_cons, ← List.cons_append, h,
        intercalate_cons_cons]
      simp [List.append_assoc]

theorem intercalate_cons_head {α : Type} (sep y : List α) (ys : List (List α)) :
    ∃ w, sep.intercalate (y :: ys) = y ++ w := by
  cases ys with
  | nil => exact ⟨[], by simp [List.intercalate, List.intersperse]⟩
  | cons z zs => exact ⟨sep ++ sep.intercalate (z :: zs), by rw [intercalate_cons_cons]; simp⟩

theorem splitOn_intercalate_append (sep : Char) : ∀ (xs : List Str), xs ≠ [] →
    (∀ x ∈ xs, sep ∉ x) → ∀ b : Str,
    ([sep].intercalate xs ++ [sep] ++ b).splitOn sep = xs ++ b.splitOn sep := by
  intro xs
  induction xs with
  | nil => intro h; exact absurd rfl h
  | cons x xs ih =>
    intro _ hx b
    have hfirst : ∀ y ∈ x, ¬ ((y == sep) = true) := by
      intro y hy hc
      have : y = sep := by simpa using hc
      exact hx x (by simp) (this ▸ hy)
    cases xs with
    | nil =>
      have e : [sep].intercalate [x] ++ [sep] ++ b = x ++ sep :: b := by
        simp [List.intercalate, List.intersperse]
      rw [e]
      exact List.splitOnP_first _ _ hfirst sep (by simp) b
    | cons x2 xs =>
      have h := ih (by simp) (fun z hz => hx z (List.mem_cons_of_mem _ hz)) b
      have e : [sep].intercalate (x :: x2 :: xs) ++ [sep] ++ b =
          x ++ sep :: ([sep].intercalate (x2 :: xs) ++ [sep] ++ b) := by
        rw [intercalate_cons_cons]; simp [List.append_assoc]
      rw [e]
      unfold List.splitOn at h ⊢
      rw [List.splitOnP_first _ _ hfirst sep (by simp), h]
      rfl

theorem splitOn_head_extends (sep : Char) : ∀ (a : Str), sep ∉ a → ∀ y : Str,
    ∃ z1 tl, (a ++ y).splitOn sep = (a ++ z1) :: tl := by
  intro a
  induction a with
  | nil =>
    intro _ y
    cases h : y.splitOn sep with
    | nil => exact absurd h (List.splitOnP_ne_nil _ y)
    | cons hd tl => exact ⟨hd, tl, by simpa using h⟩
  | cons c a ih =>
    intro hc y
    have hne : ¬ ((c == sep) = true) := by
      intro he
      have : c = sep := by simpa using he
      exact hc (by simp [this])
    obtain ⟨z1, tl, h⟩ := ih (fun hm => hc (List.mem_cons_of_mem _ hm)) y
    refine ⟨z1, tl, ?_⟩
    unfold List.splitOn at h ⊢
    rw [List.cons_append, List.splitOnP_cons, h]
    simp [hne]

theorem mapInit_append_cons {α : Type} (f : α → α) : ∀ (xs : List α) (y : α) (tl : List α),
    ∃ y1 tl1, mapInit f (xs ++ y :: tl) = xs.map f ++ y1 :: tl1 ∧ (y1 = y ∨ y1 = f y) := by
  intro xs
  induction xs with
  | nil =>
    intro y tl
    cases tl with
    | nil => exact ⟨y, [], rfl, Or.inl rfl⟩
    | cons t ts => exact ⟨f y, mapInit f (t :: ts), rfl, Or.inr rfl⟩
  | cons a xs ih =>
    intro y tl
    obtain ⟨y1, tl1, h1, h2⟩ := ih y tl
    refine ⟨y1, tl1, ?_, h2⟩
    cases hl : xs ++ y :: tl with
    | nil => simp at hl
    | cons b rest =>
      rw [List.cons_append, hl]
      simp only [mapInit, List.map_cons]
      rw [← hl, h1]
      rfl

theorem fillRow_lookup_other (cols : List Str) : ∀ (hs : List Str) (i : Nat) (row : Row)
    (k : Str), k ∉ hs → lookupKey (fillRow cols i hs row) k = lookupKey row k := by
  intro hs
  induction hs with
  | nil => intro i row k _; rfl
  | cons h hs ih =>
    intro i row k hk
    simp only [List.mem_cons, not_or] at hk
    simp only [fillRow]
    rw [ih (i + 1) _ k hk.2, lookupKey_setField]
    simp [hk.1]

theorem trim_of_start (t : Str) (x : Char) (u : Str) (ht : t = x :: u)
    (hx : isJsWhitespace x = false) : trim t = t.rdropWhile isJsWhitespace := by
  unfold trim
  have h1 : t.dropWhile isJsWhitespace = t := by
    rw [ht]; simp [List.dropWhile_cons, hx]
  rw [h1]

/-- After writing rows of which the first ones are good and the next one has the
id `id`, whatever its other values, the row read at its position has the id
`id`. -/
theorem parse_id_at {hs : List Str} (hH : HeadersOK hs) (l1 : List Row)
    (hl1 : ∀ x ∈ l1, NoLineFeed hs x) (m : Row) (l2 : List Row) (idv : Str)
    (hid : valueOf m idKey = idv) (hc : ',' ∉ idv) (hn : '\n' ∉ idv) :
    ∃ row, (parseCsv (stringifyCsv hs (l1 ++ m :: l2)))[l1.length]? = some row ∧
      lookupKey row idKey = some idv := by
  obtain ⟨y, rest, hhs⟩ := headersOK_shape hH
  obtain ⟨u, hu⟩ := headerLine_head hH
  -- the line of `m` starts with the idv and a comma
  have hline : ∃ x, rowLine hs m = idv ++ [','] ++ x := by
    refine ⟨joinComma ((y :: rest).map (fun h => replaceCommas (valueOf m h))), ?_⟩
    unfold rowLine joinComma
    rw [hhs, List.map_cons, List.map_cons, intercalate_cons_cons, hid, replaceCommas_id _ hc]
  obtain ⟨x, hx⟩ := hline
  -- the text, cut after the comma that follows the idv
  have htext : ∃ z, stringifyCsv hs (l1 ++ m :: l2) =
      (['\n'].intercalate (joinComma hs :: l1.map (rowLine hs)) ++ ['\n'] ++ idv) ++ [','] ++ z := by
    obtain ⟨w, hw⟩ := intercalate_cons_head ['\n'] (rowLine hs m) (l2.map (rowLine hs))
    refine ⟨x ++ w ++ ['\n'], ?_⟩
    have e1 : joinComma hs ++ ['\n'] ++
        ['\n'].intercalate ((l1 ++ m :: l2).map (rowLine hs)) =
        ['\n'].intercalate ((joinComma hs :: l1.map (rowLine hs)) ++
          (rowLine hs m :: l2.map (rowLine hs))) := by
      rw [List.map_append, List.map_cons, List.cons_append]
      cases hl : l1.map (rowLine hs) ++ rowLine hs m :: l2.map (rowLine hs) with
      | nil => simp at hl
      | cons b bs => rw [intercalate_cons_cons]
    unfold stringifyCsv
    simp only []
    rw [e1, intercalate_append _ _ _ (by simp) (by simp), hw, hx]
    simp [List.append_assoc]
  obtain ⟨z, hz⟩ := htext
  have hstart : ∃ v, (['\n'].intercalate (joinComma hs :: l1.map (rowLine hs)) ++ ['\n'] ++ idv) ++
      [','] ++ z = 'i' :: v := by
    obtain ⟨w, hw⟩ := intercalate_cons_head ['\n'] (joinComma hs) (l1.map (rowLine hs))
    rw [hw, hu]
    exact ⟨u ++ w ++ ['\n'] ++ idv ++ [','] ++ z, by simp [List.append_assoc]⟩
  obtain ⟨v, hv⟩ := hstart
  have htrim : trim (stringifyCsv hs (l1 ++ m :: l2)) =
      ['\n'].intercalate (joinComma hs :: l1.map (rowLine hs)) ++ ['\n'] ++
        (idv ++ [','] ++ z.rdropWhile isJsWhitespace) := by
    rw [hz, trim_of_start _ _ _ hv isJsWhitespace_i, rdropWhile_append_sep _ _ _ (by decide)]
    simp [List.append_assoc]
  have hpieces : ∀ l ∈ joinComma hs :: l1.map (rowLine hs), '\n' ∉ l := by
    intro l hl
    rcases List.mem_cons.1 hl with h1 | h1
    · rw [h1]; exact headerLine_no_lf hH
    · rcases List.mem_map.1 h1 with ⟨r, hr, rfl⟩
      exact rowLine_no_lf_of (hl1 r hr)
  have hidc : '\n' ∉ idv ++ [','] := by
    intro h
    rcases List.mem_append.1 h with h1 | h1
    · exact hn h1
    · simp at h1
  obtain ⟨z1, tl, hsp⟩ := splitOn_head_extends '\n' (idv ++ [',']) hidc
    (z.rdropWhile isJsWhitespace)
  have hsplit : (trim (stringifyCsv hs (l1 ++ m :: l2))).splitOn '\n' =
      (joinComma hs :: l1.map (rowLine hs)) ++ (idv ++ [','] ++ z1) :: tl := by
    rw [htrim, splitOn_intercalate_append '\n' _ (by simp) hpieces, hsp]
  obtain ⟨y1, tl1, hmi, hy1⟩ := mapInit_append_cons stripCR
    (joinComma hs :: l1.map (rowLine hs)) (idv ++ [','] ++ z1) tl
  have hfix : (joinComma hs :: l1.map (rowLine hs)).map stripCR =
      joinComma hs :: (l1.map (rowLine hs)).map stripCR := by
    rw [List.map_cons, stripCR_id _ (headerLine_no_cr hH)]
  have hy1form : ∃ z2, y1 = idv ++ [','] ++ z2 := by
    rcases hy1 with h | h
    · exact ⟨z1, h⟩
    · exact ⟨stripCR z1, by rw [h, shortens_stripCR.2]⟩
  obtain ⟨z2, hz2⟩ := hy1form
  have hne : trim (stringifyCsv hs (l1 ++ m :: l2)) ≠ [] := by
    rw [htrim]
    obtain ⟨w, hw⟩ := intercalate_cons_head ['\n'] (joinComma hs) (l1.map (rowLine hs))
    rw [hw, hu]
    simp
  have hcols : y1.splitOn ',' = idv :: z2.splitOn ',' := by
    rw [hz2]
    have hfirst : ∀ c ∈ idv, ¬ ((c == ',') = true) := by
      intro c hcm he
      have : c = ',' := by simpa using he
      exact hc (this ▸ hcm)
    have e : idv ++ [','] ++ z2 = idv ++ ',' :: z2 := by simp
    rw [e]
    exact List.splitOnP_first _ _ hfirst ',' (by simp) z2
  have hnotin : idKey ∉ y :: rest := by
    have hnd := hH.2.2.1
    rw [hhs] at hnd
    exact (List.nodup_cons.1 hnd).1
  have hlines : splitLines (trim (stringifyCsv hs (l1 ++ m :: l2))) =
      joinComma hs :: ((l1.map (rowLine hs)).map stripCR ++ y1 :: tl1) := by
    unfold splitLines
    rw [hsplit, hmi, hfix]
    rfl
  refine ⟨fillRow (y1.splitOn ',') 0 hs [], ?_, ?_⟩
  · unfold parseCsv
    simp only [hne, if_false, hlines, headerLine_split hH]
    rw [List.map_append, List.getElem?_append_right (by simp)]
    simp
  · rw [hcols, hhs]
    show lookupKey (fillRow (idv :: z2.splitOn ',') 1 (y :: rest)
      (setField [] idKey ((idv :: z2.splitOn ',').getD 0 []))) idKey = some idv
    rw [fillRow_lookup_other _ _ _ _ _ hnotin, lookupKey_setField]
    simp

/-! ## Claims about `update` -/

/-- C7: for an id that no record has, `update` returns false and leaves the
backing file byte-identical, so the rows read by `all` are unchanged. -/
theorem C7_update_absent_leaves_file (hs : List Str) (file : Str) (id : Str) (payload : Row)
    (hno : ∀ r ∈ DataManager.all file, lookupKey r idKey ≠ some id) :
    (DataManager.update hs file id payload).2 = false ∧
    (DataManager.update hs file id payload).1 = file ∧
    DataManager.all (DataManager.update hs file id payload).1 = DataManager.all file := by
  rw [update_absent hs file id payload hno]
  exact ⟨rfl, rfl, rfl⟩

/-- C7, at the two-record file and the absent id `9`. -/
theorem C7_update_absent_witness :
    (∀ r ∈ DataManager.all demoFile, lookupKey r idKey ≠ some (String.toList "9")) ∧
    (DataManager.update demoHeaders demoFile (String.toList "9")
      [(String.toList "hours", String.toList "7")]).2 = false ∧
    (DataManager.update demoHeaders demoFile (String.toList "9")
      [(String.toList "hours", String.toList "7")]).1 = demoFile ∧
    DataManager.all (DataManager.update demoHeaders demoFile (String.toList "9")
      [(String.toList "hours", String.toList "7")]).1 = DataManager.all demoFile :=
  ⟨by decide, C7_update_absent_leaves_file demoHeaders demoFile (String.toList "9")
    [(String.toList "hours", String.toList "7")] (by decide)⟩

/-- C5 as stated fails: a payload that carries an `id` key replaces the id.  On
the two-record file, `update("1", {id: "7"})` leaves a first record whose id is
`7`. -/
theorem C5_counterexample :
    ¬ IdKeptByUpdate demoHeaders demoFile (String.toList "1")
      [(idKey, String.toList "7")] := by
  intro h
  have h0 := h 0 (by decide)
  revert h0
  decide

/-- C5, amended: for every store file and every payload without `id` key,
whatever its values, the record at the position of the updated id still has that
id after `update`. -/
theorem C5_update_keeps_id {hs : List Str} (hH : HeadersOK hs) (file : Str) (id : Str)
    (payload : Row) (hnoid : lookupKey payload idKey = none) :
    IdKeptByUpdate hs file id payload := by
  intro idx hi
  obtain ⟨l1, r, l2, h1, h2, h3, _⟩ := findIdx?_split _ _ _ hi
  have hmem : ∀ x ∈ l1 ++ r :: l2, x ∈ parseCsv file := by
    intro x hx
    have : DataManager.all file = parseCsv file := rfl
    rw [← this, h1]; exact hx
  have hl1 : ∀ x ∈ l1, NoLineFeed hs x :=
    fun x hx h _ => (parseCsv_valueOf file x (hmem x (by simp [hx])) h).2
  have hrid : lookupKey r idKey = some id := by simpa using h3
  have hvr : valueOf r idKey = id := by
    unfold valueOf
    rw [hrid]; rfl
  have hval : valueOf (merge r payload) idKey = id := by
    rw [valueOf_merge_none _ _ _ hnoid, hvr]
  have hrv := parseCsv_valueOf file r (hmem r (by simp)) idKey
  rw [hvr] at hrv
  obtain ⟨row, hrow, hrowid⟩ := parse_id_at hH l1 hl1 (merge r payload) l2 id hval hrv.1 hrv.2
  rw [update_eq hs file id payload idx hi, h1, ← h2, modify_append_length]
  simp only [DataManager.all, DataManager.save]
  rw [hrow]
  exact hrowid

/-- C5 amended, at the two-record file and a payload whose value holds a line
feed and ends in a space. -/
theorem C5_update_keeps_id_witness :
    HeadersOK demoHeaders ∧
    lookupKey [(String.toList "hours", String.toList "7\n8 ")] idKey = none ∧
    IdKeptByUpdate demoHeaders demoFile (String.toList "2")
      [(String.toList "hours", String.toList "7\n8 ")] :=
  ⟨by decide, by decide,
    C5_update_keeps_id (by decide) demoFile (String.toList "2")
      [(String.toList "hours", String.toList "7\n8 ")] (by decide)⟩

/-- C6 as stated fails for a value with a line feed: on the two-record file,
`update("1", {ref: "x\n9"})` writes one more line, so three records are read
back and the rows after the updated one are not the rows that were there.  It
also fails on a store that is not good: where the last value of record `1` ends
in a carriage return, `update("2", {ref: "z"})` removes that carriage return. -/
theorem C6_counterexample :
    ¬ UpdateTouchesOnly demoHeaders demoFile (String.toList "1") (String.toList "ref")
      (String.toList "x\n9") ∧
    ¬ UpdateTouchesOnly demoHeaders demoFileCR (String.toList "2") (String.toList "ref")
      (String.toList "z") := by
  constructor
  · rintro ⟨_, l1, r, l2, r1, h1, _, _, h2, _⟩
    have e1 : (DataManager.all demoFile).length = 2 := by decide
    have e2 : (DataManager.all (DataManager.update demoHeaders demoFile (String.toList "1")
        [(String.toList "ref", String.toList "x\n9")]).1).length = 3 := by decide
    rw [h1] at e1
    rw [h2] at e2
    simp only [List.length_append, List.length_cons] at e1 e2
    omega
  · rintro ⟨_, l1, r, l2, r1, h1, _, hr, h2, _⟩
    cases l1 with
    | nil =>
      have hh : ((DataManager.all demoFileCR).head?).bind (fun x => lookupKey x idKey) =
          some (String.toList "1") := by decide
      rw [h1] at hh
      simp only [List.nil_append, List.head?_cons, Option.some_bind] at hh
      rw [hr] at hh
      exact absurd hh (by decide)
    | cons x l1 =>
      have ha : (DataManager.all demoFileCR).head? = some x := by rw [h1]; rfl
      have hb : (DataManager.all (DataManager.update demoHeaders demoFileCR (String.toList "2")
          [(String.toList "ref", String.toList "z")]).1).head? = some x := by rw [h2]; rfl
      have hne : (DataManager.all demoFileCR).head? ≠
          (DataManager.all (DataManager.update demoHeaders demoFileCR (String.toList "2")
            [(String.toList "ref", String.toList "z")]).1).head? := by decide
      exact hne (ha.trans hb.symm)

/-- C6, amended: on a good store, for an existing id, a field `f` other than
`id` and a value `v` without line feed, `update(id, {f: v})` returns true and
changes only field `f` of the first record with that id: its id, its other
fields, its position and the other records are as before. -/
theorem C6_update_changes_only_field {hs : List Str} (hH : HeadersOK hs) {file : Str}
    (hg : GoodStore hs file) (id f v : Str)
    (hex : ∃ r ∈ DataManager.all file, lookupKey r idKey = some id)
    (hfid : f ≠ idKey) (hv : '\n' ∉ v) :
    UpdateTouchesOnly hs file id f v := by
  cases hi : (DataManager.all file).findIdx? (fun r => lookupKey r idKey = some id) with
  | none =>
    rw [List.findIdx?_eq_none_iff] at hi
    obtain ⟨r, hr, hid⟩ := hex
    have := hi r hr
    simp [hid] at this
  | some idx =>
    obtain ⟨l1, r, l2, h1, h2, h3, h4⟩ := findIdx?_split _ _ _ hi
    have hupd := update_eq hs file id [(f, v)] idx hi
    have hr : GoodRow hs r := hg r (by rw [h1]; simp)
    have hl1 : ∀ x ∈ l1, GoodRow hs x := fun x hx => hg x (by rw [h1]; simp [hx])
    have hl2 : ∀ x ∈ l2, GoodRow hs x := fun x hx => hg x (by rw [h1]; simp [hx])
    have hnone : ∀ h, h ≠ f → lookupKey [(f, v)] h = none := by
      intro h hne
      have h2 : (h == f) = false := by simpa using hne
      simp [lookupKey, List.lookup, h2]
    have hval : ∀ h, h ≠ f → valueOf (merge r [(f, v)]) h = valueOf r h :=
      fun h hne => valueOf_merge_none _ _ _ (hnone h hne)
    have hnolf : ∀ x ∈ l1 ++ merge r [(f, v)] :: l2, NoLineFeed hs x := by
      intro x hx
      rcases List.mem_append.1 hx with hx1 | hx1
      · exact fun h hh => (hl1 x hx1).2.2.1 h hh
      · rcases List.mem_cons.1 hx1 with hx2 | hx2
        · rw [hx2]
          intro h hh
          by_cases he : h = f
          · rw [he, valueOf_merge_some _ _ f v (by simp [lookupKey, List.lookup])]
            exact hv
          · rw [hval h he]; exact hr.2.2.1 h hh
        · exact fun h hh => (hl2 x hx2).2.2.1 h hh
    obtain ⟨g, hg1, _, hg3⟩ := readRows_split_good (merge r [(f, v)]) l2 hl2 l1 hl1
    have hall : DataManager.all (DataManager.update hs file id [(f, v)]).1 =
        l1 ++ readRow g hs (merge r [(f, v)]) :: l2 := by
      rw [hupd, h1, ← h2, modify_append_length]
      simp only []
      rw [all_save_general hH _ hnolf, hg3]
    have hfield : ∀ h, h ≠ f →
        lookupKey (readRow g hs (merge r [(f, v)])) h = lookupKey r h := by
      intro h hne
      by_cases hh : h ∈ hs
      · rw [lookupKey_readRow hH g _ h hh, hval h hne, lookupKey_good hH r hr h hh,
          replaceCommas_id _ (hr.2.1 h hh)]
        by_cases hl : h = lastKey hs
        · simp only [hl, if_true]
          rw [hg1 _ hr.2.2.2]
        · simp only [hl, if_false]
      · rw [lookupKey_readRow_none hs g _ h hh, lookupKey_good_none r hr h hh]
    have hid : lookupKey r idKey = some id := by simpa using h3
    refine ⟨by rw [hupd], l1, r, l2, readRow g hs (merge r [(f, v)]), h1, ?_, hid, hall, ?_,
      hfield⟩
    · intro x hx
      simpa using h4 x hx
    · rw [hfield idKey (Ne.symm hfid), hid]

/-- C6 amended, at the two-record file: `update("2", {hours: "7 "})`, with a
value that ends in a space. -/
theorem C6_update_changes_only_field_witness :
    HeadersOK demoHeaders ∧ GoodStore demoHeaders demoFile ∧
    (∃ r ∈ DataManager.all demoFile, lookupKey r idKey = some (String.toList "2")) ∧
    UpdateTouchesOnly demoHeaders demoFile (String.toList "2") (String.toList "hours")
      (String.toList "7 ") :=
  ⟨by decide, by decide, by decide,
    C6_update_changes_only_field (by decide) (by decide) (String.toList "2")
      (String.toList "hours") (String.toList "7 ") (by decide) (by decide) (by decide)⟩

/-! ## Claims about `delete` -/

theorem filter_eq_eraseP_of_nodup : ∀ (rows : List Row) (id : Str), (idsOf rows).Nodup →
    rows.filter (fun r => lookupKey r idKey ≠ some id) =
      rows.eraseP (fun r => lookupKey r idKey = some id) := by
  intro rows
  induction rows with
  | nil => intro id _; rfl
  | cons r rows ih =>
    intro id hnd
    simp only [idsOf, List.map_cons, List.nodup_cons] at hnd
    by_cases he : lookupKey r idKey = some id
    · have hrest : rows.filter (fun r => lookupKey r idKey ≠ some id) = rows := by
        rw [List.filter_eq_self]
        intro x hx
        have : lookupKey x idKey ≠ some id := by
          intro hxe
          exact hnd.1 (List.mem_map.2 ⟨x, hx, by rw [hxe, he]⟩)
        simpa using this
      rw [List.eraseP_cons_of_pos (by simpa using he), List.filter_cons_of_neg (by simpa using he),
        hrest]
    · rw [List.eraseP_cons_of_neg (by simpa using he), List.filter_cons_of_pos (by simpa using he),
        ih id hnd.2]

/-- C8 as stated fails on a store where two records share an id, which `update`
produces when its payload carries an `id`: after `update("2", {id: "1"})` on the
two-record file, `delete("1")` removes both records.  It also fails where the
last column of the record that becomes the last one ends in a space: after
`update("1", {hours: "10 "})`, `delete("2")` makes record `1` read back with
`hours` equal to `10`. -/
theorem C8_counterexample :
    ((∃ r ∈ DataManager.all (DataManager.update demoHeaders demoFile (String.toList "2")
        [(idKey, String.toList "1")]).1, lookupKey r idKey = some (String.toList "1")) ∧
      ¬ DeleteRemovesOne demoHeaders
        (DataManager.update demoHeaders demoFile (String.toList "2")
          [(idKey, String.toList "1")]).1 (String.toList "1")) ∧
    ((∃ r ∈ DataManager.all (DataManager.update demoHeaders demoFile (String.toList "1")
        [(String.toList "hours", String.toList "10 ")]).1,
          lookupKey r idKey = some (String.toList "2")) ∧
      ¬ DeleteRemovesOne demoHeaders
        (DataManager.update demoHeaders demoFile (String.toList "1")
          [(String.toList "hours", String.toList "10 ")]).1 (String.toList "2")) := by
  decide

/-- C8, amended: on a good store whose ids are pairwise distinct, `delete` of a
present id returns true and removes exactly the record with that id, the others
unchanged and in order; a second `delete` of it returns false and leaves the
file as it is, as does every `delete` of an id that no row has. -/
theorem C8_delete_removes_one {hs : List Str} (hH : HeadersOK hs) {file : Str}
    (hg : GoodStore hs file) (hnd : (idsOf (DataManager.all file)).Nodup) (id : Str)
    (hex : ∃ r ∈ DataManager.all file, lookupKey r idKey = some id) :
    DeleteRemovesOne hs file id ∧
    ∀ (file2 id2 : Str), (∀ r ∈ DataManager.all file2, lookupKey r idKey ≠ some id2) →
      DataManager.delete hs file2 id2 = (file2, false) := by
  obtain ⟨h1, h2, _⟩ := delete_found hH hg id hex
  refine ⟨⟨h1, ?_, ?_⟩, fun file2 id2 hno => delete_absent hs file2 id2 hno⟩
  · rw [h2, filter_eq_eraseP_of_nodup _ id hnd]
  · apply delete_absent
    intro r hr
    rw [h2] at hr
    simpa using (List.mem_filter.1 hr).2

/-- C8 amended, at the two-record file and the id `1`. -/
theorem C8_delete_removes_one_witness :
    HeadersOK demoHeaders ∧ GoodStore demoHeaders demoFile ∧
    (idsOf (DataManager.all demoFile)).Nodup ∧
    (∃ r ∈ DataManager.all demoFile, lookupKey r idKey = some (String.toList "1")) ∧
    DeleteRemovesOne demoHeaders demoFile (String.toList "1") :=
  ⟨by decide, by decide, by decide, by decide,
    (C8_delete_removes_one (by decide) (by decide) (by decide) (String.toList "1")
      (by decide)).1⟩


/-! ## Claims about `add` -/

theorem lookupKey_newRow {hs : List Str} (hH : HeadersOK hs) (data : Row) (n : Nat) :
    lookupKey (canon hs (setField data idKey (numToStr n))) idKey = some (numToStr n) := by
  rw [lookupKey_canon hH _ idKey (idKey_mem hH), valueOf_setField]
  simp only [if_true]
  rw [replaceCommas_id _ (numToStr_no_comma n)]

theorem readRows_concat (hs : List Str) (d : Row) : ∀ (rows : List Row),
    readRows hs (rows ++ [d]) = rows.map (readRow stripCR hs) ++ [readRow trimEnd hs d] := by
  intro rows
  induction rows with
  | nil => rfl
  | cons r rows ih =>
    cases hl : rows ++ [d] with
    | nil => simp at hl
    | cons b rest =>
      rw [List.cons_append, hl]
      simp only [readRows, List.map_cons, List.cons_append]
      rw [← hl, ih]

/-- C2 as stated fails for a value with a comma: after `add` of a record whose
`ref` is `a,b`, the record read back has `a b` there.  It also fails for a value
with a line feed, which is read back as two records, and for a last value that
ends in a space, which `trim` removes. -/
theorem C2_counterexample :
    ¬ AddThenListed demoLimit demoHeaders demoFile
      [(String.toList "ref", String.toList "a,b"), (String.toList "hours", String.toList "1")] ∧
    ¬ AddThenListed demoLimit demoHeaders demoFile
      [(String.toList "ref", String.toList "a\nb"), (String.toList "hours", String.toList "1")] ∧
    ¬ AddThenListed demoLimit demoHeaders demoFile
      [(String.toList "ref", String.toList "a"), (String.toList "hours", String.toList "1 ")] := by
  decide

/-- C2, amended: on every store whose next id is in the exact range, for fields
without comma and line feed (the last column not ending in white space), `add`
returns an id, exactly one record read by `all` afterwards has that id, and its
fields are the input values. -/
theorem C2_add_then_listed (argLimit : Nat) {hs : List Str} (hH : HeadersOK hs)
    (file : Str) (data : Row)
    (hf : FieldsOK hs data) (n : Nat) (hn : nextId argLimit (DataManager.all file) = some n) :
    AddThenListed argLimit hs file data := by
  have hparsed : ∀ r ∈ DataManager.all file, ∀ h, ',' ∉ valueOf r h ∧ '\n' ∉ valueOf r h :=
    fun r hr h => parseCsv_valueOf file r hr h
  have hnolf : ∀ r ∈ DataManager.all file ++ [setField data idKey (numToStr n)],
      NoLineFeed hs r := by
    intro r hr
    rcases List.mem_append.1 hr with h | h
    · exact fun k _ => (hparsed r h k).2
    · rw [List.mem_singleton.1 h]; exact (idRow_setField data hf.1.1 n).1
  have hall : DataManager.all (DataManager.save hs
      (DataManager.all file ++ [setField data idKey (numToStr n)])) =
      (DataManager.all file).map (readRow stripCR hs) ++
        [readRow trimEnd hs (setField data idKey (numToStr n))] := by
    rw [all_save_general hH _ hnolf, readRows_concat]
  have hold : ((DataManager.all file).map (readRow stripCR hs)).filter
      (fun r => lookupKey r idKey = some (numToStr n)) = [] := by
    rw [List.filter_eq_nil_iff]
    intro x hx
    rcases List.mem_map.1 hx with ⟨r, hr, rfl⟩
    obtain ⟨hmax, _, hlt⟩ := nextId_gt _ n hn
    obtain ⟨k, hk, hkn⟩ := hlt r hr
    rw [lookupKey_readRow_id hH, replaceCommas_id _ (hparsed r hr idKey).1]
    intro he
    have he2 : valueOf r idKey = numToStr n := by simpa using he
    cases hl : lookupKey r idKey with
    | none => rw [hl] at hk; simp at hk
    | some v =>
      have hv : v = numToStr n := by
        rw [← he2]; unfold valueOf; rw [hl]; rfl
      rw [hl, Option.some_bind, hv, toNumber_numToStr n hmax] at hk
      have : n = k := Option.some.inj hk
      omega
  have hnew : lookupKey (readRow trimEnd hs (setField data idKey (numToStr n))) idKey =
      some (numToStr n) := by
    rw [lookupKey_readRow_id hH, valueOf_setField]
    simp only [if_true]
    rw [replaceCommas_id _ (numToStr_no_comma n)]
  refine ⟨(_, numToStr n), add_eq hs file data n hn, ?_⟩
  simp only []
  rw [hall, List.filter_append, hold, List.nil_append,
    List.filter_cons_of_pos (by simpa using hnew)]
  simp only [List.filter_nil, List.map_cons, List.map_nil, List.cons.injEq, and_true]
  apply List.map_congr_left
  intro h hh
  have hmem := List.mem_filter.1 hh
  have hne : h ≠ idKey := by simpa using hmem.2
  rw [lookupKey_readRow hH _ _ h hmem.1, valueOf_setField]
  simp only [hne, if_false]
  rw [replaceCommas_id _ (hf.2 h hmem.1 hne)]
  by_cases hl : h = lastKey hs
  · simp only [hl, if_true]
    rw [endsClean_trimEnd _ hf.1.2]
  · simp only [hl, if_false]

/-- C2 amended, at the two-record file and the fields `ref = C3`, `hours = 12`. -/
theorem C2_add_then_listed_witness :
    HeadersOK demoHeaders ∧
    FieldsOK demoHeaders
      [(String.toList "ref", String.toList "C3"), (String.toList "hours", String.toList "12")] ∧
    nextId demoLimit (DataManager.all demoFile) = some 3 ∧
    AddThenListed demoLimit demoHeaders demoFile
      [(String.toList "ref", String.toList "C3"), (String.toList "hours", String.toList "12")] :=
  ⟨by decide, by decide, by decide,
    C2_add_then_listed demoLimit (by decide) demoFile
      [(String.toList "ref", String.toList "C3"), (String.toList "hours", String.toList "12")]
      (by decide) 3 (by decide)⟩

/-! ## The delimiter in values -/

/-- C10: whatever rows are written, no value read back from the written text
contains a comma; the text is the header line and one line per row; the cells of
a row's line are the supplied values with every comma replaced by one space,
character by character; rows that the format carries are read back by `all` with
exactly those replaced values under the headers; and no write is rejected for a
comma: `add` returns its id and `update` of a present id returns true whatever
the values are. -/
theorem C10_delimiter_sanitized (argLimit : Nat) {hs : List Str} (hH : HeadersOK hs)
    (rows : List Row) :
    (∀ r ∈ DataManager.all (DataManager.save hs rows), ∀ kv ∈ r, ',' ∉ kv.2) ∧
    DataManager.save hs rows =
      joinComma hs ++ ['\n'] ++ ['\n'].intercalate (rows.map (rowLine hs)) ++ ['\n'] ∧
    (∀ row : Row, (rowLine hs row).splitOn ',' =
      hs.map (fun h => replaceCommas (valueOf row h))) ∧
    (∀ (v : Str) (i : Nat), ',' ∉ replaceCommas v ∧ (replaceCommas v).length = v.length ∧
      (replaceCommas v)[i]? = v[i]?.map (fun c => if c = ',' then ' ' else c)) ∧
    ((∀ r ∈ rows, CleanFor hs r) →
      (DataManager.all (DataManager.save hs rows)).map (fun r => hs.map (lookupKey r)) =
        rows.map (fun row => hs.map (fun h => some (replaceCommas (valueOf row h))))) ∧
    (∀ (file : Str) (data : Row) (n : Nat), nextId argLimit (DataManager.all file) = some n →
      DataManager.add argLimit hs file data =
        some (DataManager.save hs (DataManager.all file ++ [setField data idKey (numToStr n)]),
          numToStr n)) ∧
    (∀ (file id : Str) (payload : Row),
      (∃ r ∈ DataManager.all file, lookupKey r idKey = some id) →
      (DataManager.update hs file id payload).2 = true) := by
  refine ⟨fun r hr => parseCsv_no_comma _ r hr, rfl, fun row => rowLine_split hH row,
    fun v i => ⟨replaceCommas_no_comma v, replaceCommas_length v, replaceCommas_getElem? v i⟩,
    ?_, fun file data n hn => add_eq hs file data n hn, ?_⟩
  · intro hc
    rw [all_save hH rows hc, List.map_map]
    apply List.map_congr_left
    intro row _
    apply List.map_congr_left
    intro h hh
    exact lookupKey_canon hH row h hh
  · intro file id payload hex
    cases hi : (DataManager.all file).findIdx? (fun r => lookupKey r idKey = some id) with
    | none =>
      rw [List.findIdx?_eq_none_iff] at hi
      obtain ⟨r, hr, hid⟩ := hex
      have := hi r hr
      simp [hid] at this
    | some idx => rw [update_eq hs file id payload idx hi]

/-- C10, at a record whose `ref` is `a,b`: it is read back as `a b`. -/
theorem C10_delimiter_sanitized_witness :
    HeadersOK demoHeaders ∧
    (DataManager.all (DataManager.save demoHeaders
      [[(idKey, String.toList "1"), (String.toList "ref", String.toList "a,b"),
        (String.toList "hours", String.toList "1,5")]])).map
        (fun r => demoHeaders.map (lookupKey r)) =
      [[some (String.toList "1"), some (String.toList "a b"), some (String.toList "1 5")]] :=
  ⟨by decide, (C10_delimiter_sanitized demoLimit (by decide)
      [[(idKey, String.toList "1"), (String.toList "ref", String.toList "a,b"),
        (String.toList "hours", String.toList "1,5")]]).2.2.2.2.1 (by decide)⟩


/-! ## Runs of calls -/

theorem idText_injective : Function.Injective idText := by
  intro a b h
  exact numToStr_injective a b (Option.some.inj h)

/-- Strictly increasing numbers not above `k` are at most `k + 1` numbers. -/
theorem length_le_of_increasing (ns : List Nat) (k : Nat) (hpw : ns.Pairwise (fun a b => a < b))
    (hle : ∀ n ∈ ns, n ≤ k) : ns.length ≤ k + 1 := by
  have hnd : ns.Nodup := hpw.imp (fun h => Nat.ne_of_lt h)
  have hsub : ns ⊆ List.range (k + 1) := by
    intro n hn
    exact List.mem_range.2 (Nat.lt_succ_of_le (hle n hn))
  have h := (hnd.subperm hsub).length_le
  simpa using h

theorem storeInv_init {hs : List Str} (hH : HeadersOK hs) : StoreInv hs (initFile hs) 0 := by
  have h : DataManager.all (initFile hs) = [] := parseCsv_initFile hH
  refine ⟨?_, [], ?_, List.Pairwise.nil, by simp⟩
  · intro r hr; rw [h] at hr; simp at hr
  · rw [h]; rfl

/-- The effect of `add` on a store whose ids are the numbers `ns`. -/
theorem add_ids {argLimit : Nat} {hs : List Str} (hH : HeadersOK hs)
    {file : Str} (hg : GoodStore hs file)
    (ns : List Nat) (hids : idsOf (DataManager.all file) = ns.map idText)
    (hb : ∀ n ∈ ns, n < maxExact) (hlim : ns.length ≤ argLimit) (data : Row)
    (hf : FieldsClean hs data) :
    ∃ file1, DataManager.add argLimit hs file data = some (file1, numToStr (ns.foldl max 0 + 1)) ∧
      DataManager.all file1 = DataManager.all file ++
        [canon hs (setField data idKey (numToStr (ns.foldl max 0 + 1)))] ∧
      GoodStore hs file1 ∧
      idsOf (DataManager.all file1) = (ns ++ [ns.foldl max 0 + 1]).map idText := by
  have hn := nextId_of_ids (DataManager.all file) ns hids hb hlim
  obtain ⟨file1, h1, h2, h3⟩ := add_good hH hg data hf _ hn
  refine ⟨file1, h1, h2, h3, ?_⟩
  rw [h2]
  simp only [idsOf, List.map_append, List.map_cons, List.map_nil] at hids ⊢
  rw [hids, lookupKey_newRow hH]
  rfl

/-- The method `delete` keeps the store good; the rows afterwards are the rows
whose id is not the deleted one, and the returned boolean tells whether a row had
that id. -/
theorem delete_rows {hs : List Str} (hH : HeadersOK hs) {file : Str} (hg : GoodStore hs file)
    (id : Str) :
    GoodStore hs (DataManager.delete hs file id).1 ∧
    DataManager.all (DataManager.delete hs file id).1 =
      (DataManager.all file).filter (fun r => lookupKey r idKey ≠ some id) ∧
    (DataManager.delete hs file id).2 =
      (DataManager.all file).any (fun r => lookupKey r idKey = some id) := by
  by_cases hex : ∃ r ∈ DataManager.all file, lookupKey r idKey = some id
  · obtain ⟨h1, h2, h3⟩ := delete_found hH hg id hex
    refine ⟨h3, h2, ?_⟩
    rw [h1]
    symm
    rw [List.any_eq_true]
    obtain ⟨r, hr, he⟩ := hex
    exact ⟨r, hr, by simpa using he⟩
  · have hno : ∀ r ∈ DataManager.all file, lookupKey r idKey ≠ some id :=
      fun r hr he => hex ⟨r, hr, he⟩
    rw [delete_absent hs file id hno]
    refine ⟨hg, ?_, ?_⟩
    · symm
      rw [List.filter_eq_self]
      intro x hx
      simpa using hno x hx
    · symm
      rw [List.any_eq_false]
      intro x hx
      simpa using hno x hx

theorem idsOf_filter : ∀ (rows : List Row) (ns : List Nat) (id : Str),
    idsOf rows = ns.map idText →
    idsOf (rows.filter (fun r => lookupKey r idKey ≠ some id)) =
      (ns.filter (fun n => numToStr n ≠ id)).map idText := by
  intro rows
  induction rows with
  | nil =>
    intro ns id h
    cases ns with
    | nil => rfl
    | cons n ns => simp [idsOf] at h
  | cons r rows ih =>
    intro ns id h
    cases ns with
    | nil => simp [idsOf] at h
    | cons n ns =>
      simp only [idsOf, List.map_cons, List.cons.injEq] at h
      have h2 := ih ns id h.2
      by_cases he : numToStr n = id
      · have hr : lookupKey r idKey = some id := by rw [h.1, idText, he]
        rw [List.filter_cons_of_neg (by simpa using hr), List.filter_cons_of_neg (by simpa using he)]
        exact h2
      · have hr : lookupKey r idKey ≠ some id := by
          rw [h.1, idText]
          intro hx; exact he (Option.some.inj hx)
        rw [List.filter_cons_of_pos (by simpa using hr), List.filter_cons_of_pos (by simpa using he)]
        simp only [idsOf, List.map_cons, h.1] at h2 ⊢
        rw [h2]

theorem payload_no_id (hs : List Str) (payload : Row) (hp : PayloadOK hs payload) :
    lookupKey payload idKey = none := by
  unfold lookupKey
  apply lookup_none_of_not_mem
  intro h
  rcases List.mem_map.1 h with ⟨p, hp1, hp2⟩
  exact (hp.2 p hp1).1 hp2

theorem idsOf_modify (g : Row → Row) : ∀ (rows : List Row) (i : Nat),
    (∀ r ∈ rows, lookupKey (g r) idKey = lookupKey r idKey) →
    idsOf (rows.modify g i) = idsOf rows := by
  intro rows
  induction rows with
  | nil => intro i _; simp [idsOf]
  | cons r rows ih =>
    intro i h
    cases i with
    | zero => simp [idsOf, h r (by simp)]
    | succ i =>
      have h2 := ih i (fun x hx => h x (List.mem_cons_of_mem _ hx))
      simp only [idsOf] at h2
      simp only [idsOf, List.modify_succ_cons, List.map_cons, h2]

/-- The effect of `add` on a shaped store whose ids are the numbers `ns`. -/
theorem add_ids_shaped {argLimit : Nat} {hs : List Str} (hH : HeadersOK hs) {file : Str}
    (hg : ShapedStore hs file) (ns : List Nat)
    (hids : idsOf (DataManager.all file) = ns.map idText)
    (hb : ∀ n ∈ ns, n < maxExact) (hlim : ns.length ≤ argLimit) (data : Row)
    (hf : FieldsNoLF hs data) :
    ∃ file1, DataManager.add argLimit hs file data = some (file1, numToStr (ns.foldl max 0 + 1)) ∧
      ShapedStore hs file1 ∧
      idsOf (DataManager.all file1) = (ns ++ [ns.foldl max 0 + 1]).map idText := by
  have hn := nextId_of_ids (DataManager.all file) ns hids hb hlim
  have hrows : ∀ r ∈ DataManager.all file ++ [setField data idKey (numToStr (ns.foldl max 0 + 1))],
      IdRow hs r := by
    intro r hr
    rcases List.mem_append.1 hr with h | h
    · exact idRow_of_shaped hH r (hg r h)
    · rw [List.mem_singleton.1 h]; exact idRow_setField data hf _
  obtain ⟨h1, h2⟩ := ids_save hH _ hrows
  refine ⟨_, add_eq hs file data _ hn, h1, ?_⟩
  rw [h2]
  simp only [idsOf, List.map_append, List.map_cons, List.map_nil] at hids ⊢
  rw [hids, lookupKey_setField]
  simp [idText]

/-- The method `update` with a payload without line feed and without `id` key
keeps the store shaped and the ids as they are. -/
theorem update_ids_shaped {hs : List Str} (hH : HeadersOK hs) {file : Str}
    (hg : ShapedStore hs file) (id : Str) (payload : Row) (hp : PayloadNoLF hs payload)
    (hnoid : lookupKey payload idKey = none) :
    ShapedStore hs (DataManager.update hs file id payload).1 ∧
    idsOf (DataManager.all (DataManager.update hs file id payload).1) =
      idsOf (DataManager.all file) := by
  cases hi : (DataManager.all file).findIdx? (fun r => lookupKey r idKey = some id) with
  | none =>
    have hno : ∀ r ∈ DataManager.all file, lookupKey r idKey ≠ some id := by
      intro r hr
      simpa using (List.findIdx?_eq_none_iff.1 hi) r hr
    rw [update_absent hs file id payload hno]
    exact ⟨hg, rfl⟩
  | some idx =>
    rw [update_eq hs file id payload idx hi]
    have hrows : ∀ r ∈ (DataManager.all file).modify (fun r => merge r payload) idx,
        IdRow hs r := by
      intro r hr
      rcases mem_modify _ _ _ _ hr with h | ⟨y, hy, h⟩
      · exact idRow_of_shaped hH r (hg r h)
      · rw [h]; exact (idRow_merge y (idRow_of_shaped hH y (hg y hy)) payload hp hnoid).1
    obtain ⟨h1, h2⟩ := ids_save hH _ hrows
    refine ⟨h1, ?_⟩
    rw [h2]
    apply idsOf_modify
    intro r _
    rw [lookupKey_merge, hnoid]; rfl

/-- The method `delete` keeps the store shaped, and the ids afterwards are the
ids other than the deleted one. -/
theorem delete_ids_shaped {hs : List Str} (hH : HeadersOK hs) {file : Str}
    (hg : ShapedStore hs file) (id : Str) :
    ShapedStore hs (DataManager.delete hs file id).1 ∧
    idsOf (DataManager.all (DataManager.delete hs file id).1) =
      idsOf ((DataManager.all file).filter (fun r => lookupKey r idKey ≠ some id)) := by
  by_cases hex : ∃ r ∈ DataManager.all file, lookupKey r idKey = some id
  · rw [delete_eq hs file id hex]
    have hrows : ∀ r ∈ (DataManager.all file).filter (fun r => lookupKey r idKey ≠ some id),
        IdRow hs r := fun r hr => idRow_of_shaped hH r (hg r (List.mem_filter.1 hr).1)
    exact ids_save hH _ hrows
  · have hno : ∀ r ∈ DataManager.all file, lookupKey r idKey ≠ some id :=
      fun r hr he => hex ⟨r, hr, he⟩
    rw [delete_absent hs file id hno]
    refine ⟨hg, ?_⟩
    have hf : (DataManager.all file).filter (fun r => lookupKey r idKey ≠ some id) =
        DataManager.all file := by
      rw [List.filter_eq_self]
      intro x hx
      simpa using hno x hx
    rw [hf]

/-- One call without line feed in a value and without `id` key in a payload keeps
the invariant of the store. -/
theorem step_inv {argLimit : Nat} {hs : List Str} (hH : HeadersOK hs) {file : Str} {k : Nat}
    (hinv : StoreInv hs file k) (hk : k < maxExact) (hka : k < argLimit) (op : Op)
    (hop : OpClean hs op) :
    ∃ file1 out, step argLimit hs file op = some (file1, out) ∧ StoreInv hs file1 (k + 1) := by
  obtain ⟨hg, ns, hids, hpw, hle⟩ := hinv
  cases op with
  | add data =>
    have hb : ∀ n ∈ ns, n < maxExact := fun n hn => lt_of_le_of_lt (hle n hn) hk
    have hlim : ns.length ≤ argLimit := by
      have := length_le_of_increasing ns k hpw hle
      omega
    obtain ⟨file1, h1, h3, h4⟩ := add_ids_shaped hH hg ns hids hb hlim data hop
    refine ⟨file1, Out.id (numToStr (ns.foldl max 0 + 1)), by simp only [step, h1], h3, _, h4,
      ?_, ?_⟩
    · rw [List.pairwise_append]
      refine ⟨hpw, by simp, ?_⟩
      intro a ha b hb2
      rw [List.mem_singleton.1 hb2]
      exact Nat.lt_succ_of_le ((le_foldl_max ns 0).2 a ha)
    · intro n hn
      rcases List.mem_append.1 hn with h | h
      · exact le_trans (hle n h) (Nat.le_succ k)
      · rw [List.mem_singleton.1 h]
        exact Nat.succ_le_succ (foldl_max_le ns 0 k (Nat.zero_le k) hle)
  | update id payload =>
    obtain ⟨h1, h2⟩ := update_ids_shaped hH hg id payload hop.1 hop.2
    refine ⟨_, _, rfl, h1, ns, by rw [h2, hids], hpw, ?_⟩
    intro n hn
    exact le_trans (hle n hn) (Nat.le_succ k)
  | delete id =>
    obtain ⟨h1, h2⟩ := delete_ids_shaped hH hg id
    refine ⟨_, _, rfl, h1, ns.filter (fun n => numToStr n ≠ id), ?_, hpw.filter _, ?_⟩
    · rw [h2]; exact idsOf_filter _ ns id hids
    · intro n hn
      exact le_trans (hle n (List.mem_filter.1 hn).1) (Nat.le_succ k)

/-- A run of well-formed calls goes through and keeps the invariant. -/
theorem run_inv {argLimit : Nat} {hs : List Str} (hH : HeadersOK hs) :
    ∀ (ops : List Op) (file : Str) (k : Nat),
    StoreInv hs file k → k + ops.length ≤ maxExact → k + ops.length ≤ argLimit →
    (∀ op ∈ ops, OpClean hs op) →
    ∃ file1 outs, run argLimit hs file ops = some (file1, outs) ∧
      StoreInv hs file1 (k + ops.length) := by
  intro ops
  induction ops with
  | nil => intro file k hinv _ _ _; exact ⟨file, [], rfl, hinv⟩
  | cons op ops ih =>
    intro file k hinv hk hka hok
    simp only [List.length_cons] at hk hka
    have hka1 : k < argLimit := by omega
    have hka2 : k + 1 + ops.length ≤ argLimit := by omega
    obtain ⟨f1, o, h1, h2⟩ := step_inv hH hinv (by omega) hka1 op (hok op (by simp))
    obtain ⟨f2, os, h3, h4⟩ := ih f1 (k + 1) h2 (by omega) hka2
      (fun x hx => hok x (List.mem_cons_of_mem _ hx))
    refine ⟨f2, o :: os, by simp only [run, h1, h3], ?_⟩
    have : k + (op :: ops).length = k + 1 + ops.length := by simp; omega
    rw [this]; exact h4

theorem storeInv_nodup {hs : List Str} {file : Str} {k : Nat} (hinv : StoreInv hs file k) :
    (idsOf (DataManager.all file)).Nodup := by
  obtain ⟨_, ns, hids, hpw, _⟩ := hinv
  rw [hids]
  apply List.Nodup.map idText_injective
  exact hpw.imp (fun h => Nat.ne_of_lt h)


theorem opClean_of_opOK (hs : List Str) (op : Op) (h : OpOK hs op) : OpClean hs op := by
  cases op with
  | add data => exact h.1.1
  | update id payload =>
    exact ⟨fun p hp hh => (h.1 p hp hh).1, payload_no_id hs payload h⟩
  | delete id => trivial

theorem foldl_max_range (k : Nat) : (List.range' 1 k).foldl max 0 = k := by
  induction k with
  | zero => rfl
  | succ k ih =>
    rw [List.range'_1_concat, List.foldl_append, ih]
    simp
    omega

/-- A run of `add` calls on a store whose ids are `1` to `k` returns `k + 1`,
`k + 2`, ... in order. -/
theorem adds_run {argLimit : Nat} {hs : List Str} (hH : HeadersOK hs) :
    ∀ (datas : List Row) (file : Str)
    (k : Nat), ShapedStore hs file →
    idsOf (DataManager.all file) = (List.range' 1 k).map idText →
    k + datas.length ≤ maxExact → k + datas.length ≤ argLimit →
    (∀ d ∈ datas, FieldsNoLF hs d) →
    ∃ file1, run argLimit hs file (datas.map Op.add) =
      some (file1, (List.range' (k + 1) datas.length).map (fun n => Out.id (numToStr n))) := by
  intro datas
  induction datas with
  | nil => intro file k _ _ _ _ _; exact ⟨file, rfl⟩
  | cons d datas ih =>
    intro file k hg hids hk hka hok
    simp only [List.length_cons] at hk hka
    have hlim : (List.range' 1 k).length ≤ argLimit := by simp; omega
    have hb : ∀ n ∈ List.range' 1 k, n < maxExact := by
      intro n hn
      have := (List.mem_range'_1.1 hn).2
      omega
    obtain ⟨f1, h1, h3, h4⟩ := add_ids_shaped hH hg _ hids hb hlim d (hok d (by simp))
    rw [foldl_max_range] at h1 h4
    have h5 : idsOf (DataManager.all f1) = (List.range' 1 (k + 1)).map idText := by
      rw [h4, List.range'_1_concat, Nat.add_comm 1 k]
    have hka2 : k + 1 + datas.length ≤ argLimit := by omega
    obtain ⟨f2, h6⟩ := ih f1 (k + 1) h3 h5 (by omega) hka2
      (fun x hx => hok x (List.mem_cons_of_mem _ hx))
    refine ⟨f2, ?_⟩
    simp only [List.map_cons, run, step, h1, h6, List.length_cons, List.range'_succ]

/-- On a list of numbers that are all below `n`, keeping the numbers whose
decimal text is not that of `n` keeps the list, and removes `n` itself. -/
theorem filter_ids_concat (ns : List Nat) (n : Nat) (h : ∀ k ∈ ns, k < n) :
    (ns ++ [n]).filter (fun k => numToStr k ≠ numToStr n) = ns := by
  rw [List.filter_append]
  have h1 : ns.filter (fun k => numToStr k ≠ numToStr n) = ns := by
    rw [List.filter_eq_self]
    intro k hk
    have hne : k ≠ n := Nat.ne_of_lt (h k hk)
    simpa using fun he => hne (numToStr_injective k n he)
  rw [h1]
  simp

/-- Deleting the record that `add` has just added gives its id back to the next
`add`. -/
theorem add_delete_add {argLimit : Nat} {hs : List Str} (hH : HeadersOK hs) {file : Str}
    (hg : ShapedStore hs file) (ns : List Nat)
    (hids : idsOf (DataManager.all file) = ns.map idText)
    (hb : ∀ n ∈ ns, n < maxExact) (hlim : ns.length ≤ argLimit) (data : Row)
    (hf : FieldsNoLF hs data) :
    ∃ file1, DataManager.add argLimit hs file data =
        some (file1, numToStr (ns.foldl max 0 + 1)) ∧
      ∃ file2, DataManager.delete hs file1 (numToStr (ns.foldl max 0 + 1)) = (file2, true) ∧
        idsOf (DataManager.all file2) = ns.map idText ∧
        ∀ data2 : Row, FieldsNoLF hs data2 →
          ∃ file3, DataManager.add argLimit hs file2 data2 =
            some (file3, numToStr (ns.foldl max 0 + 1)) := by
  obtain ⟨file1, h1, hg1, hids1⟩ := add_ids_shaped hH hg ns hids hb hlim data hf
  have hex : ∃ r ∈ DataManager.all file1,
      lookupKey r idKey = some (numToStr (ns.foldl max 0 + 1)) := by
    have hmem : idText (ns.foldl max 0 + 1) ∈ idsOf (DataManager.all file1) := by
      rw [hids1]; simp
    obtain ⟨r, hr, he⟩ := List.mem_map.1 hmem
    exact ⟨r, hr, he⟩
  have hdel := delete_eq hs file1 (numToStr (ns.foldl max 0 + 1)) hex
  obtain ⟨hg2, hids2⟩ := delete_ids_shaped hH hg1 (numToStr (ns.foldl max 0 + 1))
  have hids3 : idsOf (DataManager.all (DataManager.delete hs file1
      (numToStr (ns.foldl max 0 + 1))).1) = ns.map idText := by
    rw [hids2, idsOf_filter _ _ _ hids1,
      filter_ids_concat ns _ (fun k hk => Nat.lt_succ_of_le ((le_foldl_max ns 0).2 k hk))]
  refine ⟨file1, h1, (DataManager.delete hs file1 (numToStr (ns.foldl max 0 + 1))).1, ?_,
    hids3, ?_⟩
  · rw [hdel]
  · intro data2 hf2
    obtain ⟨file3, h3, _, _⟩ := add_ids_shaped hH hg2 ns hids3 hb hlim data2 hf2
    exact ⟨file3, h3⟩

/-! ## Claims about ids -/

/-- C3 as stated fails when a value contains a line feed: after `add` of a record
whose `ref` is `x`, line feed, `7`, the file holds a second line that reads as a
record with id `7`, and the second `add` returns `8`, not `2`. -/
theorem C3_counterexample :
    ¬ AddIdsCount demoLimit demoHeaders
      [[(String.toList "ref", String.toList "x\n7")], [(String.toList "ref", String.toList "y")]] := by
  decide

/-- C3, amended: on a new store, a run of calls of `add` whose values contain no
line feed returns the decimal texts of `1`, `2`, `3`, ... in order, when the run
has at most `2 ^ 53` calls and at most `argLimit` calls, the number of arguments
that the engine accepts in the call `Math.max(...)` of `nextId`. -/
theorem C3_add_ids_count (argLimit : Nat) {hs : List Str} (hH : HeadersOK hs) (datas : List Row)
    (hok : ∀ d ∈ datas, FieldsNoLF hs d) (hlen : datas.length ≤ maxExact)
    (hlim : datas.length ≤ argLimit) :
    AddIdsCount argLimit hs datas := by
  have hinit : DataManager.all (initFile hs) = [] := parseCsv_initFile hH
  obtain ⟨f, hf⟩ := adds_run hH datas (initFile hs) 0 (storeInv_init hH).1
    (by rw [hinit]; rfl) (by omega) (by omega : 0 + datas.length ≤ argLimit) hok
  simp only [AddIdsCount, hf, Option.map_some', Nat.zero_add]

/-- C3 amended, at three calls of `add`. -/
theorem C3_add_ids_count_witness :
    HeadersOK demoHeaders ∧
    (run demoLimit demoHeaders (initFile demoHeaders)
      [Op.add [(String.toList "ref", String.toList "A1"), (String.toList "hours", String.toList "10")],
       Op.add [(String.toList "ref", String.toList "B2"), (String.toList "hours", String.toList "5")],
       Op.add [(String.toList "ref", String.toList "C,3")]]).map Prod.snd =
      some [Out.id (String.toList "1"), Out.id (String.toList "2"), Out.id (String.toList "3")] :=
  ⟨by decide, C3_add_ids_count demoLimit (by decide)
      [[(String.toList "ref", String.toList "A1"), (String.toList "hours", String.toList "10")],
       [(String.toList "ref", String.toList "B2"), (String.toList "hours", String.toList "5")],
       [(String.toList "ref", String.toList "C,3")]] (by decide) (by decide) (by decide)⟩

/-- C4 as stated fails: the id of a deleted record is given again when that
record held the largest id.  On a new store, `add`, `add`, `delete("2")`, `add`
returns the ids `1`, `2`, `2`. -/
theorem C4_counterexample :
    ¬ IdsNeverReused demoLimit demoHeaders
      [Op.add [(String.toList "ref", String.toList "A1")],
       Op.add [(String.toList "ref", String.toList "B2")],
       Op.delete (String.toList "2"),
       Op.add [(String.toList "ref", String.toList "C3")]] := by
  decide

/-- C4, amended: the id given by `add` is one more than the largest id present.
After any run of fewer than `2 ^ 53` calls on a new store, short enough for
`nextId` to pass one argument per record, with no line feed in a value and no
`id` key in a payload, the ids in the store are the decimal texts of numbers
`ns`, and `add` returns the decimal text of `1 + max ns` (of `1` when the store is
empty), which is above the number of the id of every record then in the store.
Ids of deleted records are not remembered: when the record just added is deleted,
the next `add` returns the same id again. -/
theorem C4_add_id_above_present (argLimit : Nat) {hs : List Str} (hH : HeadersOK hs)
    (ops : List Op) (hok : ∀ op ∈ ops, OpClean hs op) (hlen : ops.length < maxExact)
    (hlim : ops.length < argLimit) (data : Row) (hf : FieldsNoLF hs data) :
    ∃ (file : Str) (outs : List Out) (ns : List Nat) (file1 : Str),
      run argLimit hs (initFile hs) ops = some (file, outs) ∧
      idsOf (DataManager.all file) = ns.map idText ∧
      DataManager.add argLimit hs file data = some (file1, numToStr (ns.foldl max 0 + 1)) ∧
      (∀ r ∈ DataManager.all file,
        ∃ k, lookupKey r idKey = some (numToStr k) ∧ k < ns.foldl max 0 + 1) ∧
      ∃ file2, DataManager.delete hs file1 (numToStr (ns.foldl max 0 + 1)) = (file2, true) ∧
        ∀ data2 : Row, FieldsNoLF hs data2 →
          ∃ file3, DataManager.add argLimit hs file2 data2 =
            some (file3, numToStr (ns.foldl max 0 + 1)) := by
  obtain ⟨file, outs, hrun, hinv⟩ := run_inv hH ops (initFile hs) 0 (storeInv_init hH)
    (by omega) (by omega : 0 + ops.length ≤ argLimit) hok
  obtain ⟨hg, ns, hids, hpw, hle⟩ := hinv
  have hb : ∀ n ∈ ns, n < maxExact := fun n hn => by
    have := hle n hn
    omega
  have hlim2 : ns.length ≤ argLimit := by
    have := length_le_of_increasing ns _ hpw hle
    omega
  obtain ⟨file1, h1, file2, h2, _, h3⟩ := add_delete_add hH hg ns hids hb hlim2 data hf
  refine ⟨file, outs, ns, file1, hrun, hids, h1, ?_, file2, h2, h3⟩
  intro r hr
  have hmem : lookupKey r idKey ∈ idsOf (DataManager.all file) :=
    List.mem_map.2 ⟨r, hr, rfl⟩
  rw [hids] at hmem
  rcases List.mem_map.1 hmem with ⟨k, hk, hk2⟩
  exact ⟨k, hk2.symm, Nat.lt_succ_of_le ((le_foldl_max ns 0).2 k hk)⟩

/-- C4 amended, on the run `add`, `add`, `delete("2")` followed by `add`. -/
theorem C4_add_id_above_present_witness :
    HeadersOK demoHeaders ∧
    ∃ (file : Str) (outs : List Out) (ns : List Nat) (file1 : Str),
      run demoLimit demoHeaders (initFile demoHeaders)
        [Op.add [(String.toList "ref", String.toList "A1")],
         Op.add [(String.toList "ref", String.toList "B2")],
         Op.delete (String.toList "2")] = some (file, outs) ∧
      idsOf (DataManager.all file) = ns.map idText ∧
      DataManager.add demoLimit demoHeaders file [(String.toList "ref", String.toList "C3")] =
        some (file1, numToStr (ns.foldl max 0 + 1)) ∧
      (∀ r ∈ DataManager.all file,
        ∃ k, lookupKey r idKey = some (numToStr k) ∧ k < ns.foldl max 0 + 1) ∧
      ∃ file2, DataManager.delete demoHeaders file1 (numToStr (ns.foldl max 0 + 1)) =
          (file2, true) ∧
        ∀ data2 : Row, FieldsNoLF demoHeaders data2 →
          ∃ file3, DataManager.add demoLimit demoHeaders file2 data2 =
            some (file3, numToStr (ns.foldl max 0 + 1)) :=
  ⟨by decide, C4_add_id_above_present demoLimit (by decide)
      [Op.add [(String.toList "ref", String.toList "A1")],
       Op.add [(String.toList "ref", String.toList "B2")],
       Op.delete (String.toList "2")] (by decide) (by decide) (by decide)
      [(String.toList "ref", String.toList "C3")] (by decide)⟩

/-- C9 as stated fails: a payload with an `id` key gives a record the id of
another one.  On a new store, `add`, `add`, `update("2", {id: "1"})` leaves two
records with id `1`.  It also fails for a value with a line feed: after `add` of
a record whose `ref` is `x`, line feed, `1`, two records with id `1` are read. -/
theorem C9_counterexample :
    ¬ IdsUnique demoLimit demoHeaders
      [Op.add [(String.toList "ref", String.toList "A1")],
       Op.add [(String.toList "ref", String.toList "B2")],
       Op.update (String.toList "2") [(idKey, String.toList "1")]] ∧
    ¬ IdsUnique demoLimit demoHeaders
      [Op.add [(String.toList "ref", String.toList "x\n1")]] := by
  decide

/-- C9, amended: on a new store, after every run of calls of `add`, `update` and
`delete` whose values contain no line feed and whose `update` payloads have no
`id` key, no two records read by `all` have the same id, when the run has at most
`2 ^ 53` calls and at most `argLimit` calls, the number of arguments that the
engine accepts in the call `Math.max(...)` of `nextId`. -/
theorem C9_ids_unique (argLimit : Nat) {hs : List Str} (hH : HeadersOK hs) (ops : List Op)
    (hok : ∀ op ∈ ops, OpClean hs op) (hlen : ops.length ≤ maxExact)
    (hlim : ops.length ≤ argLimit) :
    IdsUnique argLimit hs ops := by
  obtain ⟨file, outs, hrun, hinv⟩ := run_inv hH ops (initFile hs) 0 (storeInv_init hH)
    (by omega) (by omega : 0 + ops.length ≤ argLimit) hok
  exact ⟨(file, outs), hrun, storeInv_nodup hinv⟩

/-- C9 amended, on a run with the three kinds of call. -/
theorem C9_ids_unique_witness :
    HeadersOK demoHeaders ∧
    IdsUnique demoLimit demoHeaders
      [Op.add [(String.toList "ref", String.toList "A1"), (String.toList "hours", String.toList "10")],
       Op.add [(String.toList "ref", String.toList "B2"), (String.toList "hours", String.toList "5")],
       Op.delete (String.toList "1"),
       Op.update (String.toList "2") [(String.toList "hours", String.toList "7")]] :=
  ⟨by decide, C9_ids_unique demoLimit (by decide)
      [Op.add [(String.toList "ref", String.toList "A1"), (String.toList "hours", String.toList "10")],
       Op.add [(String.toList "ref", String.toList "B2"), (String.toList "hours", String.toList "5")],
       Op.delete (String.toList "1"),
       Op.update (String.toList "2") [(String.toList "hours", String.toList "7")]]
      (by decide) (by decide) (by decide)⟩


/-! ## The in-memory list model -/

theorem sim_canon_id {hs : List Str} (hH : HeadersOK hs) (m : Row)
    (hm : CleanFor hs m ∧ (∀ h ∈ hs, ',' ∉ valueOf m h) ∧
      lookupKey m idKey = some (valueOf m idKey)) :
    lookupKey (canon hs m) idKey = lookupKey m idKey := by
  rw [lookupKey_canon hH m idKey (idKey_mem hH), hm.2.2,
    replaceCommas_id _ (hm.2.1 idKey (idKey_mem hH))]

theorem sim_ids {hs : List Str} (hH : HeadersOK hs) {file : Str} {mrows : List Row}
    (hsim : Sim hs file mrows) : idsOf (DataManager.all file) = idsOf mrows := by
  rw [hsim.1]
  simp only [idsOf, List.map_map]
  apply List.map_congr_left
  intro m hm
  exact sim_canon_id hH m (hsim.2 m hm)

theorem sim_good {hs : List Str} (hH : HeadersOK hs) {file : Str} {mrows : List Row}
    (hsim : Sim hs file mrows) : GoodStore hs file := by
  intro r hr
  rw [hsim.1] at hr
  rcases List.mem_map.1 hr with ⟨m, hm, rfl⟩
  exact canon_good hH m (hsim.2 m hm).1

theorem sim_fields {hs : List Str} (hH : HeadersOK hs) {file : Str} {mrows : List Row}
    (hsim : Sim hs file mrows) :
    (DataManager.all file).map (fieldsOf hs) = mrows.map (fieldsOf hs) := by
  rw [hsim.1, List.map_map]
  apply List.map_congr_left
  intro m hm
  simp only [Function.comp, fieldsOf]
  apply List.map_congr_left
  intro h hh
  rw [valueOf_canon hH m h hh, replaceCommas_id _ ((hsim.2 m hm).2.1 h hh)]

theorem findIdx?_congr {α : Type} (p q : α → Bool) : ∀ (l : List α),
    (∀ x ∈ l, p x = q x) → l.findIdx? p = l.findIdx? q := by
  intro l
  induction l with
  | nil => intro _; rfl
  | cons a l ih =>
    intro h
    rw [List.findIdx?_cons, List.findIdx?_cons, h a (by simp), List.findIdx?_succ,
      List.findIdx?_succ, ih (fun x hx => h x (List.mem_cons_of_mem _ hx))]

theorem any_congr_mem {α : Type} (p q : α → Bool) : ∀ (l : List α),
    (∀ x ∈ l, p x = q x) → l.any p = l.any q := by
  intro l
  induction l with
  | nil => intro _; rfl
  | cons a l ih =>
    intro h
    rw [List.any_cons, List.any_cons, h a (by simp),
      ih (fun x hx => h x (List.mem_cons_of_mem _ hx))]

theorem modify_map_comm {α : Type} (c g g1 : α → α) : ∀ (l : List α) (i : Nat),
    (∀ x ∈ l, g (c x) = c (g1 x)) → (l.map c).modify g i = (l.modify g1 i).map c := by
  intro l
  induction l with
  | nil => intro i _; simp
  | cons a l ih =>
    intro i h
    cases i with
    | zero => simp [h a (by simp)]
    | succ i =>
      rw [List.map_cons, List.modify_succ_cons, List.modify_succ_cons, List.map_cons,
        ih i (fun x hx => h x (List.mem_cons_of_mem _ hx))]

theorem model_add_eq (mrows : List Row) (ns : List Nat) (hids : idsOf mrows = ns.map idText)
    (hb : ∀ n ∈ ns, n ≤ maxExact) (data : Row) :
    Model.add mrows data =
      some (mrows ++ [setField data idKey (numToStr (ns.foldl max 0 + 1))],
        numToStr (ns.foldl max 0 + 1)) := by
  cases mrows with
  | nil =>
    cases ns with
    | nil => rfl
    | cons n ns => simp [idsOf] at hids
  | cons r rest =>
    simp only [Model.add, idNumbers_of_ids (r :: rest) ns hids hb, Nat.add_comm 1]

theorem model_update_eq (id : Str) (fields : Row) : ∀ (mrows : List Row),
    Model.update mrows id fields =
      match mrows.findIdx? (fun r => lookupKey r idKey = some id) with
      | none => (mrows, false)
      | some i => (mrows.modify (fun r => merge r fields) i, true) := by
  intro mrows
  induction mrows with
  | nil => rfl
  | cons r rest ih =>
    by_cases he : lookupKey r idKey = some id
    · simp [Model.update, he]
    · rw [List.findIdx?_cons, List.findIdx?_succ]
      simp only [Model.update, he, if_false, decide_False, Bool.false_eq_true]
      rw [ih]
      cases rest.findIdx? (fun r => decide (lookupKey r idKey = some id)) with
      | none => rfl
      | some i => simp

theorem model_delete_eq (id : Str) : ∀ (mrows : List Row),
    Model.delete mrows id =
      (mrows.eraseP (fun r => lookupKey r idKey = some id),
        mrows.any (fun r => lookupKey r idKey = some id)) := by
  intro mrows
  induction mrows with
  | nil => rfl
  | cons r rest ih =>
    by_cases he : lookupKey r idKey = some id
    · simp [Model.delete, he]
    · simp [Model.delete, he, ih]

theorem canon_merge_canon {hs : List Str} (hH : HeadersOK hs) (m : Row)
    (hm : ∀ h ∈ hs, ',' ∉ valueOf m h) (payload : Row) :
    canon hs (merge (canon hs m) payload) = canon hs (merge m payload) := by
  unfold canon
  congr 1
  apply List.map_congr_left
  intro h hh
  congr 1
  cases hl : lookupKey payload h with
  | none =>
    rw [valueOf_merge_none _ _ _ hl, valueOf_merge_none _ _ _ hl]
    exact (valueOf_canon hH m h hh).trans (replaceCommas_id _ (hm h hh))
  | some v => rw [valueOf_merge_some _ _ _ _ hl, valueOf_merge_some _ _ _ _ hl]

theorem sim_row_setField {hs : List Str} (hH : HeadersOK hs) (data : Row)
    (hf : FieldsOK hs data) (n : Nat) :
    CleanFor hs (setField data idKey (numToStr n)) ∧
    (∀ h ∈ hs, ',' ∉ valueOf (setField data idKey (numToStr n)) h) ∧
    lookupKey (setField data idKey (numToStr n)) idKey =
      some (valueOf (setField data idKey (numToStr n)) idKey) := by
  refine ⟨cleanFor_setField hH data hf.1 n, ?_, ?_⟩
  · intro h hh
    rw [valueOf_setField]
    by_cases he : h = idKey
    · simp only [he, if_true]; exact numToStr_no_comma n
    · simp only [he, if_false]; exact hf.2 h hh he
  · rw [lookupKey_setField, valueOf_setField]
    simp

theorem sim_row_merge {hs : List Str} (hH : HeadersOK hs) (m : Row)
    (hm : CleanFor hs m ∧ (∀ h ∈ hs, ',' ∉ valueOf m h) ∧
      lookupKey m idKey = some (valueOf m idKey))
    (payload : Row) (hp : PayloadOK hs payload) :
    CleanFor hs (merge m payload) ∧ (∀ h ∈ hs, ',' ∉ valueOf (merge m payload) h) ∧
    lookupKey (merge m payload) idKey = some (valueOf (merge m payload) idKey) := by
  have hnoid := payload_no_id hs payload hp
  refine ⟨cleanFor_merge hH m hm.1 payload hp.1, ?_, ?_⟩
  · intro h hh
    cases hl : lookupKey payload h with
    | none => rw [valueOf_merge_none _ _ _ hl]; exact hm.2.1 h hh
    | some v =>
      rw [valueOf_merge_some _ _ _ _ hl]
      exact ((hp.2 (h, v) (lookup_mem _ _ _ hl)).2 hh)
  · rw [valueOf_merge_none _ _ _ hnoid, lookupKey_merge, hnoid]
    exact hm.2.2


/-- One well-formed call does the same to the file, as `all` reads it, and to the
list of the model, and returns the same value. -/
theorem sim_step {argLimit : Nat} {hs : List Str} (hH : HeadersOK hs)
    {file : Str} {mrows : List Row} {k : Nat}
    (hsim : Sim hs file mrows) (hinv : StoreInv hs file k) (hk : k < maxExact)
    (hka : k < argLimit) (op : Op) (hop : OpOK hs op) :
    ∃ file1 mrows1 out, step argLimit hs file op = some (file1, out) ∧
      Model.step mrows op = some (mrows1, out) ∧ Sim hs file1 mrows1 := by
  have hg := sim_good hH hsim
  have hidm := sim_ids hH hsim
  have hpred : ∀ (id : Str), ∀ x ∈ mrows,
      ((fun r => decide (lookupKey r idKey = some id)) ∘ canon hs) x =
        (fun r => decide (lookupKey r idKey = some id)) x := by
    intro id x hx
    simp only [Function.comp, sim_canon_id hH x (hsim.2 x hx)]
  cases op with
  | add data =>
    obtain ⟨_, ns, hids, hpw, hle⟩ := hinv
    have hb : ∀ n ∈ ns, n < maxExact := fun n hn => lt_of_le_of_lt (hle n hn) hk
    have hlim : ns.length ≤ argLimit := by
      have := length_le_of_increasing ns k hpw hle
      omega
    obtain ⟨file1, h1, h2, _, _⟩ := add_ids hH hg ns hids hb hlim data hop.1
    have hm := model_add_eq mrows ns (by rw [← hidm, hids]) (fun n hn => le_of_lt (hb n hn)) data
    refine ⟨file1, mrows ++ [setField data idKey (numToStr (ns.foldl max 0 + 1))],
      Out.id (numToStr (ns.foldl max 0 + 1)), by simp only [step, h1],
      by simp only [Model.step, hm], ?_, ?_⟩
    · rw [h2, hsim.1, List.map_append]; rfl
    · intro m hmem
      rcases List.mem_append.1 hmem with h | h
      · exact hsim.2 m h
      · rw [List.mem_singleton.1 h]; exact sim_row_setField hH data hop _
  | update id payload =>
    have hfind : (DataManager.all file).findIdx? (fun r => lookupKey r idKey = some id) =
        mrows.findIdx? (fun r => lookupKey r idKey = some id) := by
      rw [hsim.1, List.findIdx?_map]
      exact findIdx?_congr _ _ mrows (hpred id)
    cases hi : mrows.findIdx? (fun r => lookupKey r idKey = some id) with
    | none =>
      rw [hi] at hfind
      have hno : ∀ r ∈ DataManager.all file, lookupKey r idKey ≠ some id := by
        intro r hr
        simpa using (List.findIdx?_eq_none_iff.1 hfind) r hr
      have hu := update_absent hs file id payload hno
      have hm : Model.update mrows id payload = (mrows, false) := by
        rw [model_update_eq, hi]
      exact ⟨file, mrows, Out.ok false, by simp only [step, hu], by simp only [Model.step, hm],
        hsim⟩
    | some idx =>
      rw [hi] at hfind
      obtain ⟨u1, u2, _⟩ := update_found hH hg id payload hop.1 idx hfind
      have hm : Model.update mrows id payload =
          (mrows.modify (fun r => merge r payload) idx, true) := by
        rw [model_update_eq, hi]
      refine ⟨(DataManager.update hs file id payload).1,
        mrows.modify (fun r => merge r payload) idx, Out.ok true,
        by simp only [step, u1], by simp only [Model.step, hm], ?_, ?_⟩
      · rw [u2, hsim.1]
        exact modify_map_comm (canon hs) _ _ mrows idx
          (fun x hx => canon_merge_canon hH x (hsim.2 x hx).2.1 payload)
      · intro m hmem
        rcases mem_modify _ _ _ _ hmem with h | ⟨y, hy, h⟩
        · exact hsim.2 m h
        · rw [h]; exact sim_row_merge hH y (hsim.2 y hy) payload hop
  | delete id =>
    obtain ⟨_, d2, d3⟩ := delete_rows hH hg id
    have hnd : (idsOf mrows).Nodup := by rw [← hidm]; exact storeInv_nodup hinv
    have hm := model_delete_eq id mrows
    have hany : (DataManager.all file).any (fun r => lookupKey r idKey = some id) =
        mrows.any (fun r => lookupKey r idKey = some id) := by
      rw [hsim.1, List.any_map]
      exact any_congr_mem _ _ mrows (hpred id)
    refine ⟨(DataManager.delete hs file id).1,
      mrows.eraseP (fun r => lookupKey r idKey = some id),
      Out.ok (mrows.any (fun r => lookupKey r idKey = some id)),
      by simp only [step, d3, hany], by simp only [Model.step, hm], ?_, ?_⟩
    · rw [d2, hsim.1, List.filter_map, ← filter_eq_eraseP_of_nodup mrows id hnd]
      congr 1
      apply List.filter_congr
      intro x hx
      have := sim_canon_id hH x (hsim.2 x hx)
      simp only [Function.comp, this]
    · intro m hmem
      exact hsim.2 m (List.mem_of_mem_eraseP hmem)

/-- A run of well-formed calls on the store and on the model: both go through,
return the same values, and end in related states. -/
theorem sim_run {argLimit : Nat} {hs : List Str} (hH : HeadersOK hs) :
    ∀ (ops : List Op) (file : Str)
    (mrows : List Row) (k : Nat), Sim hs file mrows → StoreInv hs file k →
    k + ops.length ≤ maxExact → k + ops.length ≤ argLimit → (∀ op ∈ ops, OpOK hs op) →
    ∃ file1 mrows1 outs, run argLimit hs file ops = some (file1, outs) ∧
      Model.run mrows ops = some (mrows1, outs) ∧ Sim hs file1 mrows1 := by
  intro ops
  induction ops with
  | nil => intro file mrows k hsim _ _ _ _; exact ⟨file, mrows, [], rfl, rfl, hsim⟩
  | cons op ops ih =>
    intro file mrows k hsim hinv hk hka hok
    simp only [List.length_cons] at hk hka
    have hop := hok op (by simp)
    have hka1 : k < argLimit := by omega
    have hka2 : k + 1 + ops.length ≤ argLimit := by omega
    obtain ⟨f1, m1, o, h1, h2, h3⟩ := sim_step hH hsim hinv (by omega) hka1 op hop
    obtain ⟨f1b, ob, h1b, hinv1⟩ :=
      step_inv hH hinv (by omega) hka1 op (opClean_of_opOK hs op hop)
    have hf : f1b = f1 := by
      rw [h1] at h1b
      exact (congrArg Prod.fst (Option.some.inj h1b)).symm
    rw [hf] at hinv1
    obtain ⟨f2, m2, os, h4, h5, h6⟩ := ih f1 m1 (k + 1) h3 hinv1 (by omega) hka2
      (fun x hx => hok x (List.mem_cons_of_mem _ hx))
    exact ⟨f2, m2, o :: os, by simp only [run, h1, h4], by simp only [Model.run, h2, h5], h6⟩

theorem sim_init {hs : List Str} (hH : HeadersOK hs) : Sim hs (initFile hs) [] := by
  refine ⟨parseCsv_initFile hH, ?_⟩
  intro m hm
  simp at hm

/-! ## Round trip -/

/-- C1 as stated fails for a value with a comma: after `add` of a record whose
`ref` is `a,b` the list model holds `a,b`, the store reads back `a b`.  It also
fails for a value with a line feed (read back as two records), for a last value
that ends in a space (removed by `trim`), and when a payload gives a record the
id of another one (`delete` then removes both). -/
theorem C1_counterexample :
    ¬ RoundTrip demoLimit demoHeaders
      [Op.add [(String.toList "ref", String.toList "a,b"),
        (String.toList "hours", String.toList "1")]] ∧
    ¬ RoundTrip demoLimit demoHeaders
      [Op.add [(String.toList "ref", String.toList "a\nb"),
        (String.toList "hours", String.toList "1")]] ∧
    ¬ RoundTrip demoLimit demoHeaders
      [Op.add [(String.toList "ref", String.toList "a"),
        (String.toList "hours", String.toList "1 ")]] ∧
    ¬ RoundTrip demoLimit demoHeaders
      [Op.add [(String.toList "ref", String.toList "a")],
       Op.add [(String.toList "ref", String.toList "b")],
       Op.update (String.toList "2") [(idKey, String.toList "1")],
       Op.delete (String.toList "1")] := by
  decide

/-- C1, amended: on a new store, for every run of calls of `add`, `update` and
`delete` whose values contain no comma and no line feed (the last column not
ending in white space) and whose `update` payloads have no `id` key, the records
read by `all` are, under the headers and in order, the records of the in-memory
list model after the same calls; the calls also return the same values on both
sides.  The run has at most `2 ^ 53` calls and at most `argLimit` calls, the
number of arguments that the engine accepts in the call `Math.max(...)` of
`nextId`. -/
theorem C1_round_trip (argLimit : Nat) {hs : List Str} (hH : HeadersOK hs) (ops : List Op)
    (hok : ∀ op ∈ ops, OpOK hs op) (hlen : ops.length ≤ maxExact)
    (hlim : ops.length ≤ argLimit) :
    RoundTrip argLimit hs ops ∧
    (run argLimit hs (initFile hs) ops).map Prod.snd = (Model.run [] ops).map Prod.snd ∧
    ∃ p, run argLimit hs (initFile hs) ops = some p ∧ GoodStore hs p.1 := by
  obtain ⟨file, mrows, outs, h1, h2, h3⟩ := sim_run hH ops (initFile hs) [] 0 (sim_init hH)
    (storeInv_init hH) (by omega) (by omega : 0 + ops.length ≤ argLimit) hok
  refine ⟨⟨(file, outs), h1, (mrows, outs), h2, sim_fields hH h3⟩, ?_,
    ⟨(file, outs), h1, sim_good hH h3⟩⟩
  rw [h1, h2]
  rfl

/-- C1 amended, on the worked scenario of the specification: two calls of `add`,
`delete("1")`, `update("2", {hours: "7"})`. -/
theorem C1_round_trip_witness :
    HeadersOK demoHeaders ∧
    RoundTrip demoLimit demoHeaders
      [Op.add [(String.toList "ref", String.toList "A1"), (String.toList "hours", String.toList "10")],
       Op.add [(String.toList "ref", String.toList "B2"), (String.toList "hours", String.toList "5")],
       Op.delete (String.toList "1"),
       Op.update (String.toList "2") [(String.toList "hours", String.toList "7")]] :=
  ⟨by decide, (C1_round_trip demoLimit (by decide)
      [Op.add [(String.toList "ref", String.toList "A1"), (String.toList "hours", String.toList "10")],
       Op.add [(String.toList "ref", String.toList "B2"), (String.toList "hours", String.toList "5")],
       Op.delete (String.toList "1"),
       Op.update (String.toList "2") [(String.toList "hours", String.toList "7")]]
      (by decide) (by decide) (by decide)).1⟩

/-! ## The file format -/

theorem terminated_append (xs ys : List Str) :
    terminated (xs ++ ys) = terminated xs ++ terminated ys := by
  induction xs with
  | nil => rfl
  | cons x xs ih => simp [terminated, ih]

theorem intercalate_lf_terminated : ∀ (ls : List Str), ls ≠ [] →
    ['\n'].intercalate ls ++ ['\n'] = terminated ls
  | [], h => absurd rfl h
  | [l], _ => by simp [terminated, List.intercalate]
  | l :: l2 :: rest, _ => by
    rw [intercalate_cons_cons, terminated, ← intercalate_lf_terminated (l2 :: rest) (by simp)]
    simp

theorem stringifyCsv_terminated (hs : List Str) (rows : List Row) (hne : rows ≠ []) :
    stringifyCsv hs rows = terminated (joinComma hs :: rows.map (rowLine hs)) := by
  have h := intercalate_lf_terminated (rows.map (rowLine hs)) (by simpa using hne)
  simp only [stringifyCsv, terminated, List.append_assoc] at *
  rw [h]

theorem stringifyCsv_nil (hs : List Str) :
    stringifyCsv hs [] = joinComma hs ++ ['\n', '\n'] := by
  simp [stringifyCsv, List.intercalate]

theorem lineFeeds_terminated : ∀ (ls : List Str), (∀ l ∈ ls, '\n' ∉ l) →
    lineFeeds (terminated ls) = ls.length
  | [], _ => rfl
  | l :: rest, h => by
    have ih := lineFeeds_terminated rest (fun x hx => h x (List.mem_cons_of_mem _ hx))
    have hl : List.count '\n' l = 0 := List.count_eq_zero.mpr (h l (List.mem_cons_self _ _))
    simp only [lineFeeds] at ih
    simp [lineFeeds, terminated, List.count_append, hl, ih]

theorem terminated_eq_intercalate (ls : List Str) :
    terminated ls = ['\n'].intercalate (ls ++ [[]]) := by
  by_cases hne : ls = []
  · subst hne; rfl
  · rw [intercalate_concat _ _ _ hne, List.append_nil, intercalate_lf_terminated ls hne]

theorem splitOn_terminated (ls : List Str) (h : ∀ l ∈ ls, '\n' ∉ l) :
    (terminated ls).splitOn '\n' = ls ++ [[]] := by
  rw [terminated_eq_intercalate]
  refine List.splitOn_intercalate _ '\n' ?_ (by simp)
  intro l hl
  rcases List.mem_append.mp hl with hl | hl
  · exact h l hl
  · rw [List.mem_singleton.mp hl]; simp

theorem rowLine_fieldsOf (hs : List Str) (r : Row) :
    rowLine hs r = joinComma ((fieldsOf hs r).map replaceCommas) := by
  simp [rowLine, fieldsOf, List.map_map, Function.comp_def]

theorem fieldsOf_no_comma (hs : List Str) (r : Row) (h : ∀ k ∈ hs, ',' ∉ valueOf r k) :
    (fieldsOf hs r).map replaceCommas = fieldsOf hs r := by
  simp only [fieldsOf, List.map_map]
  exact List.map_congr_left (fun k hk => replaceCommas_id _ (h k hk))

/-- C11 (counterexample): the format as stated fails on the code.  Without
records `save` writes the header and two line feeds, where `ensureCsv` writes the
header and one; a value with a line feed makes a record take two lines; a value
with a comma is not written as it is. -/
theorem C11_counterexample :
    ¬ FormatAsStated spindleHeaders [] ∧
    DataManager.save demoHeaders [] = String.toList "id,ref,hours\n\n" ∧
    ensureCsv none demoHeaders = String.toList "id,ref,hours\n" ∧
    ¬ FormatAsStated demoHeaders [[(String.toList "ref", String.toList "a\nb")]] ∧
    DataManager.save demoHeaders [[(String.toList "ref", String.toList "a\nb")]] =
      String.toList "id,ref,hours\n,a\nb,\n" ∧
    ¬ FormatAsStated demoHeaders [[(String.toList "ref", String.toList "a,b")]] ∧
    DataManager.save demoHeaders [[(String.toList "ref", String.toList "a,b")]] =
      String.toList "id,ref,hours\n,a b,\n" := by
  decide

/-- C11 (amended): for a store with well-formed headers `hs` and every list of
`n ≥ 1` records, the text written by `save` is the comma-joined header line
followed by one line per record, in order, that holds the values of the record in
header order, every comma in a value replaced by a space, joined by commas, each
line ended by a line feed.  When no value under a header contains a line feed
these are exactly `n + 1` lines: the text has `n + 1` line feeds and splitting it
at them gives the header line, the `n` record lines and an empty end.  The header
line splits at the commas into the headers and a record line into the replaced
values, which are the values themselves when they have no comma.  Without records
the text is read back as no record, as the text that `ensureCsv` writes is. -/
theorem C11_file_format (hs : List Str) (hH : HeadersOK hs) (rows : List Row) :
    (rows ≠ [] → DataManager.save hs rows =
      terminated (joinComma hs ::
        rows.map (fun r => joinComma ((fieldsOf hs r).map replaceCommas)))) ∧
    (rows ≠ [] → (∀ r ∈ rows, NoLineFeed hs r) →
      lineFeeds (DataManager.save hs rows) = rows.length + 1 ∧
      (DataManager.save hs rows).splitOn '\n' =
        (joinComma hs ::
          rows.map (fun r => joinComma ((fieldsOf hs r).map replaceCommas))) ++ [[]]) ∧
    (joinComma hs).splitOn ',' = hs ∧
    (∀ r : Row, (joinComma ((fieldsOf hs r).map replaceCommas)).splitOn ',' =
      (fieldsOf hs r).map replaceCommas) ∧
    (∀ r : Row, (∀ k ∈ hs, ',' ∉ valueOf r k) →
      (fieldsOf hs r).map replaceCommas = fieldsOf hs r) ∧
    (rows = [] → DataManager.all (DataManager.save hs rows) = [] ∧
      DataManager.all (ensureCsv none hs) = []) := by
  have hmap : rows.map (fun r => joinComma ((fieldsOf hs r).map replaceCommas)) =
      rows.map (rowLine hs) := List.map_congr_left (fun r _ => (rowLine_fieldsOf hs r).symm)
  have hlines : (∀ r ∈ rows, NoLineFeed hs r) →
      ∀ l ∈ joinComma hs :: rows.map (rowLine hs), '\n' ∉ l := by
    intro hlf l hl
    rcases List.mem_cons.mp hl with rfl | hl
    · exact headerLine_no_lf hH
    · obtain ⟨r, hr, rfl⟩ := List.mem_map.mp hl
      exact rowLine_no_lf_of (hlf r hr)
  refine ⟨?_, ?_, headerLine_split hH, ?_, fieldsOf_no_comma hs, ?_⟩
  · intro hne
    rw [hmap]; exact stringifyCsv_terminated hs rows hne
  · intro hne hlf
    have hs1 : DataManager.save hs rows = terminated (joinComma hs :: rows.map (rowLine hs)) :=
      stringifyCsv_terminated hs rows hne
    rw [hmap, hs1]
    refine ⟨?_, splitOn_terminated _ (hlines hlf)⟩
    rw [lineFeeds_terminated _ (hlines hlf)]; simp
  · intro r
    rw [← rowLine_fieldsOf, rowLine_split hH]
    simp [fieldsOf, List.map_map, Function.comp_def]
  · intro hnil
    subst hnil
    exact ⟨parseCsv_stringify_nil hH, parseCsv_initFile hH⟩

/-- C11 (witness): the amended statement at the two-record store of the worked
scenario. -/
theorem C11_file_format_witness :
    HeadersOK demoHeaders ∧
    lineFeeds (DataManager.save demoHeaders (DataManager.all demoFile)) = 2 + 1 ∧
    (DataManager.save demoHeaders (DataManager.all demoFile)).splitOn '\n' =
      [String.toList "id,ref,hours", String.toList "1,A1,10", String.toList "2,B2,5", []] :=
  ⟨by decide,
   ((C11_file_format demoHeaders (by decide) (DataManager.all demoFile)).2.1
      (by decide) (by decide)).1,
   (((C11_file_format demoHeaders (by decide) (DataManager.all demoFile)).2.1
      (by decide) (by decide)).2).trans (by decide)⟩

/-! ## The reference filter of the list pages -/

theorem includes_iff (s pat : Str) : includes s pat = true ↔ pat <:+: s := by
  unfold includes
  rw [List.any_eq_true]
  constructor
  · rintro ⟨t, ht, hp⟩
    rw [List.mem_tails] at ht
    rw [List.isPrefixOf_iff_prefix] at hp
    exact List.infix_iff_prefix_suffix.mpr ⟨t, hp, ht⟩
  · intro h
    obtain ⟨t, hp, ht⟩ := List.infix_iff_prefix_suffix.mp h
    exact ⟨t, (List.mem_tails _ _).mpr ht, List.isPrefixOf_iff_prefix.mpr hp⟩

theorem filterRows_total (test : Row → Option Bool) (p : Row → Bool) :
    ∀ (rows : List Row), (∀ r ∈ rows, test r = some (p r)) →
      filterRows test rows = some (rows.filter p)
  | [], _ => rfl
  | r :: rest, h => by
    have ih := filterRows_total test p rest (fun x hx => h x (List.mem_cons_of_mem _ hx))
    have hr := h r (List.mem_cons_self _ _)
    simp only [filterRows, hr, ih, List.filter_cons]

theorem trim_blank (s : Str) (h : ∀ c ∈ s, isJsWhitespace c = true) : trim s = [] := by
  unfold trim
  have h1 : s.dropWhile isJsWhitespace = [] := by
    rw [List.dropWhile_eq_nil_iff]; exact h
  rw [h1]; rfl

theorem filterRows_sublist (test : Row → Option Bool) :
    ∀ (rows res : List Row), filterRows test rows = some res → res.Sublist rows
  | [], res, h => by
    simp only [filterRows, Option.some.injEq] at h
    subst h; exact List.Sublist.refl _
  | r :: rest, res, h => by
    simp only [filterRows] at h
    cases ht : test r with
    | none => simp [ht] at h
    | some b =>
      cases hf : filterRows test rest with
      | none => simp [ht, hf] at h
      | some out =>
        have ih := filterRows_sublist test rest out hf
        simp only [ht, hf, Option.some.injEq] at h
        subst h
        cases b
        · simpa using List.Sublist.cons r ih
        · simpa using List.Sublist.cons₂ r ih

theorem refMatches_blank (lower : Str → Str) (q : Option Str) (hq : q = none ∨ q = some [])
    (row : Row) : refMatches lower q row = some true := by
  rcases hq with rfl | rfl <;> simp [refMatches]

theorem refMatches_text (lower : Str → Str) (q : Str) (hq : q ≠ []) (row : Row)
    (hrow : lookupKey row refKey ≠ none) :
    refMatches lower (some q) row =
      some (decide (lower q <:+: lower (valueOf row refKey))) := by
  cases hv : lookupKey row refKey with
  | none => exact absurd hv hrow
  | some v =>
    have hinc : includes (lower v) (lower q) = decide (lower q <:+: lower v) := by
      rw [Bool.eq_iff_iff, includes_iff]; simp
    simp [refMatches, hq, hv, valueOf, hinc]

/-- Every row of a store file kept under headers with a reference column has
that column. -/
theorem store_rows_have_ref {hs : List Str} (hH : HeadersOK hs) (href : refKey ∈ hs)
    {file : Str} (hg : ShapedStore hs file) :
    ∀ r ∈ DataManager.all file, lookupKey r refKey ≠ none := by
  intro r hr
  rw [lookupKey_shaped hH r (hg r hr) refKey href]
  simp

/-- C12: the filter of the list pages.  For every lower-casing function, every
query value and every list of records that have a 'Referans ID': when the
trimmed query text `q` is not empty, the result is the list of the records, in
the same order, whose 'Referans ID' lower-cased contains `q` lower-cased as a
contiguous part; when the query is absent, or its trimmed text is empty (as for
an empty or white-space-only text), every record is returned.  The result is
always a sub-list of the records, and the rows of a store file with a reference
column all have it, so both list pages return such a result. -/
theorem C12_reference_filter (lower : Str → Str) (query : Option QueryValue) :
    (∀ rows : List Row, (∀ r ∈ rows, lookupKey r refKey ≠ none) →
      ∀ q, queryText query = some q → q ≠ [] →
        refFilter lower query rows =
          some (rows.filter (fun r => decide (lower q <:+: lower (valueOf r refKey))))) ∧
    (∀ rows : List Row, (queryText query = none ∨ queryText query = some []) →
      refFilter lower query rows = some rows) ∧
    (∀ s : Str, (∀ c ∈ s, isJsWhitespace c = true) →
      queryText (some (QueryValue.text s)) = some []) ∧
    (∀ rows res : List Row, refFilter lower query rows = some res → res.Sublist rows) ∧
    (∀ (hs : List Str) (file : Str), HeadersOK hs → refKey ∈ hs → ShapedStore hs file →
      ∃ res, handleSpindles lower file query = some res ∧
        handleYedeks lower file query = some res ∧
        res.Sublist (DataManager.all file) ∧
        ∀ q, queryText query = some q → q ≠ [] →
          res = (DataManager.all file).filter
            (fun r => decide (lower q <:+: lower (valueOf r refKey)))) := by
  have hA : ∀ rows : List Row, (∀ r ∈ rows, lookupKey r refKey ≠ none) →
      ∀ q, queryText query = some q → q ≠ [] →
        refFilter lower query rows =
          some (rows.filter (fun r => decide (lower q <:+: lower (valueOf r refKey)))) := by
    intro rows hrec q hq hne
    unfold refFilter
    rw [hq]
    exact filterRows_total _ _ rows (fun r hr => refMatches_text lower q hne r (hrec r hr))
  have hB : ∀ rows : List Row, (queryText query = none ∨ queryText query = some []) →
      refFilter lower query rows = some rows := by
    intro rows hq
    unfold refFilter
    rw [filterRows_total _ (fun _ => true) rows (fun r _ => refMatches_blank lower _ hq r)]
    simp
  refine ⟨hA, hB, ?_, ?_, ?_⟩
  · intro s hs
    simp [queryText, queryToString, trim_blank s hs]
  · intro rows res h
    exact filterRows_sublist _ rows res h
  · intro hs file hH href hg
    have hrec := store_rows_have_ref hH href hg
    cases hq : queryText query with
    | none =>
      refine ⟨DataManager.all file, hB _ (Or.inl hq), hB _ (Or.inl hq), List.Sublist.refl _, ?_⟩
      intro q h; cases h
    | some q0 =>
      by_cases hne : q0 = []
      · subst hne
        refine ⟨DataManager.all file, hB _ (Or.inr hq), hB _ (Or.inr hq), List.Sublist.refl _, ?_⟩
        intro q h hq2
        cases h; exact absurd rfl hq2
      · refine ⟨_, hA _ hrec q0 hq hne, hA _ hrec q0 hq hne, List.filter_sublist _, ?_⟩
        intro q h _
        cases h; rfl

/-- C12 (witness): on a spindle file with three records the query ` sP- ` keeps
the records 1 and 3, in this order. -/
theorem C12_reference_filter_witness :
    (∀ r ∈ DataManager.all demoSpindleFile, lookupKey r refKey ≠ none) ∧
    (refFilter lowerAscii (some (QueryValue.text (String.toList " sP- ")))
        (DataManager.all demoSpindleFile)).map idsOf =
      some [some (String.toList "1"), some (String.toList "3")] :=
  ⟨by decide,
   (congrArg (Option.map idsOf)
      ((C12_reference_filter lowerAscii (some (QueryValue.text (String.toList " sP- ")))).1
        (DataManager.all demoSpindleFile) (by decide) (String.toList "sP-") (by decide)
        (by decide))).trans (by decide)⟩

/-! ## Two calls of add at the same time -/

theorem add_split {argLimit : Nat} (hs : List Str) (file : Str) (data : Row) :
    DataManager.add argLimit hs file data = (addRead argLimit file data).map (addWrite hs) := by
  simp only [DataManager.add, addRead, addWrite]
  cases hn : nextId argLimit (DataManager.all file) <;> simp [addWrite]

theorem numToStr_one : numToStr 1 = String.toList "1" := by decide

theorem addRead_init {argLimit : Nat} {hs : List Str} (hH : HeadersOK hs) (data : Row) :
    addRead argLimit (initFile hs) data =
      some ([setField data idKey (String.toList "1")], String.toList "1") := by
  unfold addRead
  simp only [DataManager.all, parseCsv_initFile hH]
  rfl

theorem schedules2_eq : schedules2 =
    [[FileOp.read 0, FileOp.write 0, FileOp.read 1, FileOp.write 1],
     [FileOp.read 0, FileOp.read 1, FileOp.write 0, FileOp.write 1],
     [FileOp.read 0, FileOp.read 1, FileOp.write 1, FileOp.write 0],
     [FileOp.read 1, FileOp.read 0, FileOp.write 0, FileOp.write 1],
     [FileOp.read 1, FileOp.read 0, FileOp.write 1, FileOp.write 0],
     [FileOp.read 1, FileOp.write 1, FileOp.read 0, FileOp.write 0]] := by
  decide

theorem lookupKey_setField_id (data : Row) (v : Str) :
    valueOf (setField data idKey v) idKey = v := by
  simp [valueOf, lookupKey, setField, List.lookup]

/-- The text a call writes on a new store when no other call is made. -/
theorem add_init {argLimit : Nat} {hs : List Str} (hH : HeadersOK hs) (data : Row) :
    DataManager.add argLimit hs (initFile hs) data =
      some (DataManager.save hs [setField data idKey (String.toList "1")], String.toList "1") := by
  rw [add_split, addRead_init hH]; rfl

theorem numToStr_two : numToStr 2 = String.toList "2" := by decide

/-- The file a lone call leaves on a new store holds one row. -/
theorem all_add_init {hs : List Str} (hH : HeadersOK hs) (data : Row) (hf : FieldsNoLF hs data) :
    (DataManager.all (DataManager.save hs [setField data idKey (String.toList "1")])).length
      = 1 := by
  have hrow : ∀ r ∈ [setField data idKey (String.toList "1")], NoLineFeed hs r := by
    intro r hr
    rw [List.mem_singleton.mp hr, ← numToStr_one]
    exact (idRow_setField data hf 1).1
  rw [all_save_general hH _ hrow]
  rfl

/-- A call that reads and writes with nothing in between does what `add` does. -/
theorem runCalls_read_write {argLimit : Nat} (hs : List Str) (datas : List Row) (st : Calls)
    (i : Nat)
    (data : Row) (hd : datas[i]? = some data) (f id : Str)
    (hadd : DataManager.add argLimit hs st.file data = some (f, id)) (rest : List FileOp) :
    ∃ h, runCalls argLimit hs datas st (FileOp.read i :: FileOp.write i :: rest) =
      runCalls argLimit hs datas
        { file := f, held := (i, h) :: st.held, returned := st.returned ++ [(i, id)] } rest := by
  rw [add_split] at hadd
  cases hr : addRead argLimit st.file data with
  | none => simp [hr] at hadd
  | some h =>
    simp only [hr, Option.map_some', Option.some.injEq] at hadd
    refine ⟨h, ?_⟩
    simp [runCalls, stepCall, hd, hr, List.lookup, hadd]

/-- Two calls of `add` on a new store, one after the other. -/
theorem two_adds_in_turn {argLimit : Nat} {hs : List Str} (hH : HeadersOK hs) (da db : Row)
    (hfa : FieldsNoLF hs da) (hfb : FieldsNoLF hs db) (hlim : 1 ≤ argLimit) :
    ∃ f1 f2, DataManager.add argLimit hs (initFile hs) da = some (f1, String.toList "1") ∧
      DataManager.add argLimit hs f1 db = some (f2, String.toList "2") ∧
      idsOf (DataManager.all f2) = [some (String.toList "1"), some (String.toList "2")] := by
  have hids0 : idsOf (DataManager.all (initFile hs)) = ([] : List Nat).map idText := by
    simp [DataManager.all, parseCsv_initFile hH, idsOf]
  obtain ⟨f1, ha, hg1, hids1⟩ :=
    add_ids_shaped hH (storeInv_init hH).1 [] hids0 (by simp)
      (by simp : ([] : List Nat).length ≤ argLimit) da hfa
  have hb1 : ∀ n ∈ ([] : List Nat) ++ [List.foldl max 0 ([] : List Nat) + 1], n < maxExact := by
    simp [maxExact]
  obtain ⟨f2, hb, _, hids2⟩ := add_ids_shaped hH hg1 _ hids1 hb1 (by simpa using hlim) db hfb
  refine ⟨f1, f2, ?_, ?_, ?_⟩
  · rw [ha, ← numToStr_one]; rfl
  · rw [hb, ← numToStr_two]; rfl
  · rw [hids2, ← numToStr_one, ← numToStr_two]; rfl

/-- The calls one after the other: the second call reads the file that the first
one wrote, whichever of the two comes first, and no row is lost. -/
theorem runCalls_in_turn {argLimit : Nat} {hs : List Str} (hH : HeadersOK hs) (d0 d1 : Row)
    (hf0 : FieldsNoLF hs d0) (hf1 : FieldsNoLF hs d1) (hlim : 1 ≤ argLimit) :
    ∀ s ∈ schedules2, bothReadFirst s = false →
      ∃ st first last dfirst dlast, runCalls argLimit hs [d0, d1] (newCalls hs) s = some st ∧
        st.returned = [(first, String.toList "1"), (last, String.toList "2")] ∧
        first ≠ last ∧ [d0, d1][first]? = some dfirst ∧ [d0, d1][last]? = some dlast ∧
        run argLimit hs (initFile hs) [Op.add dfirst, Op.add dlast] =
          some (st.file, [Out.id (String.toList "1"), Out.id (String.toList "2")]) ∧
        idsOf (DataManager.all st.file) =
          [some (String.toList "1"), some (String.toList "2")] := by
  have key : ∀ (a b : Nat) (da db : Row), [d0, d1][a]? = some da → [d0, d1][b]? = some db →
      a ≠ b → FieldsNoLF hs da → FieldsNoLF hs db →
      ∃ st first last dfirst dlast,
        runCalls argLimit hs [d0, d1] (newCalls hs)
          [FileOp.read a, FileOp.write a, FileOp.read b, FileOp.write b] = some st ∧
        st.returned = [(first, String.toList "1"), (last, String.toList "2")] ∧
        first ≠ last ∧ [d0, d1][first]? = some dfirst ∧ [d0, d1][last]? = some dlast ∧
        run argLimit hs (initFile hs) [Op.add dfirst, Op.add dlast] =
          some (st.file, [Out.id (String.toList "1"), Out.id (String.toList "2")]) ∧
        idsOf (DataManager.all st.file) =
          [some (String.toList "1"), some (String.toList "2")] := by
    intro a b da db hda hdb hab hfa hfb
    obtain ⟨f1, f2, ha, hb, hids⟩ := two_adds_in_turn hH da db hfa hfb hlim
    obtain ⟨h1, e1⟩ := runCalls_read_write hs [d0, d1] (newCalls hs) a da hda f1 _ ha
      [FileOp.read b, FileOp.write b]
    obtain ⟨h2, e2⟩ := runCalls_read_write hs [d0, d1]
      { file := f1, held := (a, h1) :: (newCalls hs).held,
        returned := (newCalls hs).returned ++ [(a, String.toList "1")] } b db hdb f2 _ hb []
    refine ⟨{ file := f2, held := [(b, h2), (a, h1)],
              returned := [(a, String.toList "1"), (b, String.toList "2")] },
      a, b, da, db, ?_, ?_, hab, hda, hdb, ?_, ?_⟩
    · rw [e1, e2]; rfl
    · rfl
    · simp [run, step, ha, hb]
    · exact hids
  intro s hs1 hrt
  rw [schedules2_eq] at hs1
  simp only [List.mem_cons, List.mem_singleton, List.not_mem_nil, or_false] at hs1
  rcases hs1 with rfl | rfl | rfl | rfl | rfl | rfl
  · exact key 0 1 d0 d1 rfl rfl (by decide) hf0 hf1
  · simp [bothReadFirst] at hrt
  · simp [bothReadFirst] at hrt
  · simp [bothReadFirst] at hrt
  · simp [bothReadFirst] at hrt
  · exact key 1 0 d1 d0 rfl rfl (by decide) hf1 hf0

/-- Both calls read before either writes: both return `1` and the file is the
one the last writer would have left had the other call not been made. -/
theorem runCalls_same_state {argLimit : Nat} {hs : List Str} (hH : HeadersOK hs) (d0 d1 : Row) :
    ∀ s ∈ schedules2, bothReadFirst s = true →
      ∃ st first last dl, runCalls argLimit hs [d0, d1] (newCalls hs) s = some st ∧
        st.returned = [(first, String.toList "1"), (last, String.toList "1")] ∧
        first ≠ last ∧ [d0, d1][last]? = some dl ∧
        DataManager.add argLimit hs (initFile hs) dl = some (st.file, String.toList "1") := by
  intro s hs1 hrt
  rw [schedules2_eq] at hs1
  simp only [List.mem_cons, List.mem_singleton, List.not_mem_nil, or_false] at hs1
  rcases hs1 with rfl | rfl | rfl | rfl | rfl | rfl
  · simp [bothReadFirst] at hrt
  · cases h : runCalls argLimit hs [d0, d1] (newCalls hs)
        [FileOp.read 0, FileOp.read 1, FileOp.write 0, FileOp.write 1] with
    | none => simp [runCalls, stepCall, newCalls, addRead_init hH, List.lookup, addWrite] at h
    | some st =>
      simp [runCalls, stepCall, newCalls, addRead_init hH, List.lookup, addWrite] at h
      subst h
      exact ⟨_, 0, 1, d1, rfl, rfl, by decide, rfl, add_init hH d1⟩
  · cases h : runCalls argLimit hs [d0, d1] (newCalls hs)
        [FileOp.read 0, FileOp.read 1, FileOp.write 1, FileOp.write 0] with
    | none => simp [runCalls, stepCall, newCalls, addRead_init hH, List.lookup, addWrite] at h
    | some st =>
      simp [runCalls, stepCall, newCalls, addRead_init hH, List.lookup, addWrite] at h
      subst h
      exact ⟨_, 1, 0, d0, rfl, rfl, by decide, rfl, add_init hH d0⟩
  · cases h : runCalls argLimit hs [d0, d1] (newCalls hs)
        [FileOp.read 1, FileOp.read 0, FileOp.write 0, FileOp.write 1] with
    | none => simp [runCalls, stepCall, newCalls, addRead_init hH, List.lookup, addWrite] at h
    | some st =>
      simp [runCalls, stepCall, newCalls, addRead_init hH, List.lookup, addWrite] at h
      subst h
      exact ⟨_, 0, 1, d1, rfl, rfl, by decide, rfl, add_init hH d1⟩
  · cases h : runCalls argLimit hs [d0, d1] (newCalls hs)
        [FileOp.read 1, FileOp.read 0, FileOp.write 1, FileOp.write 0] with
    | none => simp [runCalls, stepCall, newCalls, addRead_init hH, List.lookup, addWrite] at h
    | some st =>
      simp [runCalls, stepCall, newCalls, addRead_init hH, List.lookup, addWrite] at h
      subst h
      exact ⟨_, 1, 0, d0, rfl, rfl, by decide, rfl, add_init hH d0⟩
  · simp [bothReadFirst] at hrt

/-- C13: lost update under concurrent calls of `add`.  Two calls `add(d0)` and
`add(d1)` on a new store with well-formed headers, each cut into its file read
and its file write.  There are orders of the four file operations in which both
calls read before either writes.  In every such order both calls read the empty
store and both return the id `1`; the file afterwards is the one written last,
which is the file that the last writer would have left had the other call not
been made, so the row of the other call is not in it: for fields without line
feed the file holds one row. -/
theorem C13_lost_update (argLimit : Nat) (hs : List Str) (hH : HeadersOK hs) (d0 d1 : Row) :
    (∃ s ∈ schedules2, bothReadFirst s = true) ∧
    (∀ s ∈ schedules2, bothReadFirst s = true →
      ∃ st first last dl, runCalls argLimit hs [d0, d1] (newCalls hs) s = some st ∧
        st.returned = [(first, String.toList "1"), (last, String.toList "1")] ∧
        first ≠ last ∧ [d0, d1][last]? = some dl ∧
        DataManager.add argLimit hs (initFile hs) dl = some (st.file, String.toList "1") ∧
        (FieldsNoLF hs dl → (DataManager.all st.file).length = 1)) := by
  refine ⟨⟨[FileOp.read 0, FileOp.read 1, FileOp.write 0, FileOp.write 1], by decide, rfl⟩, ?_⟩
  intro s hs1 hrt
  obtain ⟨st, first, last, dl, hrun, hret, hne, hdl, hadd⟩ :=
    runCalls_same_state hH d0 d1 s hs1 hrt
  refine ⟨st, first, last, dl, hrun, hret, hne, hdl, hadd, ?_⟩
  intro hf
  have hfile : DataManager.save hs [setField dl idKey (String.toList "1")] = st.file := by
    have h := (add_init hH dl).symm.trans hadd
    simp only [Option.some.injEq, Prod.mk.injEq] at h
    exact h.1
  rw [← hfile]
  exact all_add_init hH dl hf

/-- C13 (witness): the order read, read, write, write of the calls `add(A1)` and
`add(B2)`: both return `1` and the file holds the row of the call that wrote
last. -/
theorem C13_lost_update_witness :
    HeadersOK demoHeaders ∧
    ∃ st first last dl,
      runCalls demoLimit demoHeaders [demoA, demoB] (newCalls demoHeaders)
        [FileOp.read 0, FileOp.read 1, FileOp.write 0, FileOp.write 1] = some st ∧
      st.returned = [(first, String.toList "1"), (last, String.toList "1")] ∧
      first ≠ last ∧ [demoA, demoB][last]? = some dl ∧
      DataManager.add demoLimit demoHeaders (initFile demoHeaders) dl =
        some (st.file, String.toList "1") ∧
      (FieldsNoLF demoHeaders dl → (DataManager.all st.file).length = 1) :=
  ⟨by decide,
   (C13_lost_update demoLimit demoHeaders (by decide) demoA demoB).2
     [FileOp.read 0, FileOp.read 1, FileOp.write 0, FileOp.write 1] (by decide) (by decide)⟩

end WebSpindle
